import Mathlib

/-!
Prismatic: potential slicing and beam set-up.

A shallow embedding of `PRISM01_calcPotential.cpp`, of the tail of the kernel
functions of `projectedPotential.cpp`, and of the coordinate and beam set-up
and the plane-wave propagation of `PRISM02_calcSMatrix.cpp`.

Conventions of the embedding.

* `PRISMATIC_FLOAT_PRECISION` values are exact rationals (`ℚ`): rounding error
  and overflow of the floating-point type are not modelled.
* `long` and `size_t` values are `ℤ` and `ℕ`; no computation here gets near the
  word size, so no wrap-around is modelled.  The C++ operator `%` on `long` is
  the truncating remainder `Int.tmod`.
* `ArrayND` objects are their extents together with the element as a function
  of the index tuple (`at(j, i)` is `data j i`); the flat memory layout is
  modelled only for the buffers that the propagators address through flat
  indices.
* `std::round` is `cround` (halfway cases away from zero).
* A division by zero, which the source answers with an infinity, a NaN or a
  trap, has the value that `ℚ` and `ℤ` give it; the statements are meant for
  non-zero divisors.
* A worker thread's unit of work is the processing of one range obtained from
  the dispatcher.  Units write disjoint slices, so the threads are modelled by
  running the units one after the other in the order the ranges were handed
  out.
-/

namespace Prismatic

/-! ## Arrays -/

/-- Two-dimensional `ArrayND`: extents and the element at `(j, i)`. -/
structure Array2D (α : Type) where
  dimj : ℕ
  dimi : ℕ
  data : ℕ → ℕ → α

/-- Three-dimensional `ArrayND`: extents and the element at `(k, j, i)`. -/
structure Array3D (α : Type) where
  dimk : ℕ
  dimj : ℕ
  dimi : ℕ
  data : ℕ → ℕ → ℕ → α

/-- The array `zeros_ND<2, T>({{dimj, dimi}})`. -/
def zeros_ND2 {α : Type} [Zero α] (dimj dimi : ℕ) : Array2D α :=
  { dimj := dimj, dimi := dimi, data := fun _ _ => 0 }

/-- The array `zeros_ND<3, T>({{dimk, dimj, dimi}})`. -/
def zeros_ND3 {α : Type} [Zero α] (dimk dimj dimi : ℕ) : Array3D α :=
  { dimk := dimk, dimj := dimj, dimi := dimi, data := fun _ _ _ => 0 }

/-- Read `A.at(j, i)`. -/
def Array2D.get {α : Type} (A : Array2D α) (j i : ℕ) : α := A.data j i

/-- The assignment `A.at(j, i) = v`. -/
def Array2D.set {α : Type} (A : Array2D α) (j i : ℕ) (v : α) : Array2D α :=
  { A with data := fun j' i' => if j' = j ∧ i' = i then v else A.data j' i' }

/-- Read `A.at(k, j, i)`. -/
def Array3D.get {α : Type} (A : Array3D α) (k j i : ℕ) : α := A.data k j i

/-- The call `copy(P.begin(), P.end(), &A.at(k, 0, 0))` for a slice `P` of the
extents of one slice of `A`: slice `k` of `A` becomes `P`. -/
def Array3D.copySlice {α : Type} (A : Array3D α) (k : ℕ) (P : Array2D α) : Array3D α :=
  { A with data := fun k' j i => if k' = k then P.data j i else A.data k' j i }

/-! ## Scalars -/

/-- The function `std::round`: nearest integer, halfway cases away from zero. -/
def cround (q : ℚ) : ℤ := if 0 ≤ q then ⌊q + 1 / 2⌋ else -⌊-q + 1 / 2⌋

/-- The expression `(i % dim + dim) % dim` on `long` operands. -/
def wrapIndex (i dim : ℤ) : ℤ := Int.tmod (Int.tmod i dim + dim) dim

/-- The iterator `std::max_element(first, last)`, dereferenced: the largest
element, `none` for an empty range (where the source dereferences `end()`). -/
def max_element {α : Type} [LinearOrder α] : List α → Option α
  | [] => none
  | a :: l => some (l.foldl (fun m t => if m < t then t else m) a)

/-! ## Parameters -/

/-- One entry of `pars.atoms`. -/
structure Atom where
  x : ℚ
  y : ℚ
  z : ℚ
  species : ℕ
  sigma : ℚ
  occ : ℚ

/-- The fields of `Parameters` and of its `meta` member that the potential
slicer reads. -/
structure Parameters where
  atoms : List Atom
  tiledCellDim0 : ℚ
  tiledCellDim1 : ℚ
  tiledCellDim2 : ℚ
  imageSize0 : ℕ
  imageSize1 : ℕ
  pixelSize0 : ℚ
  pixelSize1 : ℚ
  sliceThickness : ℚ
  potBound : ℚ
  includeThermalEffects : Bool
  includeOccupancy : Bool
  randomSeed : ℕ

/-- The two pseudo-random sources of the slicer, as functions of the seed and
of the number of draws made since seeding: `rand` is
`rand() / RAND_MAX` after `srand(seed)`, and `randn` is the draw of
`normal_distribution(0, 1)` from `default_random_engine de(seed)`. -/
structure RandomSource where
  rand : ℕ → ℕ → ℚ
  randn : ℕ → ℕ → ℚ

/-! ## `get_unique_atomic_species` -/

/-- The algorithm `std::unique`: drop every element equal to its predecessor. -/
def unique : List ℕ → List ℕ
  | [] => []
  | [a] => [a]
  | a :: b :: l => if a = b then unique (b :: l) else a :: unique (b :: l)

/-- The sorted list of the distinct species of the atoms. -/
def get_unique_atomic_species (pars : Parameters) : List ℕ :=
  let unique_atoms := pars.atoms.map (fun a => a.species)
  unique (unique_atoms.insertionSort (fun a b => a ≤ b))

/-! ## `generateProjectedPotentials` -/

/-- The slice index of a height `t_z`:
`round((-t_z + *max_z) / pars.meta.sliceThickness + 0.5) - 1`. -/
def zPlaneOf (max_z sliceThickness t_z : ℚ) : ℤ :=
  cround ((-t_z + max_z) / sliceThickness + 1 / 2) - 1

/-- The map `Z_lookup` after the loop `Z_lookup[unique_species[i]] = i`; a key
that was never inserted reads as `0`, as `operator[]` of `std::map` inserts
it. -/
def build_Z_lookup (unique_species : List ℕ) : ℕ → ℕ :=
  (List.range unique_species.length).foldl
    (fun Z i => fun key => if key = unique_species.getD i 0 then i else Z key)
    (fun _ => 0)

/-- What the worker closure of `generateProjectedPotentials` captures (the
dispatcher apart). -/
structure WorkerCapture where
  pars : Parameters
  numPlanes : ℕ
  x : List ℚ
  y : List ℚ
  z : List ℚ
  ID : List ℕ
  sigma : List ℚ
  occ : List ℚ
  zPlane : List ℤ
  Z_lookup : ℕ → ℕ
  xvec : List ℤ
  yvec : List ℤ
  potentialLookup : Array3D ℚ

/-- The loops over `ii` and `jj`:
`projectedPotential.at(yp[jj], xp[ii]) += potentialLookup.at(cur_Z, jj, ii)`. -/
def addKernel (potentialLookup : Array3D ℚ) (cur_Z : ℕ) (xp yp : List ℤ)
    (projectedPotential : Array2D ℚ) : Array2D ℚ :=
  (List.range xp.length).foldl
    (fun P ii =>
      (List.range yp.length).foldl
        (fun P jj =>
          P.set (yp.getD jj 0).toNat (xp.getD ii 0).toNat
            (P.get (yp.getD jj 0).toNat (xp.getD ii 0).toNat
              + potentialLookup.get cur_Z jj ii))
        P)
    projectedPotential

/-- State of the loop over the atoms of one slice: the accumulated slice and
the number of draws made so far from `rand` and from `randn`.  The field
`accumulated` is a ghost: it records, latest first, the atoms whose kernel was
added, and nothing is computed from it. -/
structure SliceState where
  projectedPotential : Array2D ℚ
  nRand : ℕ
  nRandn : ℕ
  accumulated : List ℕ

/-- The pixel position `(X, Y)` of an atom and the number of `randn` draws
after computing it. -/
def atomPixel (c : WorkerCapture) (rs : RandomSource) (seed nRandn atom_num : ℕ) :
    ℤ × ℤ × ℕ :=
  if c.pars.includeThermalEffects then
    (cround ((c.x.getD atom_num 0 + rs.randn seed nRandn * c.sigma.getD atom_num 0)
        / c.pars.pixelSize1),
     cround ((c.y.getD atom_num 0 + rs.randn seed (nRandn + 1) * c.sigma.getD atom_num 0)
        / c.pars.pixelSize0),
     nRandn + 2)
  else
    (cround (c.x.getD atom_num 0 / c.pars.pixelSize1),
     cround (c.y.getD atom_num 0 / c.pars.pixelSize0),
     nRandn)

/-- One iteration of the loop over `atom_num` for the slice `currentSlice`. -/
def atomStep (c : WorkerCapture) (rs : RandomSource) (currentSlice : ℕ)
    (st : SliceState) (atom_num : ℕ) : SliceState :=
  let seed := c.pars.randomSeed + currentSlice * c.numPlanes
  if c.zPlane.getD atom_num 0 = (currentSlice : ℤ) then
    if c.pars.includeOccupancy && decide (rs.rand seed st.nRand > c.occ.getD atom_num 0) then
      { st with nRand := st.nRand + 1 }
    else
      let nRand := if c.pars.includeOccupancy then st.nRand + 1 else st.nRand
      let cur_Z := c.Z_lookup (c.ID.getD atom_num 0)
      let XY := atomPixel c rs seed st.nRandn atom_num
      let dim0 : ℤ := c.pars.imageSize0
      let dim1 : ℤ := c.pars.imageSize1
      let xp := c.xvec.map (fun i => wrapIndex (i + XY.1) dim1)
      let yp := c.yvec.map (fun i => wrapIndex (i + XY.2.1) dim0)
      { projectedPotential := addKernel c.potentialLookup cur_Z xp yp st.projectedPotential,
        nRand := nRand,
        nRandn := XY.2.2,
        accumulated := atom_num :: st.accumulated }
  else st

/-- The loop `for (atom_num = 0; atom_num < x.size(); ++atom_num)` of the slice
`currentSlice`, the generators being seeded anew; `projectedPotential` is the
buffer that the unit of work allocated. -/
def atomLoop (c : WorkerCapture) (rs : RandomSource) (currentSlice : ℕ)
    (projectedPotential : Array2D ℚ) : SliceState :=
  (List.range c.x.length).foldl (atomStep c rs currentSlice)
    { projectedPotential := projectedPotential, nRand := 0, nRandn := 0, accumulated := [] }

/-- The body of `while (currentSlice != stop)` up to the copy: the buffer after
the loop over the atoms. -/
def accumulateSlice (c : WorkerCapture) (rs : RandomSource) (currentSlice : ℕ)
    (projectedPotential : Array2D ℚ) : Array2D ℚ :=
  (atomLoop c rs currentSlice projectedPotential).projectedPotential

/-- The loop `while (currentSlice != stop)` with `n` iterations left: accumulate
the slice, copy the buffer to `pars.pot`, advance. -/
def sliceLoop (c : WorkerCapture) (rs : RandomSource) :
    ℕ → ℕ → Array2D ℚ → Array3D ℚ → Array3D ℚ
  | 0, _, _, pot => pot
  | n + 1, currentSlice, projectedPotential, pot =>
    let P := accumulateSlice c rs currentSlice projectedPotential
    sliceLoop c rs n (currentSlice + 1) P (pot.copySlice currentSlice P)

/-- One unit of work of a slicing worker: the body of
`while (dispatcher.getWork(currentSlice, stop))` for the range
`[currentSlice, stop)` with `currentSlice <= stop`, which allocates the zeroed
buffer and runs the loop over the slices of the range. -/
def workUnit (c : WorkerCapture) (rs : RandomSource) (pot : Array3D ℚ)
    (range : ℕ × ℕ) : Array3D ℚ :=
  sliceLoop c rs (range.2 - range.1) range.1
    (zeros_ND2 c.pars.imageSize0 c.pars.imageSize1) pot

/-- The closure data that `generateProjectedPotentials` computes before it
starts the workers; `none` when there is no atom (`max_element` of an empty
range is dereferenced). -/
def prepare (pars : Parameters) (potentialLookup : Array3D ℚ) (unique_species : List ℕ)
    (xvec yvec : List ℤ) : Option WorkerCapture :=
  let x := pars.atoms.map (fun a => a.x * pars.tiledCellDim2)
  let y := pars.atoms.map (fun a => a.y * pars.tiledCellDim1)
  let z := pars.atoms.map (fun a => a.z * pars.tiledCellDim0)
  match max_element z with
  | none => none
  | some max_z =>
    let zPlane := z.map (zPlaneOf max_z pars.sliceThickness)
    match max_element zPlane with
    | none => none
    | some max_p =>
      some
        { pars := pars,
          numPlanes := (max_p + 1).toNat,
          x := x, y := y, z := z,
          ID := pars.atoms.map (fun a => a.species),
          sigma := pars.atoms.map (fun a => a.sigma),
          occ := pars.atoms.map (fun a => a.occ),
          zPlane := zPlane,
          Z_lookup := build_Z_lookup unique_species,
          xvec := xvec, yvec := yvec,
          potentialLookup := potentialLookup }

/-- The function `generateProjectedPotentials`: the resulting `pars.numPlanes`
and `pars.pot`.  `ranges` lists the work ranges in the order the dispatcher
handed them out (`WorkDispatcher` is not part of the sources at hand). -/
def generateProjectedPotentials (pars : Parameters) (rs : RandomSource)
    (potentialLookup : Array3D ℚ) (unique_species : List ℕ) (xvec yvec : List ℤ)
    (ranges : List (ℕ × ℕ)) : Option (ℕ × Array3D ℚ) :=
  match prepare pars potentialLookup unique_species xvec yvec with
  | none => none
  | some c =>
    some (c.numPlanes,
      ranges.foldl (workUnit c rs) (zeros_ND3 c.numPlanes pars.imageSize0 pars.imageSize1))

/-! ## `fetch_potentials` and `PRISM01_calcPotential` -/

/-- The assignment `A.at(k, j, i) = v`. -/
def Array3D.set {α : Type} (A : Array3D α) (k j i : ℕ) (v : α) : Array3D α :=
  { A with data := fun k' j' i' => if k' = k ∧ j' = j ∧ i' = i then v else A.data k' j' i' }

/-- The loop over `i` of `fetch_potentials`, with `dimi` iterations:
`potentials.at(k, j, i) = cur_pot.at(j, i)`. -/
def fetchRow (cur_pot : Array2D ℚ) (k j dimi : ℕ) (potentials : Array3D ℚ) : Array3D ℚ :=
  (List.range dimi).foldl (fun P i => P.set k j i (cur_pot.get j i)) potentials

/-- The loop over `j` of `fetch_potentials`, with `dimj` iterations. -/
def fetchSlice (cur_pot : Array2D ℚ) (k dimj dimi : ℕ) (potentials : Array3D ℚ) :
    Array3D ℚ :=
  (List.range dimj).foldl (fun P j => fetchRow cur_pot k j dimi P) potentials

/-- The function `fetch_potentials`: slice `k` of the table becomes the kernel
`projPot(atomic_species[k], xr, yr)`.  The kernel function `projPot` (of
`projectedPotential.cpp`, floating-point quadrature) is a parameter. -/
def fetch_potentials (projPot : ℕ → List ℚ → List ℚ → Array2D ℚ)
    (potentials : Array3D ℚ) (atomic_species : List ℕ) (xr yr : List ℚ) : Array3D ℚ :=
  (List.range potentials.dimk).foldl
    (fun P k =>
      fetchSlice (projPot (atomic_species.getD k 0) xr yr) k potentials.dimj potentials.dimi P)
    potentials

/-- The value `yleng = ceil(potBound / pixelSize[0])`. -/
def yleng (pars : Parameters) : ℤ := ⌈pars.potBound / pars.pixelSize0⌉

/-- The value `xleng = ceil(potBound / pixelSize[1])`. -/
def xleng (pars : Parameters) : ℤ := ⌈pars.potBound / pars.pixelSize1⌉

/-- A coordinate vector of `PRISM01_calcPotential`: `2 * (size_t)leng + 1`
entries, filled by `i = tmp++` starting from `tmp = -leng`. -/
def offsetVector (leng : ℤ) : List ℤ :=
  (List.range (2 * leng.toNat + 1)).map (fun (i : ℕ) => -leng + (i : ℤ))

/-- The vector `xvec` of pixel offsets of the kernel. -/
def xvecOf (pars : Parameters) : List ℤ := offsetVector (xleng pars)

/-- The vector `yvec` of pixel offsets of the kernel. -/
def yvecOf (pars : Parameters) : List ℤ := offsetVector (yleng pars)

/-- The vector `xr`: `xr[i] = xvec[i] * pixelSize[1]`. -/
def xrOf (pars : Parameters) : List ℚ := (xvecOf pars).map (fun (v : ℤ) => (v : ℚ) * pars.pixelSize1)

/-- The vector `yr`: `yr[j] = yvec[j] * pixelSize[0]`. -/
def yrOf (pars : Parameters) : List ℚ := (yvecOf pars).map (fun (v : ℤ) => (v : ℚ) * pars.pixelSize0)

/-- The table `potentialLookup` of `PRISM01_calcPotential` after
`fetch_potentials`. -/
def potentialLookupOf (projPot : ℕ → List ℚ → List ℚ → Array2D ℚ) (pars : Parameters) :
    Array3D ℚ :=
  fetch_potentials projPot
    (zeros_ND3 (get_unique_atomic_species pars).length
      (2 * (yleng pars).toNat + 1) (2 * (xleng pars).toNat + 1))
    (get_unique_atomic_species pars) (xrOf pars) (yrOf pars)

/-- The function `PRISM01_calcPotential` up to the optional saving of the
slices: the resulting `pars.numPlanes` and `pars.pot`. -/
def PRISM01_calcPotential (projPot : ℕ → List ℚ → List ℚ → Array2D ℚ) (pars : Parameters)
    (rs : RandomSource) (ranges : List (ℕ × ℕ)) : Option (ℕ × Array3D ℚ) :=
  generateProjectedPotentials pars rs (potentialLookupOf projPot pars)
    (get_unique_atomic_species pars) (xvecOf pars) (yvecOf pars) ranges

/-! ## `PRISM02_calcSMatrix`: coordinates, masks and beams -/

/-- The double loop `for (y = 0; y < dimj; ++y) for (x = 0; x < dimi; ++x)`
over a state. -/
def rasterLoop {σ : Type} (dimj dimi : ℕ) (body : σ → ℕ → ℕ → σ) (init : σ) : σ :=
  (List.range dimj).foldl
    (fun st y => (List.range dimi).foldl (fun st x => body st y x) st) init

/-- The selection policy `pars.meta.tiltMode` of the tilt series. -/
inductive TiltSelection where
  | Rectangular
  | Radial
  deriving DecidableEq

/-- The fields of `Parameters` and of its `meta` member that the set-up of
`PRISM02_calcSMatrix` reads. -/
structure SMatrixParameters where
  pot : Array3D ℚ
  pixelSize0 : ℚ
  pixelSize1 : ℚ
  realspacePixelSize0 : ℚ
  realspacePixelSize1 : ℚ
  lambda : ℚ
  sliceThickness : ℚ
  tiledCellDim0 : ℚ
  tiledCellDim1 : ℚ
  tiledCellDim2 : ℚ
  alphaBeamMax : ℚ
  interpolationFactorX : ℕ
  interpolationFactorY : ℕ
  tiltMode : TiltSelection
  xTiltStep_tem : ℚ
  yTiltStep_tem : ℚ
  xTiltOffset_tem : ℚ
  yTiltOffset_tem : ℚ
  minXtilt_tem : ℚ
  maxXtilt_tem : ℚ
  minYtilt_tem : ℚ
  maxYtilt_tem : ℚ
  minRtilt : ℚ
  maxRtilt : ℚ

/-- The two functions of `utility.h` that the set-up calls and whose code is
not at hand; they are parameters of the embedding.  The two arrays that
`meshgrid` returns are taken to have the same extents. -/
structure Utility where
  makeFourierCoords : ℕ → ℚ → List ℚ
  meshgrid : List ℚ → List ℚ → Array2D ℚ × Array2D ℚ

/-- What `setupCoordinates` stores in `pars`; `K` is the type of
`std::complex<PRISMATIC_FLOAT_PRECISION>`. -/
structure Coordinates (K : Type) where
  imageSize0 : ℕ
  imageSize1 : ℕ
  qxa : Array2D ℚ
  qya : Array2D ℚ
  q2 : Array2D ℚ
  qMax : ℚ
  qMask : Array2D ℕ
  prop : Array2D K
  propBack : Array2D K

/-- The anti-aliasing mask of `setupCoordinates` for an image of
`dimj x dimi` pixels. -/
def buildMask (dimj dimi : ℕ) : Array2D ℕ :=
  let offset_x : ℤ := ((dimi / 4 : ℕ) : ℤ)
  let offset_y : ℤ := ((dimj / 4 : ℕ) : ℤ)
  let ndimy : ℤ := (dimj : ℤ)
  let ndimx : ℤ := (dimi : ℤ)
  rasterLoop (dimj / 2) (dimi / 2)
    (fun qMask y x =>
      qMask.set (wrapIndex ((y : ℤ) - offset_y) ndimy).toNat
        (wrapIndex ((x : ℤ) - offset_x) ndimx).toNat 1)
    (zeros_ND2 dimj dimi)

/-- The propagator `pars.prop` and the back-propagator `pars.propBack` of
`setupCoordinates`.  `cexp` is the complex exponential, `I` the imaginary unit
and `pi` the constant `acos(-1)`; the real factors enter through
`complex<T>(v, 0)`, the cast of `ℚ` into `K`. -/
def buildPropagators {K : Type} [Field K] (cexp : K → K) (I pi : K)
    (lambda sliceThickness tiledCellDim0 : ℚ) (q2 : Array2D ℚ) (qMask : Array2D ℕ)
    (imageSize0 imageSize1 : ℕ) : Array2D K × Array2D K :=
  rasterLoop qMask.dimj qMask.dimi
    (fun (st : Array2D K × Array2D K) y x =>
      if qMask.get y x = 1 then
        (st.1.set y x
            (cexp (-I * pi * (lambda : K) * (sliceThickness : K) * ((q2.get y x : ℚ) : K))),
          st.2.set y x
            (cexp (I * pi * (lambda : K) * ((tiledCellDim0 / 2 : ℚ) : K)
              * ((q2.get y x : ℚ) : K))))
      else st)
    (zeros_ND2 imageSize0 imageSize1, zeros_ND2 imageSize0 imageSize1)

/-- The function `setupCoordinates`. -/
def setupCoordinates {K : Type} [Field K] (cexp : K → K) (I pi : K) (u : Utility)
    (pars : SMatrixParameters) : Coordinates K :=
  let imageSize0 := pars.pot.dimj
  let imageSize1 := pars.pot.dimi
  let qx := u.makeFourierCoords imageSize1 pars.pixelSize1
  let qy := u.makeFourierCoords imageSize0 pars.pixelSize0
  let mesh := u.meshgrid qy qx
  let qya := mesh.1
  let qxa := mesh.2
  let q2 : Array2D ℚ :=
    { qya with data := fun j i => qxa.data j i * qxa.data j i + qya.data j i * qya.data j i }
  let ncx : ℤ := ⌊(imageSize1 : ℚ) / 2⌋
  let dpx : ℚ := 1 / ((imageSize1 : ℚ) * pars.realspacePixelSize1)
  let ncy : ℤ := ⌊(imageSize0 : ℚ) / 2⌋
  let dpy : ℚ := 1 / ((imageSize0 : ℚ) * pars.realspacePixelSize0)
  let qMask := buildMask imageSize0 imageSize1
  let props := buildPropagators cexp I pi pars.lambda pars.sliceThickness pars.tiledCellDim0
    q2 qMask imageSize0 imageSize1
  { imageSize0 := imageSize0, imageSize1 := imageSize1,
    qxa := qxa, qya := qya, q2 := q2,
    qMax := min (dpx * ncx) (dpy * ncy) / 2,
    qMask := qMask, prop := props.1, propBack := props.2 }

/-- What `setupBeams` and `setupBeams_HRTEM` compute: the local `mask`, and
`pars.numberBeams`, `pars.beams`, `pars.beamsIndex` and the four tilt
lists. -/
structure Beams where
  mask : Array2D ℕ
  numberBeams : ℕ
  beams : Array2D ℚ
  beamsIndex : List ℕ
  xTilts_tem : List ℚ
  yTilts_tem : List ℚ
  xTiltsInd_tem : List ℤ
  yTiltsInd_tem : List ℤ

/-- State of the numbering loop: `pars.beams`, `pars.beamsIndex` and
`beam_count`. -/
structure Numbering where
  beams : Array2D ℚ
  beamsIndex : List ℕ
  beam_count : ℕ

/-- The block `number the beams`, which `setupBeams` and `setupBeams_HRTEM`
share word for word. -/
def numberTheBeams (mask qMask : Array2D ℕ) (imageSize0 imageSize1 : ℕ) : Numbering :=
  rasterLoop qMask.dimj qMask.dimi
    (fun (st : Numbering) y x =>
      if mask.get y x = 1 then
        { beams := st.beams.set y x (st.beam_count : ℚ),
          beamsIndex := st.beamsIndex ++ [y * qMask.dimi + x],
          beam_count := st.beam_count + 1 }
      else st)
    { beams := zeros_ND2 imageSize0 imageSize1, beamsIndex := [], beam_count := 1 }

/-- The selection test of `setupBeams` at the pixel `(y, x)`. -/
def beamTest (pars : SMatrixParameters) (q2 : Array2D ℚ) (qMask : Array2D ℕ)
    (mesh_a : Array2D ℚ × Array2D ℚ) (y x : ℕ) : Bool :=
  let interp_fx : ℤ := (pars.interpolationFactorX : ℤ)
  let interp_fy : ℤ := (pars.interpolationFactorY : ℤ)
  decide (q2.get y x < (pars.alphaBeamMax / pars.lambda) ^ 2)
    && decide (qMask.get y x = 1)
    && decide (Int.tmod (cround (mesh_a.1.get y x)) interp_fy = 0)
    && decide (Int.tmod (cround (mesh_a.2.get y x)) interp_fx = 0)

/-- The function `setupBeams`, reading the results of `setupCoordinates`. -/
def setupBeams {K : Type} (u : Utility) (pars : SMatrixParameters) (c : Coordinates K) :
    Beams :=
  let xv := u.makeFourierCoords c.imageSize1 (1 / (c.imageSize1 : ℚ))
  let yv := u.makeFourierCoords c.imageSize0 (1 / (c.imageSize0 : ℚ))
  let mesh_a := u.meshgrid yv xv
  let sel := rasterLoop c.qMask.dimj c.qMask.dimi
    (fun (st : Array2D ℕ × ℕ) y x =>
      if beamTest pars c.q2 c.qMask mesh_a y x then (st.1.set y x 1, st.2 + 1) else st)
    (zeros_ND2 c.imageSize0 c.imageSize1, 0)
  let num := numberTheBeams sel.1 c.qMask c.imageSize0 c.imageSize1
  { mask := sel.1, numberBeams := sel.2, beams := num.beams, beamsIndex := num.beamsIndex,
    xTilts_tem := [], yTilts_tem := [], xTiltsInd_tem := [], yTiltsInd_tem := [] }

/-- The comparison `sqrt(s) <= m` for `s >= 0`, without the square root. -/
def sqrtLe (s m : ℚ) : Bool := decide (0 ≤ m) && decide (s ≤ m ^ 2)

/-- The comparison `sqrt(s) >= m` for `s >= 0`, without the square root. -/
def sqrtGe (s m : ℚ) : Bool := decide (m ≤ 0) || decide (m ^ 2 ≤ s)

/-- The grid-alignment factor `interp_fx` of `setupBeams_HRTEM`. -/
def interp_fx_HRTEM (pars : SMatrixParameters) : ℤ :=
  let minXstep := pars.lambda / pars.tiledCellDim2
  if pars.tiltMode = TiltSelection.Rectangular then
    if pars.xTiltStep_tem ≥ minXstep then cround (pars.xTiltStep_tem / minXstep) else 1
  else (pars.interpolationFactorX : ℤ)

/-- The grid-alignment factor `interp_fy` of `setupBeams_HRTEM`; its guard
reads `xTiltStep_tem`, as the source does. -/
def interp_fy_HRTEM (pars : SMatrixParameters) : ℤ :=
  let minYstep := pars.lambda / pars.tiledCellDim1
  if pars.tiltMode = TiltSelection.Rectangular then
    if pars.xTiltStep_tem ≥ minYstep then cround (pars.yTiltStep_tem / minYstep) else 1
  else (pars.interpolationFactorY : ℤ)

/-- The value `beamCheck` of `setupBeams_HRTEM` at the pixel `(y, x)`. -/
def beamCheck {K : Type} (pars : SMatrixParameters) (c : Coordinates K)
    (mesh_a : Array2D ℚ × Array2D ℚ) (y x : ℕ) : Bool :=
  let relTiltX := |c.qxa.get y x * pars.lambda - pars.xTiltOffset_tem|
  let relTiltY := |c.qya.get y x * pars.lambda - pars.yTiltOffset_tem|
  if pars.tiltMode = TiltSelection.Rectangular then
    ((decide (relTiltX ≤ pars.maxXtilt_tem) && decide (relTiltY ≤ pars.maxYtilt_tem))
        && (decide (relTiltX ≥ pars.minXtilt_tem) || decide (relTiltY ≥ pars.minYtilt_tem)))
      && decide (Int.tmod (cround (mesh_a.1.get y x)) (interp_fy_HRTEM pars) = 0)
      && decide (Int.tmod (cround (mesh_a.2.get y x)) (interp_fx_HRTEM pars) = 0)
      && decide (c.qMask.get y x = 1)
  else
    let cur_qr2 := relTiltX ^ 2 + relTiltY ^ 2
    (sqrtLe cur_qr2 pars.maxRtilt && sqrtGe cur_qr2 pars.minRtilt)
      && decide (Int.tmod (cround (mesh_a.1.get y x)) (interp_fy_HRTEM pars) = 0)
      && decide (Int.tmod (cround (mesh_a.2.get y x)) (interp_fx_HRTEM pars) = 0)
      && decide (c.qMask.get y x = 1)

/-- The function `setupBeams_HRTEM`, reading the results of
`setupCoordinates`. -/
def setupBeams_HRTEM {K : Type} (u : Utility) (pars : SMatrixParameters)
    (c : Coordinates K) : Beams :=
  let xv := u.makeFourierCoords c.imageSize1 (1 / (c.imageSize1 : ℚ))
  let yv := u.makeFourierCoords c.imageSize0 (1 / (c.imageSize0 : ℚ))
  let mesh_a := u.meshgrid yv xv
  let sel := rasterLoop c.qMask.dimj c.qMask.dimi
    (fun (st : Beams) y x =>
      if beamCheck pars c mesh_a y x then
        { st with
          mask := st.mask.set y x 1,
          xTilts_tem := st.xTilts_tem ++ [c.qxa.get y x * pars.lambda],
          yTilts_tem := st.yTilts_tem ++ [c.qya.get y x * pars.lambda],
          xTiltsInd_tem := st.xTiltsInd_tem
            ++ [Int.tdiv (cround (mesh_a.2.get y x)) (interp_fx_HRTEM pars)],
          yTiltsInd_tem := st.yTiltsInd_tem
            ++ [Int.tdiv (cround (mesh_a.1.get y x)) (interp_fy_HRTEM pars)],
          numberBeams := st.numberBeams + 1 }
      else st)
    { mask := zeros_ND2 c.imageSize0 c.imageSize1, numberBeams := 0,
      beams := zeros_ND2 c.imageSize0 c.imageSize1, beamsIndex := [],
      xTilts_tem := [], yTilts_tem := [], xTiltsInd_tem := [], yTiltsInd_tem := [] }
  let num := numberTheBeams sel.mask c.qMask c.imageSize0 c.imageSize1
  { sel with beams := num.beams, beamsIndex := num.beamsIndex }

/-- One index vector of `setupSMatrixCoordinates` for the image extent `n`:
`n / 2` zeros, then for `i < n / 4` the assignments `q[i] = i` and
`q[i + n / 4] = (i - n / 4) + n`. -/
def downsampleIndex (n : ℕ) : List ℕ :=
  let n_quarter : ℕ := n / 4
  (List.range n_quarter).foldl
    (fun q i =>
      (q.set i i).set (i + n_quarter) (((i : ℤ) - (n_quarter : ℤ)) + (n : ℤ)).toNat)
    (List.replicate (n / 2) 0)

/-- The function `setupSMatrixCoordinates`: the vectors `pars.qxInd` and
`pars.qyInd`. -/
def setupSMatrixCoordinates (imageSize0 imageSize1 : ℕ) : List ℕ × List ℕ :=
  (downsampleIndex imageSize1, downsampleIndex imageSize0)

/-- What `downsampleFourierComponents` stores in `pars`. -/
structure Downsampled where
  imageSizeOutput0 : ℕ
  imageSizeOutput1 : ℕ
  pixelSizeOutput0 : ℚ
  pixelSizeOutput1 : ℚ
  qxaOutput : Array2D ℚ
  qyaOutput : Array2D ℚ
  beamsOutput : Array2D ℚ

/-- The function `downsampleFourierComponents`: halve the image size, double
the pixel size, and copy the elements `(qyInd[y], qxInd[x])` of `pars.qxa`,
`pars.qya` and `pars.beams` to the element `(y, x)` of the output arrays. -/
def downsampleFourierComponents (imageSize0 imageSize1 : ℕ) (pixelSize0 pixelSize1 : ℚ)
    (qxa qya beams : Array2D ℚ) (qxInd qyInd : List ℕ) : Downsampled :=
  let out := rasterLoop qyInd.length qxInd.length
    (fun (st : Array2D ℚ × Array2D ℚ × Array2D ℚ) y x =>
      (st.1.set y x (qxa.get (qyInd.getD y 0) (qxInd.getD x 0)),
       st.2.1.set y x (qya.get (qyInd.getD y 0) (qxInd.getD x 0)),
       st.2.2.set y x (beams.get (qyInd.getD y 0) (qxInd.getD x 0))))
    (zeros_ND2 qyInd.length qxInd.length, zeros_ND2 qyInd.length qxInd.length,
      zeros_ND2 qyInd.length qxInd.length)
  { imageSizeOutput0 := imageSize0 / 2, imageSizeOutput1 := imageSize1 / 2,
    pixelSizeOutput0 := pixelSize0 * 2, pixelSizeOutput1 := pixelSize1 * 2,
    qxaOutput := out.1, qyaOutput := out.2.1, beamsOutput := out.2.2 }

/-! ## `projectedPotential.cpp` -/

/-- The triple loop `for k < dimk, for j < dimj, for i < dimi` over a state. -/
def rasterLoop3 {σ : Type} (dimk dimj dimi : ℕ) (body : σ → ℕ → ℕ → ℕ → σ) (init : σ) : σ :=
  (List.range dimk).foldl (fun st k => rasterLoop dimj dimi (fun st j i => body st k j i) st) init

/-- An elementwise operation on a two-dimensional array, such as `pot /= c`,
`pot -= c` or a `std::transform` of the array into itself. -/
def Array2D.map {α β : Type} (f : α → β) (A : Array2D α) : Array2D β :=
  { dimj := A.dimj, dimi := A.dimi, data := fun j i => f (A.data j i) }

/-- An elementwise operation on a three-dimensional array. -/
def Array3D.map {α β : Type} (f : α → β) (A : Array3D α) : Array3D β :=
  { dimk := A.dimk, dimj := A.dimj, dimi := A.dimi, data := fun k j i => f (A.data k j i) }

/-- The function `get_potMin`: starting from `0`, the value at each of the two
probe points replaces `potMin` when it is larger.  The probe coordinates
`xv`, `yv` hold integers. -/
def get_potMin (pot : Array2D ℚ) (xr yr : List ℚ) : ℚ :=
  let xInd : ℤ := ((xr.length / 2 : ℕ) : ℤ)
  let yInd : ℤ := ((yr.length / 2 : ℕ) : ℤ)
  let xv : List ℤ := [(xr.length : ℤ) - 2, xInd]
  let yv : List ℤ := [yInd, (yr.length : ℤ) - 2]
  (List.range 2).foldl
    (fun potMin i =>
      if pot.get (yv.getD i 0).toNat (xv.getD i 0).toNat > potMin then
        pot.get (yv.getD i 0).toNat (xv.getD i 0).toNat
      else potMin)
    0

/-- The function `get_potMin3D`, with three probe points. -/
def get_potMin3D (pot : Array3D ℚ) (xr yr zr : List ℚ) : ℚ :=
  let xInd : ℤ := ((xr.length / 2 : ℕ) : ℤ)
  let yInd : ℤ := ((yr.length / 2 : ℕ) : ℤ)
  let zInd : ℤ := ((zr.length / 2 : ℕ) : ℤ)
  let xv : List ℤ := [(xr.length : ℤ) - 2, xInd, xInd]
  let yv : List ℤ := [yInd, (yr.length : ℤ) - 2, yInd]
  let zv : List ℤ := [zInd, zInd, (zr.length : ℤ) - 2]
  (List.range 3).foldl
    (fun potMin i =>
      if pot.get (zv.getD i 0).toNat (yv.getD i 0).toNat (xv.getD i 0).toNat > potMin then
        pot.get (zv.getD i 0).toNat (yv.getD i 0).toNat (xv.getD i 0).toNat
      else potMin)
    0

/-- The block `integrate` of `projPot` followed by `pot /= (ss * ss)`: the
box average of the supersampled potential `potSS` over `ss x ss` samples. -/
def boxAverage (ss : ℕ) (potSS : Array2D ℚ) (dimj dimi : ℕ) : Array2D ℚ :=
  (rasterLoop ss ss
    (fun pot sy sx =>
      rasterLoop pot.dimj pot.dimi
        (fun pot j i => pot.set j i (pot.get j i + potSS.get (j * ss + sy) (i * ss + sx)))
        pot)
    (zeros_ND2 dimj dimi)).map (fun a => a / ((ss : ℚ) * (ss : ℚ)))

/-- The function `projPot` from the integration on.  The array `potSS` of the
Kirkland potential at the supersampled radii (Bessel functions and
exponentials of the table values of the species) is given by the parameter
`superSample`. -/
def projPot (superSample : ℕ → List ℚ → List ℚ → Array2D ℚ) (Z : ℕ) (xr yr : List ℚ) :
    Array2D ℚ :=
  let pot := boxAverage 8 (superSample Z xr yr) yr.length xr.length
  let potMin := get_potMin pot xr yr
  ((pot.map (fun a => a - potMin)).map (fun a => if a < 0 then 0 else a))

/-- The block `integrate` of `kirklandPotential3D` followed by
`pot /= ss*ss*ss`. -/
def boxAverage3D (ss : ℕ) (potSS : Array3D ℚ) (dimk dimj dimi : ℕ) : Array3D ℚ :=
  (rasterLoop3 ss ss ss
    (fun pot sz sy sx =>
      rasterLoop3 pot.dimk pot.dimj pot.dimi
        (fun pot k j i =>
          pot.set k j i (pot.get k j i + potSS.get (k * ss + sz) (j * ss + sy) (i * ss + sx)))
        pot)
    (zeros_ND3 dimk dimj dimi)).map (fun a => a / ((ss : ℚ) * (ss : ℚ) * (ss : ℚ)))

/-- The function `kirklandPotential3D` from the integration on; `superSample`
gives the array `potSS` of the closed-form potential at the supersampled
radii. -/
def kirklandPotential3D (superSample : ℕ → List ℚ → List ℚ → List ℚ → Array3D ℚ) (Z : ℕ)
    (xr yr zr : List ℚ) : Array3D ℚ :=
  let pot := boxAverage3D 8 (superSample Z xr yr zr) zr.length yr.length xr.length
  let potMin := get_potMin3D pot xr yr zr
  ((pot.map (fun a => a - potMin)).map (fun a => if a < 0 then 0 else a))

/-! ## `fill_Scompact_CPUOnly`: transmission and batch size -/

/-- The element of a three-dimensional array at the flat index `n` of its
row-major memory. -/
def Array3D.flat {α : Type} (A : Array3D α) (n : ℕ) : α :=
  A.data (n / (A.dimj * A.dimi)) (n / A.dimi % A.dimj) (n % A.dimi)

/-- The array `pars.transmission`: zeros of the extents of `pars.pot`, then
`j = exp(i * pars.sigma * (*p++))` for every element. -/
def buildTransmission {K : Type} [Field K] (cexp : K → K) (I : K) (sigma : ℚ)
    (pot : Array3D ℚ) : Array3D K :=
  { dimk := pot.dimk, dimj := pot.dimj, dimi := pot.dimi,
    data := fun k j i =>
      if k < pot.dimk ∧ j < pot.dimj ∧ i < pot.dimi then
        cexp (I * (sigma : K) * ((pot.data k j i : ℚ) : K))
      else 0 }

/-- The value assigned to `pars.meta.batchSizeCPU`:
`min(batchSizeTargetCPU, max((size_t)1, numberBeams / numThreads))`. -/
def batchSizeCPU_of (batchSizeTargetCPU numberBeams numThreads : ℕ) : ℕ :=
  min batchSizeTargetCPU (max 1 (numberBeams / numThreads))

/-! ## `PRISM02_calcSMatrix`: plane-wave propagation

The wave buffers `psi`, `psi_stack` and `psi_small` and the array
`pars.Scompact` are addressed through pointers and flat indices in these
functions, so they are modelled by their row-major memory, a function from the
flat index to the element.  The transforms of the library are parameters: a
plan maps the contents of one slice to the transformed contents. -/

/-- The value of `pars.meta.algorithm`. -/
inductive Algorithm where
  | PRISM
  | HRTEM
deriving DecidableEq

/-- The assignment `mem[n] = v` on a flat buffer. -/
def writeAt {K : Type} (mem : ℕ → K) (n : ℕ) (v : K) : ℕ → K :=
  fun m => if m = n then v else mem m

/-- The element of a two-dimensional array at the flat index `n` of its
row-major memory. -/
def Array2D.flat {α : Type} (A : Array2D α) (n : ℕ) : α := A.data (n / A.dimi) (n % A.dimi)

/-- The transforms behind `plan_forward`, `plan_inverse` (on one slice of
`imageSize[0] * imageSize[1]` elements) and `plan_final` (on `psi_small`). -/
structure Transforms (K : Type) where
  forward : (ℕ → K) → ℕ → K
  inverse : (ℕ → K) → ℕ → K
  final : (ℕ → K) → ℕ → K

/-- Executing an in-place plan of `howmany` contiguous slices of `n` elements
each: every slice is replaced by its transform; memory behind the slices is
not touched.  The transform sees the `n` elements of its slice only. -/
def executePlan {K : Type} [Zero K] (f : (ℕ → K) → ℕ → K) (n howmany : ℕ) (mem : ℕ → K) :
    ℕ → K :=
  fun m =>
    if m < n * howmany then f (fun i => if i < n then mem (m / n * n + i) else 0) (m % n)
    else mem m

/-- The loop `for (auto &i : buffer) i /= d` over a buffer of `size`
elements. -/
def divAll {K : Type} [Div K] (mem : ℕ → K) (size : ℕ) (d : K) : ℕ → K :=
  fun m => if m < size then mem m / d else mem m

/-- The loop `for jj < count: *psi_ptr++ *= (*src++)` with `psi_ptr` starting
at `&mem[base]`. -/
def mulSlice {K : Type} [Mul K] (mem : ℕ → K) (base count : ℕ) (src : ℕ → K) : ℕ → K :=
  (List.range count).foldl
    (fun mem jj => writeAt mem (base + jj) (mem (base + jj) * src jj)) mem

/-- The loop over `batch_idx < count` that multiplies the slice at
`&psi_stack[batch_idx * slice_size]` elementwise by `src`; the source has it
three times, for the transmission slice, `pars.prop` and `pars.propBack`. -/
def mulBatch {K : Type} [Mul K] (psi_stack : ℕ → K) (count slice_size : ℕ) (src : ℕ → K) :
    ℕ → K :=
  (List.range count).foldl
    (fun mem batch_idx => mulSlice mem (batch_idx * slice_size) slice_size src) psi_stack

/-- The members of `Parameters` that the propagators read. -/
structure PropagatorParameters (K : Type) where
  imageSize0 : ℕ
  imageSize1 : ℕ
  numPlanes : ℕ
  beamsIndex : List ℕ
  transmission : Array3D K
  prop : Array2D K
  propBack : Array2D K
  qyInd : List ℕ
  qxInd : List ℕ
  batchSizeCPU : ℕ
  algorithm : Algorithm

/-- The array `pars.Scompact` as its row-major memory.  The fields `written`
(flat indices assigned, in order) and `beams` (beams whose slab was written,
in order) are ghost state. -/
structure SMatrixMemory (K : Type) where
  dimk : ℕ
  dimj : ℕ
  dimi : ℕ
  mem : ℕ → K
  written : List ℕ
  beams : List ℕ

/-- The assignment `*S_t = v` with `S_t` pointing at flat index `n`. -/
def SMatrixMemory.write {K : Type} (S : SMatrixMemory K) (n : ℕ) (v : K) : SMatrixMemory K :=
  { S with mem := writeAt S.mem n v, written := S.written ++ [n] }

/-- The seeding loop of `propagatePlaneWave_CPU_batch`:
`psi_stack[beam_count * slice_size + pars.beamsIndex[jj]] = 1` for
`jj = currentBeam .. stopBeam - 1`, with `beam_count` counting from `0`. -/
def seedStack {K : Type} [One K] (beamsIndex : List ℕ) (slice_size currentBeam stopBeam : ℕ)
    (psi_stack : ℕ → K) : ℕ → K :=
  ((List.range' currentBeam (stopBeam - currentBeam)).foldl
    (fun (st : (ℕ → K) × ℕ) jj =>
      (writeAt st.1 (st.2 * slice_size + beamsIndex.getD jj 0) 1, st.2 + 1))
    (psi_stack, 0)).1

/-- One pass `a2` of the slice loop of `propagatePlaneWave_CPU_batch`:
transmit, forward transform, propagate, inverse transform, rescale.  The
buffer `psi_stack` has `slice_size * batchSizeCPU` elements and the plans
transform `batchSizeCPU` slices, as the caller sets them up. -/
def sliceStep_batch {K : Type} [Field K] (tr : Transforms K) (pars : PropagatorParameters K)
    (count : ℕ) (psi_stack : ℕ → K) (a2 : ℕ) : ℕ → K :=
  let slice_size := pars.imageSize0 * pars.imageSize1
  let psi := mulBatch psi_stack count slice_size
    (fun jj => pars.transmission.flat (a2 * slice_size + jj))
  let psi := executePlan tr.forward slice_size pars.batchSizeCPU psi
  let psi := mulBatch psi count slice_size pars.prop.flat
  let psi := executePlan tr.inverse slice_size pars.batchSizeCPU psi
  divAll psi (slice_size * pars.batchSizeCPU) (slice_size : K)

/-- The function `propagatePlaneWave_CPU_batch` up to and including the
forward transform after the slice loop: the contents of `psi_stack` at that
point. -/
def exitWave_CPU_batch {K : Type} [Field K] (tr : Transforms K) (pars : PropagatorParameters K)
    (currentBeam stopBeam : ℕ) (psi_stack : ℕ → K) : ℕ → K :=
  let slice_size := pars.imageSize0 * pars.imageSize1
  let count := min pars.batchSizeCPU (stopBeam - currentBeam)
  let psi := seedStack pars.beamsIndex slice_size currentBeam stopBeam psi_stack
  let psi := executePlan tr.inverse slice_size pars.batchSizeCPU psi
  let psi := divAll psi (slice_size * pars.batchSizeCPU) (slice_size : K)
  let psi := (List.range pars.numPlanes).foldl (sliceStep_batch tr pars count) psi
  executePlan tr.forward slice_size pars.batchSizeCPU psi

/-- The crop loop: `psi_small.at(y, x) = psi[offset + qyInd[y] * imageSize[1] + qxInd[x]]`
for `y < qyInd.size()`, `x < qxInd.size()`. -/
def cropBeam {K : Type} (pars : PropagatorParameters K) (psi : ℕ → K) (offset : ℕ)
    (psi_small : ℕ → K) : ℕ → K :=
  rasterLoop pars.qyInd.length pars.qxInd.length
    (fun small y x =>
      writeAt small (y * pars.qxInd.length + x)
        (psi (offset + pars.qyInd.getD y 0 * pars.imageSize1 + pars.qxInd.getD x 0)))
    psi_small

/-- The loop `for (auto &jj : psi_small) *S_t++ = jj / N_small` with `S_t`
starting at `&Scompact[currentBeam * dimj * dimi]`. -/
def writeSlab {K : Type} [Div K] (S : SMatrixMemory K) (currentBeam N_small : ℕ)
    (psi_small : ℕ → K) (d : K) : SMatrixMemory K :=
  (List.range N_small).foldl
    (fun S n => S.write (currentBeam * S.dimj * S.dimi + n) (psi_small n / d))
    { S with beams := S.beams ++ [currentBeam] }

/-- The loop `while (currentBeam < stopBeam)` of
`propagatePlaneWave_CPU_batch`, by the number of passes left: crop slice
`batch_idx` into `psi_small`, transform it, write slab `currentBeam`. -/
def cropLoop {K : Type} [Field K] (tr : Transforms K) (pars : PropagatorParameters K)
    (psi_stack : ℕ → K) : ℕ → ℕ → ℕ → (ℕ → K) → SMatrixMemory K → SMatrixMemory K
  | 0, _, _, _, S => S
  | n + 1, currentBeam, batch_idx, psi_small, S =>
    let slice_size := pars.imageSize0 * pars.imageSize1
    let N_small := pars.qyInd.length * pars.qxInd.length
    let psi_small := cropBeam pars psi_stack (batch_idx * slice_size) psi_small
    let psi_small := executePlan tr.final N_small 1 psi_small
    let S := writeSlab S currentBeam N_small psi_small (N_small : K)
    cropLoop tr pars psi_stack n (currentBeam + 1) (batch_idx + 1) psi_small S

/-- The function `propagatePlaneWave_CPU_batch`; the result is
`pars.Scompact`. -/
def propagatePlaneWave_CPU_batch {K : Type} [Field K] (tr : Transforms K)
    (pars : PropagatorParameters K) (currentBeam stopBeam : ℕ) (psi_stack : ℕ → K)
    (S : SMatrixMemory K) : SMatrixMemory K :=
  let slice_size := pars.imageSize0 * pars.imageSize1
  let count := min pars.batchSizeCPU (stopBeam - currentBeam)
  let psi := exitWave_CPU_batch tr pars currentBeam stopBeam psi_stack
  let psi :=
    if pars.algorithm = Algorithm.HRTEM then mulBatch psi count slice_size pars.propBack.flat
    else psi
  cropLoop tr pars psi (stopBeam - currentBeam) currentBeam 0 (fun _ => 0) S

/-- The function `propagatePlaneWave_CPU` up to and including the forward
transform after the slice loop: the contents of `psi` at that point.  The
array `psi` has the extents `imageSize[0] x imageSize[1]`; the pointer
`trans_t` has advanced by one per element, so pass `a2` reads the
transmission from flat index `a2 * slice_size` on. -/
def exitWave_CPU {K : Type} [Field K] (tr : Transforms K) (pars : PropagatorParameters K)
    (currentBeam : ℕ) (psi : ℕ → K) : ℕ → K :=
  let slice_size := pars.imageSize0 * pars.imageSize1
  let psi := writeAt psi (pars.beamsIndex.getD currentBeam 0) 1
  let psi := executePlan tr.inverse slice_size 1 psi
  let psi := divAll psi slice_size (slice_size : K)
  let psi := (List.range pars.numPlanes).foldl
    (fun psi a2 =>
      let psi := mulSlice psi 0 slice_size
        (fun n => pars.transmission.flat (a2 * slice_size + n))
      let psi := executePlan tr.forward slice_size 1 psi
      let psi := mulSlice psi 0 slice_size pars.prop.flat
      let psi := executePlan tr.inverse slice_size 1 psi
      divAll psi slice_size (slice_size : K))
    psi
  executePlan tr.forward slice_size 1 psi

/-- The function `propagatePlaneWave_CPU`; the result is `pars.Scompact`. -/
def propagatePlaneWave_CPU {K : Type} [Field K] (tr : Transforms K)
    (pars : PropagatorParameters K) (currentBeam : ℕ) (psi : ℕ → K) (S : SMatrixMemory K) :
    SMatrixMemory K :=
  let psi := exitWave_CPU tr pars currentBeam psi
  let N_small := pars.qyInd.length * pars.qxInd.length
  let psi_small := cropBeam pars psi 0 (fun _ => 0)
  let psi_small := executePlan tr.final N_small 1 psi_small
  writeSlab S currentBeam N_small psi_small (N_small : K)

/-- The work loop of one thread of `fill_Scompact_CPUOnly` for one range
obtained from the dispatcher: while `currentBeam < stopBeam`, zero
`psi_stack`, call the batch propagator on the range and set
`currentBeam = stopBeam`. -/
def beamWorkUnit {K : Type} [Field K] (tr : Transforms K) (pars : PropagatorParameters K)
    (S : SMatrixMemory K) (range : ℕ × ℕ) : SMatrixMemory K :=
  if range.1 < range.2 then
    propagatePlaneWave_CPU_batch tr pars range.1 range.2 (fun _ => 0) S
  else S

/-- The function `fill_Scompact_CPUOnly`: allocate `pars.Scompact`, build the
transmission, set the batch size, and process the ranges `ranges` that the
dispatcher hands out. -/
def fill_Scompact_CPUOnly {K : Type} [Field K] (cexp : K → K) (I : K) (tr : Transforms K)
    (pars : PropagatorParameters K) (sigma : ℚ) (pot : Array3D ℚ)
    (numberBeams batchSizeTargetCPU numThreads : ℕ) (ranges : List (ℕ × ℕ)) :
    SMatrixMemory K :=
  let S : SMatrixMemory K :=
    { dimk := numberBeams, dimj := pars.imageSize0 / 2, dimi := pars.imageSize1 / 2,
      mem := fun _ => 0, written := [], beams := [] }
  let pars := { pars with
    transmission := buildTransmission cexp I sigma pot,
    batchSizeCPU := batchSizeCPU_of batchSizeTargetCPU numberBeams numThreads }
  ranges.foldl (beamWorkUnit tr pars) S

/-! ## Abbreviations used in statements -/

/-- The contribution of the atom `a` to the pixel `(r, col)` without thermal
displacement: the kernel entries whose wrapped target is that pixel. -/
def atomContribution (c : WorkerCapture) (a r col : ℕ) : ℚ :=
  ∑ ii in Finset.range c.xvec.length, ∑ jj in Finset.range c.yvec.length,
    if (c.yvec.getD jj 0 + cround (c.y.getD a 0 / c.pars.pixelSize0)) % (c.pars.imageSize0 : ℤ)
          = (r : ℤ)
        ∧ (c.xvec.getD ii 0 + cround (c.x.getD a 0 / c.pars.pixelSize1))
            % (c.pars.imageSize1 : ℤ) = (col : ℤ)
    then c.potentialLookup.get (c.Z_lookup (c.ID.getD a 0)) jj ii else 0

/-- The pixels `(y, x)` in the order in which `rasterLoop dimj dimi` visits
them. -/
def rasterList (dimj dimi : ℕ) : List (ℕ × ℕ) :=
  (List.range dimj).flatMap (fun y => (List.range dimi).map (fun x => (y, x)))

/-- Membership of an index in the retained low-frequency band of an axis of
extent `n`: `[0, n/2 - n/4)` or `[n - n/4, n)`. -/
def inBand (n r : ℕ) : Prop := r < n / 2 - n / 4 ∨ (n - n / 4 ≤ r ∧ r < n)

instance (n r : ℕ) : Decidable (inBand n r) := by unfold inBand; infer_instance

/-- The probe points `(yv[i], xv[i])` of `get_potMin`. -/
def probes2D (xr yr : List ℚ) : List (ℕ × ℕ) :=
  [(yr.length / 2, xr.length - 2), (yr.length - 2, xr.length / 2)]

/-- The probe points `(zv[i], yv[i], xv[i])` of `get_potMin3D`. -/
def probes3D (xr yr zr : List ℚ) : List (ℕ × ℕ × ℕ) :=
  [(zr.length / 2, yr.length / 2, xr.length - 2),
   (zr.length / 2, yr.length - 2, xr.length / 2),
   (zr.length - 2, yr.length / 2, xr.length / 2)]

/-- The last step of `projPot` and of `kirklandPotential3D` on one element
`a` for the offset `potMin`: subtract, then replace a negative result by
`0`. -/
def clampSub (a potMin : ℚ) : ℚ := if a - potMin < 0 then 0 else a - potMin

/-- The contents of one slice of `n` elements, as a transform sees it. -/
def restrictSlice {K : Type} [Zero K] (n : ℕ) (x : ℕ → K) : ℕ → K :=
  fun i => if i < n then x i else 0

/-- The unit impulse at the flat index `idx`. -/
def impulse {K : Type} [Zero K] [One K] (idx : ℕ) : ℕ → K :=
  fun n => if n = idx then 1 else 0

/-- The recurrence of the specification for one beam, written from its
words and not from the code: `psi_0 = B(impulse at idx) / N` and
`psi_(a+1) = B(prop * F(transmission[a] * psi_a)) / N`, with elementwise
products on a slice of `N` elements. -/
def claimedWave {K : Type} [Field K] (F B : (ℕ → K) → ℕ → K) (N : ℕ)
    (transmission : ℕ → ℕ → K) (prop : ℕ → K) (idx : ℕ) : ℕ → ℕ → K
  | 0 => fun n => B (restrictSlice N (impulse idx)) n / (N : K)
  | a + 1 => fun n =>
    B (restrictSlice N (fun i =>
        prop i * F (restrictSlice N (fun j =>
          transmission a j * claimedWave F B N transmission prop idx a j)) i)) n
      / (N : K)

/-- The spectral exit wave of the specification: `F(psi_numPlanes)`. -/
def claimedExitWave {K : Type} [Field K] (F B : (ℕ → K) → ℕ → K) (N : ℕ)
    (transmission : ℕ → ℕ → K) (prop : ℕ → K) (idx numPlanes : ℕ) : ℕ → K :=
  F (restrictSlice N (claimedWave F B N transmission prop idx numPlanes))

/-- One pass of `while (currentSlice != stop)` on the pair of the buffer
`projectedPotential` and the array `pars.pot`: accumulate the slice into the
buffer and copy the buffer to the slice `currentSlice` of `pars.pot`. -/
def slicePass (c : WorkerCapture) (rs : RandomSource) (st : Array2D ℚ × Array3D ℚ)
    (currentSlice : ℕ) : Array2D ℚ × Array3D ℚ :=
  (accumulateSlice c rs currentSlice st.1,
   st.2.copySlice currentSlice (accumulateSlice c rs currentSlice st.1))

/-- The indices `start, start + 1, .., stop - 1` of a work range. -/
def rangeIndices (range : ℕ × ℕ) : List ℕ := List.range' range.1 (range.2 - range.1)

/-- The contract of the dispatcher in the specification: the ranges handed out
are non-empty, each ends where or before the ranges handed out after it
start, and together they cover exactly `[0, total)`. -/
def handsOutPartition (ranges : List (ℕ × ℕ)) (total : ℕ) : Prop :=
  (∀ r ∈ ranges, r.1 < r.2)
  ∧ ranges.Pairwise (fun r r' => r.2 ≤ r'.1)
  ∧ ∀ b, b < total ↔ ∃ r ∈ ranges, r.1 ≤ b ∧ b < r.2

/-- The alignment test `(long)m % f == 0` that `setupBeams` and
`setupBeams_HRTEM` apply to a rounded mesh coordinate `m` and an interpolation
factor `f`. -/
def alignmentTest (m f : ℤ) : Bool := decide (Int.tmod m f = 0)

/-- The sum of the kernel entries that the accumulation loop reads for the
atom `a`: the entries `(jj, ii)`, `jj < yvec.size()`, `ii < xvec.size()`, of
the slice `Z_lookup[ID[a]]` of the lookup table. -/
def kernelSum (c : WorkerCapture) (a : ℕ) : ℚ :=
  ∑ ii in Finset.range c.xvec.length, ∑ jj in Finset.range c.yvec.length,
    c.potentialLookup.get (c.Z_lookup (c.ID.getD a 0)) jj ii

/-! ## Example inputs -/

/-- Three atoms of two species at heights `10`, `8` and `10`. -/
def exAtoms : List Atom :=
  [ { x := 0, y := 0, z := 10, species := 1, sigma := 0, occ := 1 },
    { x := 2, y := 1, z := 8, species := 6, sigma := 0, occ := 1 },
    { x := 3, y := 3, z := 10, species := 1, sigma := 0, occ := 1 } ]

/-- A `4 x 4` image with unit pixels, slices of thickness `2`, no thermal
displacement and no occupancy rejection. -/
def exPars : Parameters :=
  { atoms := exAtoms,
    tiledCellDim0 := 1, tiledCellDim1 := 1, tiledCellDim2 := 1,
    imageSize0 := 4, imageSize1 := 4,
    pixelSize0 := 1, pixelSize1 := 1,
    sliceThickness := 2, potBound := 1,
    includeThermalEffects := false, includeOccupancy := false,
    randomSeed := 7 }

/-- A random source that always draws `0`. -/
def exRandom : RandomSource := { rand := fun _ _ => 0, randn := fun _ _ => 0 }

/-- A kernel table with a `1 x 1` kernel per species: `5` for the first species
and `7` for the second. -/
def exLookup : Array3D ℚ :=
  { dimk := 2, dimj := 1, dimi := 1,
    data := fun k j i => if j = 0 ∧ i = 0 then (if k = 0 then 5 else if k = 1 then 7 else 0) else 0 }

/-- The parameters `exPars` with the first atom, which is in slice `0`, moved
from `x = 0` to `x = 1`. -/
def exParsMoved : Parameters :=
  { exPars with
    atoms :=
      [ { x := 1, y := 0, z := 10, species := 1, sigma := 0, occ := 1 },
        { x := 2, y := 1, z := 8, species := 6, sigma := 0, occ := 1 },
        { x := 3, y := 3, z := 10, species := 1, sigma := 0, occ := 1 } ] }

/-- A single atom in a `4 x 4` image with unit pixels and `potBound = 1`, so a
`3 x 3` kernel; the atom lies outside the cell along `x`. -/
def exSingle : Parameters :=
  { exPars with atoms := [ { x := 5, y := 0, z := 3, species := 14, sigma := 0, occ := 1 } ] }

/-- A stand-in for `projPot`: the kernel entry `(j, i)` of species `Z` is
`Z + 3 * j + i`. -/
def exProjPot (Z : ℕ) (xr yr : List ℚ) : Array2D ℚ :=
  { dimj := yr.length, dimi := xr.length, data := fun j i => (Z : ℚ) + 3 * j + i }

/-- Stand-ins for the functions of `utility.h`: frequencies
`0, 1, .., -2, -1` divided by the length `N * pixel_size`, and the mesh whose
first array repeats its first argument along the rows. -/
def exUtility : Utility :=
  { makeFourierCoords := fun N pixel_size =>
      (List.range N).map
        (fun (i : ℕ) =>
          (if i < (N + 1) / 2 then (i : ℚ) else (i : ℚ) - (N : ℚ)) / ((N : ℚ) * pixel_size)),
    meshgrid := fun Y X =>
      ({ dimj := Y.length, dimi := X.length, data := fun j _ => Y.getD j 0 },
       { dimj := Y.length, dimi := X.length, data := fun _ i => X.getD i 0 }) }

/-- Parameters of an `8 x 8` image with unit pixels and interpolation factors
`2` and `1`. -/
def exSMatrix : SMatrixParameters :=
  { pot := zeros_ND3 1 8 8,
    pixelSize0 := 1, pixelSize1 := 1, realspacePixelSize0 := 1, realspacePixelSize1 := 1,
    lambda := 1, sliceThickness := 2,
    tiledCellDim0 := 4, tiledCellDim1 := 8, tiledCellDim2 := 8,
    alphaBeamMax := 1 / 5,
    interpolationFactorX := 2, interpolationFactorY := 1,
    tiltMode := TiltSelection.Radial,
    xTiltStep_tem := 0, yTiltStep_tem := 0, xTiltOffset_tem := 0, yTiltOffset_tem := 0,
    minXtilt_tem := 0, maxXtilt_tem := 1, minYtilt_tem := 0, maxYtilt_tem := 1,
    minRtilt := 0, maxRtilt := 1 / 5 }

/-- The coordinates of `exSMatrix`, with rational stand-ins for the complex
constants and the exponential. -/
def exCoordinates : Coordinates ℚ := setupCoordinates (fun z => z) 1 3 exUtility exSMatrix

/-- Coordinates of a kernel of `5` samples per axis, symmetric about `0`. -/
def exRadii : List ℚ := [-2, -1, 0, 1, 2]

/-- A supersampled potential that is constant on every block of `8 x 8`
samples: `3` and `1` on the blocks of the two probe points `(2, 3)` and
`(3, 2)` of a `5 x 5` kernel, `2` on the block of the corner `(0, 0)`, and
`0` elsewhere. -/
def exSuperSample (_ : ℕ) (xr yr : List ℚ) : Array2D ℚ :=
  { dimj := yr.length * 8, dimi := xr.length * 8,
    data := fun r c =>
      if r / 8 = 2 ∧ c / 8 = 3 then 3
      else if r / 8 = 3 ∧ c / 8 = 2 then 1
      else if r / 8 = 0 ∧ c / 8 = 0 then 2
      else 0 }

/-- Transforms for the examples: the forward transform is the identity and
the inverse transform multiplies by the `16` samples of a `4 x 4` slice, so
that forward after inverse is `16` times the identity. -/
def exTransforms : Transforms ℚ :=
  { forward := fun x => x, inverse := fun x n => 16 * x n, final := fun x => x }

/-- A `4 x 4` image with one slice of transmission `1`, propagator `1`, one
beam at the flat index `3`, a back-propagator that is `2` at that index and
`1` elsewhere, and the down-sampling indices `[0, 3]` on both axes. -/
def exPropagator (algorithm : Algorithm) : PropagatorParameters ℚ :=
  { imageSize0 := 4, imageSize1 := 4, numPlanes := 1, beamsIndex := [3],
    transmission := { dimk := 1, dimj := 4, dimi := 4, data := fun _ _ _ => 1 },
    prop := { dimj := 4, dimi := 4, data := fun _ _ => 1 },
    propBack := { dimj := 4, dimi := 4, data := fun j i => if j = 0 ∧ i = 3 then 2 else 1 },
    qyInd := [0, 3], qxInd := [0, 3], batchSizeCPU := 1, algorithm := algorithm }

/-- A zeroed compact scattering matrix of one beam and `2 x 2` slabs. -/
def exScompact : SMatrixMemory ℚ :=
  { dimk := 1, dimj := 2, dimi := 2, mem := fun _ => 0, written := [], beams := [] }

/-- The example of `exPropagator` in PRISM mode for a specimen without
slices. -/
def exPropagatorEmpty : PropagatorParameters ℚ :=
  { exPropagator Algorithm.PRISM with numPlanes := 0 }

/-- Closure data of a slicing worker for `exPars`: three atoms in two
slices. -/
def exCapture : WorkerCapture :=
  { pars := exPars, numPlanes := 2,
    x := [0, 2, 3], y := [0, 1, 3], z := [10, 8, 10],
    ID := [1, 6, 1], sigma := [0, 0, 0], occ := [1, 1, 1],
    zPlane := [0, 1, 0], Z_lookup := build_Z_lookup [1, 6],
    xvec := [0], yvec := [0], potentialLookup := exLookup }

/-- The parameters `exSMatrix` in rectangular tilt mode with the tilt steps
`1/4` along `x` and `1/32` along `y`; the minimum resolvable step is `1/8` on
both axes. -/
def exTilt : SMatrixParameters :=
  { exSMatrix with
    tiltMode := TiltSelection.Rectangular, xTiltStep_tem := 1 / 4, yTiltStep_tem := 1 / 32 }

/-- The parameters `exSMatrix` with another slice thickness, cell, tilt
window and potential of the same image extents. -/
def exSMatrixOther : SMatrixParameters :=
  { exSMatrix with
    pot := { dimk := 3, dimj := 8, dimi := 8, data := fun _ _ _ => 1 },
    sliceThickness := 5, tiledCellDim0 := 7, realspacePixelSize0 := 3,
    xTiltStep_tem := 1, maxRtilt := 2 }

/-- Two atoms with thermal displacement `sigma = 1`, one in each of two
slices, in the `4 x 4` image of `exPars` with thermal effects enabled. -/
def exThermal : Parameters :=
  { exPars with
    includeThermalEffects := true,
    atoms :=
      [ { x := 0, y := 0, z := 10, species := 1, sigma := 1, occ := 1 },
        { x := 2, y := 1, z := 8, species := 6, sigma := 1, occ := 1 } ] }

/-- A random source whose normal draws are all `1`. -/
def exRandomOne : RandomSource := { rand := fun _ _ => 0, randn := fun _ _ => 1 }

/-- A random source whose normal draws are `1` for the seeds `7` and `9`, the
seeds of the two slices of `exThermal`, and `0` for every other seed. -/
def exRandomOther : RandomSource :=
  { rand := fun _ _ => 1 / 2, randn := fun seed _ => if seed = 7 ∨ seed = 9 then 1 else 0 }

/-! ## Auxiliary facts -/

theorem cround_of_nonneg {q : ℚ} (h : 0 ≤ q) : cround q = ⌊q + 1 / 2⌋ := by
  simp [cround, h]

theorem zPlaneOf_eq_floor {max_z t z : ℚ} (ht : 0 < t) (hz : z ≤ max_z) :
    zPlaneOf max_z t z = ⌊(max_z - z) / t⌋ := by
  have hu : 0 ≤ (-z + max_z) / t := div_nonneg (by linarith) ht.le
  unfold zPlaneOf
  rw [cround_of_nonneg (by linarith)]
  have h1 : (-z + max_z) / t + 1 / 2 + 1 / 2 = (max_z - z) / t + 1 := by ring
  rw [h1, Int.floor_add_one]
  ring

theorem foldl_max_spec {α : Type} [LinearOrder α] (l : List α) (a : α) :
    (l.foldl (fun m t => if m < t then t else m) a = a
        ∨ l.foldl (fun m t => if m < t then t else m) a ∈ l)
      ∧ a ≤ l.foldl (fun m t => if m < t then t else m) a
      ∧ ∀ t ∈ l, t ≤ l.foldl (fun m t => if m < t then t else m) a := by
  induction l generalizing a with
  | nil => simp
  | cons b l ih =>
    simp only [List.foldl_cons, List.mem_cons, forall_eq_or_imp]
    obtain ⟨h1, h2, h3⟩ := ih (if a < b then b else a)
    by_cases hab : a < b
    · simp only [hab, if_true] at h1 h2 h3 ⊢
      refine ⟨?_, le_trans hab.le h2, h2, h3⟩
      rcases h1 with h1 | h1
      · exact Or.inr (Or.inl h1)
      · exact Or.inr (Or.inr h1)
    · simp only [hab, if_false] at h1 h2 h3 ⊢
      refine ⟨?_, h2, le_trans (not_lt.mp hab) h2, h3⟩
      rcases h1 with h1 | h1
      · exact Or.inl h1
      · exact Or.inr (Or.inr h1)

theorem max_element_spec {α : Type} [LinearOrder α] {l : List α} {m : α}
    (h : max_element l = some m) : m ∈ l ∧ ∀ t ∈ l, t ≤ m := by
  cases l with
  | nil => simp [max_element] at h
  | cons a l =>
    simp only [max_element, Option.some.injEq] at h
    obtain ⟨h1, h2, h3⟩ := foldl_max_spec l a
    rw [h] at h1 h2 h3
    refine ⟨?_, ?_⟩
    · rcases h1 with h1 | h1
      · simp [h1]
      · exact List.mem_cons_of_mem _ h1
    · intro t ht
      rcases List.mem_cons.mp ht with ht | ht
      · rw [ht]; exact h2
      · exact h3 t ht

theorem max_element_isSome {α : Type} [LinearOrder α] {l : List α} (h : l ≠ []) :
    ∃ m, max_element l = some m := by
  cases l with
  | nil => exact absurd rfl h
  | cons a l => exact ⟨_, rfl⟩

/-- For a non-empty atom list `prepare` returns, and its fields are the ones
computed from the tallest atom `max_z` and the largest slice index `max_p`. -/
theorem prepare_spec (pars : Parameters) (potentialLookup : Array3D ℚ)
    (unique_species : List ℕ) (xvec yvec : List ℤ) (hne : pars.atoms ≠ []) :
    ∃ c max_z max_p,
      prepare pars potentialLookup unique_species xvec yvec = some c
      ∧ max_element (pars.atoms.map (fun a => a.z * pars.tiledCellDim0)) = some max_z
      ∧ max_element ((pars.atoms.map (fun a => a.z * pars.tiledCellDim0)).map
          (zPlaneOf max_z pars.sliceThickness)) = some max_p
      ∧ c.pars = pars
      ∧ c.numPlanes = (max_p + 1).toNat
      ∧ c.x = pars.atoms.map (fun a => a.x * pars.tiledCellDim2)
      ∧ c.y = pars.atoms.map (fun a => a.y * pars.tiledCellDim1)
      ∧ c.z = pars.atoms.map (fun a => a.z * pars.tiledCellDim0)
      ∧ c.ID = pars.atoms.map (fun a => a.species)
      ∧ c.zPlane = (pars.atoms.map (fun a => a.z * pars.tiledCellDim0)).map
          (zPlaneOf max_z pars.sliceThickness)
      ∧ c.Z_lookup = build_Z_lookup unique_species
      ∧ c.xvec = xvec ∧ c.yvec = yvec ∧ c.potentialLookup = potentialLookup := by
  obtain ⟨max_z, hz⟩ := max_element_isSome
    (l := pars.atoms.map (fun a => a.z * pars.tiledCellDim0)) (by simpa using hne)
  obtain ⟨max_p, hp⟩ := max_element_isSome
    (l := (pars.atoms.map (fun a => a.z * pars.tiledCellDim0)).map
      (zPlaneOf max_z pars.sliceThickness)) (by simpa using hne)
  have hprep : prepare pars potentialLookup unique_species xvec yvec = some
      { pars := pars,
        numPlanes := (max_p + 1).toNat,
        x := pars.atoms.map (fun a => a.x * pars.tiledCellDim2),
        y := pars.atoms.map (fun a => a.y * pars.tiledCellDim1),
        z := pars.atoms.map (fun a => a.z * pars.tiledCellDim0),
        ID := pars.atoms.map (fun a => a.species),
        sigma := pars.atoms.map (fun a => a.sigma),
        occ := pars.atoms.map (fun a => a.occ),
        zPlane := (pars.atoms.map (fun a => a.z * pars.tiledCellDim0)).map
          (zPlaneOf max_z pars.sliceThickness),
        Z_lookup := build_Z_lookup unique_species,
        xvec := xvec, yvec := yvec,
        potentialLookup := potentialLookup } := by
    simp only [prepare, hz, hp]
  exact ⟨_, max_z, max_p, hprep, hz, hp, rfl, rfl, rfl, rfl, rfl, rfl, rfl, rfl, rfl, rfl, rfl⟩

/-- The slice indices computed by `prepare` are the floors of the scaled depth
below the tallest atom, and they lie between `0` and the largest of them. -/
theorem zPlane_bounds {pars : Parameters} {max_z : ℚ} {max_p : ℤ}
    (ht : 0 < pars.sliceThickness)
    (hz : max_element (pars.atoms.map (fun a => a.z * pars.tiledCellDim0)) = some max_z)
    (hp : max_element ((pars.atoms.map (fun a => a.z * pars.tiledCellDim0)).map
        (zPlaneOf max_z pars.sliceThickness)) = some max_p)
    (a : ℕ) (ha : a < pars.atoms.length) :
    ((pars.atoms.map (fun a => a.z * pars.tiledCellDim0)).map
        (zPlaneOf max_z pars.sliceThickness)).getD a 0
      = zPlaneOf max_z pars.sliceThickness
          ((pars.atoms.map (fun a => a.z * pars.tiledCellDim0)).getD a 0)
    ∧ 0 ≤ ((pars.atoms.map (fun a => a.z * pars.tiledCellDim0)).map
        (zPlaneOf max_z pars.sliceThickness)).getD a 0
    ∧ ((pars.atoms.map (fun a => a.z * pars.tiledCellDim0)).map
        (zPlaneOf max_z pars.sliceThickness)).getD a 0 ≤ max_p := by
  have hlen : a < (pars.atoms.map (fun a => a.z * pars.tiledCellDim0)).length := by simpa using ha
  have hlen2 : a < ((pars.atoms.map (fun a => a.z * pars.tiledCellDim0)).map
      (zPlaneOf max_z pars.sliceThickness)).length := by simpa using ha
  have hmem : (pars.atoms.map (fun a => a.z * pars.tiledCellDim0)).getD a 0
      ∈ pars.atoms.map (fun a => a.z * pars.tiledCellDim0) := by
    rw [List.getD_eq_getElem _ _ hlen]; exact List.getElem_mem _
  have hle := (max_element_spec hz).2 _ hmem
  have h1 : ((pars.atoms.map (fun a => a.z * pars.tiledCellDim0)).map
        (zPlaneOf max_z pars.sliceThickness)).getD a 0
      = zPlaneOf max_z pars.sliceThickness
          ((pars.atoms.map (fun a => a.z * pars.tiledCellDim0)).getD a 0) := by
    rw [List.getD_eq_getElem _ _ hlen2, List.getD_eq_getElem _ _ hlen, List.getElem_map]
  refine ⟨h1, ?_, ?_⟩
  · rw [h1, zPlaneOf_eq_floor ht hle]
    exact Int.floor_nonneg.mpr (div_nonneg (by linarith) ht.le)
  · apply (max_element_spec hp).2
    rw [List.getD_eq_getElem _ _ hlen2]; exact List.getElem_mem _

/-- With occupancy rejection disabled the atoms accumulated by the loop over
the first `n` atoms are those that pass the slice test. -/
theorem atomLoop_accumulated_card (c : WorkerCapture) (rs : RandomSource) (s : ℕ)
    (hO : c.pars.includeOccupancy = false) (n : ℕ) (st : SliceState) :
    ((List.range n).foldl (atomStep c rs s) st).accumulated.length
      = st.accumulated.length
        + ((Finset.range n).filter (fun a => c.zPlane.getD a 0 = (s : ℤ))).card := by
  induction n with
  | zero => simp
  | succ n ih =>
    rw [List.range_succ, List.foldl_append, Finset.range_succ, Finset.filter_insert]
    simp only [List.foldl_cons, List.foldl_nil]
    by_cases h : c.zPlane.getD n 0 = (s : ℤ)
    · rw [if_pos h, Finset.card_insert_of_not_mem (by simp)]
      simp only [atomStep, h, hO, if_true, Bool.false_and, Bool.false_eq_true, if_false,
        List.length_cons, ih]
      omega
    · rw [if_neg h]
      simp only [atomStep, h, if_false, ih]

/-- Counting the indices below `n` slice by slice counts each of them once. -/
theorem sum_card_slices (zPlane : List ℤ) (n N : ℕ)
    (h : ∀ a, a < n → 0 ≤ zPlane.getD a 0 ∧ zPlane.getD a 0 < (N : ℤ)) :
    ∑ s in Finset.range N,
      ((Finset.range n).filter (fun a => zPlane.getD a 0 = (s : ℤ))).card = n := by
  have hfib := Finset.card_eq_sum_card_fiberwise (f := fun a => (zPlane.getD a 0).toNat)
    (s := Finset.range n) (t := Finset.range N) (by
      intro a ha
      have := h a (Finset.mem_range.mp ha)
      simp only [Finset.mem_range]
      omega)
  rw [Finset.card_range] at hfib
  conv_rhs => rw [hfib]
  apply Finset.sum_congr rfl
  intro s _
  congr 1
  apply Finset.filter_congr
  intro a ha
  have := h a (Finset.mem_range.mp ha)
  constructor
  · intro e
    show (zPlane.getD a 0).toNat = s
    rw [e]; simp
  · intro e
    have e' : (zPlane.getD a 0).toNat = s := e
    omega

/-! ## The slice assignment -/

/-- Claim C4: for a non-empty atom list and a positive slice thickness
`generateProjectedPotentials` gives every atom exactly one slice index, which
lies in `[0, numPlanes)`; with occupancy rejection disabled, the numbers of
atoms accumulated by the atom loops of the slices `0 .. numPlanes - 1` add up
to the number of atoms (whatever buffer each loop starts from). -/
theorem slice_assignment_partition (pars : Parameters) (rs : RandomSource)
    (potentialLookup : Array3D ℚ) (unique_species : List ℕ) (xvec yvec : List ℤ)
    (hne : pars.atoms ≠ []) (ht : 0 < pars.sliceThickness)
    (hO : pars.includeOccupancy = false) :
    ∃ c, prepare pars potentialLookup unique_species xvec yvec = some c
      ∧ c.zPlane.length = pars.atoms.length
      ∧ c.x.length = pars.atoms.length
      ∧ (∀ a, a < pars.atoms.length →
          ∃! s : ℕ, s < c.numPlanes ∧ c.zPlane.getD a 0 = (s : ℤ))
      ∧ ∀ buffer : ℕ → Array2D ℚ,
          ∑ s in Finset.range c.numPlanes,
            (atomLoop c rs s (buffer s)).accumulated.length = pars.atoms.length := by
  obtain ⟨c, max_z, max_p, hc, hz, hp, hpars, hnum, hx, -, -, -, hzP, -⟩ :=
    prepare_spec pars potentialLookup unique_species xvec yvec hne
  have hb : ∀ a, a < pars.atoms.length →
      0 ≤ c.zPlane.getD a 0 ∧ c.zPlane.getD a 0 < (c.numPlanes : ℤ) := by
    intro a ha
    obtain ⟨-, h0, h1⟩ := zPlane_bounds ht hz hp a ha
    rw [hzP, hnum]
    refine ⟨h0, ?_⟩
    have : 0 ≤ max_p := le_trans h0 h1
    omega
  refine ⟨c, hc, by simp [hzP], by simp [hx], ?_, ?_⟩
  · intro a ha
    obtain ⟨h0, h1⟩ := hb a ha
    refine ⟨(c.zPlane.getD a 0).toNat, ⟨by omega, by omega⟩, ?_⟩
    rintro s ⟨-, hs⟩
    omega
  · intro buffer
    have hlen : c.x.length = pars.atoms.length := by simp [hx]
    have hO' : c.pars.includeOccupancy = false := by rw [hpars]; exact hO
    have : ∀ s, (atomLoop c rs s (buffer s)).accumulated.length
        = ((Finset.range pars.atoms.length).filter
            (fun a => c.zPlane.getD a 0 = (s : ℤ))).card := by
      intro s
      unfold atomLoop
      rw [atomLoop_accumulated_card c rs s hO', hlen]
      simp
    simp only [this]
    exact sum_card_slices c.zPlane pars.atoms.length c.numPlanes hb

theorem slice_assignment_partition_witness :
    exPars.atoms ≠ [] ∧ 0 < exPars.sliceThickness ∧ exPars.includeOccupancy = false
    ∧ ∃ c, prepare exPars exLookup [1, 6] [0] [0] = some c
      ∧ c.zPlane.length = exPars.atoms.length
      ∧ c.x.length = exPars.atoms.length
      ∧ (∀ a, a < exPars.atoms.length →
          ∃! s : ℕ, s < c.numPlanes ∧ c.zPlane.getD a 0 = (s : ℤ))
      ∧ ∀ buffer : ℕ → Array2D ℚ,
          ∑ s in Finset.range c.numPlanes,
            (atomLoop c exRandom s (buffer s)).accumulated.length = exPars.atoms.length :=
  ⟨by simp [exPars, exAtoms], by norm_num [exPars], rfl,
    slice_assignment_partition exPars exRandom exLookup [1, 6] [0] [0]
      (by simp [exPars, exAtoms]) (by norm_num [exPars]) rfl⟩

/-- Claim C5: for a non-empty atom list and a positive slice thickness, with
`zMax` the largest atom height, every atom gets the slice index
`round((zMax - z) / sliceThickness + 0.5) - 1`, an atom of height `zMax` gets
the index `0`, and `numPlanes` is the largest slice index plus one, so at
least `1`. -/
theorem slice_index_formula (pars : Parameters) (potentialLookup : Array3D ℚ)
    (unique_species : List ℕ) (xvec yvec : List ℤ)
    (hne : pars.atoms ≠ []) (ht : 0 < pars.sliceThickness) :
    ∃ c zMax, prepare pars potentialLookup unique_species xvec yvec = some c
      ∧ c.z = pars.atoms.map (fun a => a.z * pars.tiledCellDim0)
      ∧ zMax ∈ c.z ∧ (∀ t ∈ c.z, t ≤ zMax)
      ∧ (∀ a, a < pars.atoms.length →
          c.zPlane.getD a 0
            = cround ((zMax - c.z.getD a 0) / pars.sliceThickness + 1 / 2) - 1)
      ∧ (∀ a, a < pars.atoms.length → c.z.getD a 0 = zMax → c.zPlane.getD a 0 = 0)
      ∧ (∃ a, a < pars.atoms.length ∧ (c.numPlanes : ℤ) = c.zPlane.getD a 0 + 1)
      ∧ (∀ a, a < pars.atoms.length → c.zPlane.getD a 0 + 1 ≤ (c.numPlanes : ℤ))
      ∧ 1 ≤ c.numPlanes := by
  obtain ⟨c, max_z, max_p, hc, hz, hp, -, hnum, -, -, hcz, -, hzP, -⟩ :=
    prepare_spec pars potentialLookup unique_species xvec yvec hne
  have hform : ∀ a, a < pars.atoms.length →
      c.zPlane.getD a 0
        = cround ((max_z - c.z.getD a 0) / pars.sliceThickness + 1 / 2) - 1 := by
    intro a ha
    rw [hzP, hcz, (zPlane_bounds ht hz hp a ha).1]
    unfold zPlaneOf
    rw [neg_add_eq_sub]
  have hmemp := (max_element_spec hp).1
  obtain ⟨a0, ha0, hval⟩ := List.mem_iff_getElem.mp hmemp
  have ha0' : a0 < pars.atoms.length := by simpa using ha0
  have hget0 : c.zPlane.getD a0 0 = max_p := by
    rw [hzP, List.getD_eq_getElem _ _ ha0]; exact hval
  have hp0 : 0 ≤ max_p := by
    rw [← hget0, hzP]; exact (zPlane_bounds ht hz hp a0 ha0').2.1
  refine ⟨c, max_z, hc, hcz, ?_, ?_, hform, ?_, ⟨a0, ha0', ?_⟩, ?_, ?_⟩
  · rw [hcz]; exact (max_element_spec hz).1
  · rw [hcz]; exact (max_element_spec hz).2
  · intro a ha htop
    rw [hform a ha, htop]
    norm_num [cround]
  · rw [hget0, hnum]; omega
  · intro a ha
    have := (zPlane_bounds ht hz hp a ha).2.2
    rw [hzP, hnum]; omega
  · rw [hnum]; omega

theorem slice_index_formula_witness :
    exPars.atoms ≠ [] ∧ 0 < exPars.sliceThickness
    ∧ ∃ c zMax, prepare exPars exLookup [1, 6] [0] [0] = some c
      ∧ c.z = exPars.atoms.map (fun a => a.z * exPars.tiledCellDim0)
      ∧ zMax ∈ c.z ∧ (∀ t ∈ c.z, t ≤ zMax)
      ∧ (∀ a, a < exPars.atoms.length →
          c.zPlane.getD a 0
            = cround ((zMax - c.z.getD a 0) / exPars.sliceThickness + 1 / 2) - 1)
      ∧ (∀ a, a < exPars.atoms.length → c.z.getD a 0 = zMax → c.zPlane.getD a 0 = 0)
      ∧ (∃ a, a < exPars.atoms.length ∧ (c.numPlanes : ℤ) = c.zPlane.getD a 0 + 1)
      ∧ (∀ a, a < exPars.atoms.length → c.zPlane.getD a 0 + 1 ≤ (c.numPlanes : ℤ))
      ∧ 1 ≤ c.numPlanes :=
  ⟨by simp [exPars, exAtoms], by norm_num [exPars],
    slice_index_formula exPars exLookup [1, 6] [0] [0]
      (by simp [exPars, exAtoms]) (by norm_num [exPars])⟩

/-! ## The accumulation of kernels -/

theorem neg_lt_tmod (a : ℤ) {b : ℤ} (hb : 0 < b) : -b < Int.tmod a b := by
  obtain ⟨n, rfl⟩ := Int.eq_ofNat_of_zero_le hb.le
  cases a with
  | ofNat m =>
    have : 0 ≤ Int.tmod (Int.ofNat m) (n : ℤ) := Int.tmod_nonneg _ (Int.ofNat_nonneg m)
    omega
  | negSucc m =>
    have hn : 0 < n := by omega
    have h1 : Int.tmod (Int.negSucc m) (n : ℤ) = -((m.succ % n : ℕ) : ℤ) := rfl
    have h2 := Nat.mod_lt m.succ hn
    rw [h1]
    omega

/-- For a positive extent the wrapped index is the least non-negative
residue. -/
theorem wrapIndex_eq_emod (i : ℤ) {dim : ℤ} (h : 0 < dim) : wrapIndex i dim = i % dim := by
  unfold wrapIndex
  have h1 := neg_lt_tmod i h
  rw [Int.tmod_eq_emod (by omega) h.le, Int.tmod_def]
  have : i - dim * i.tdiv dim + dim = i + dim * (1 - i.tdiv dim) := by ring
  rw [this, Int.add_mul_emod_self_left]

theorem wrapIndex_toNat_eq_iff (i : ℤ) {dim : ℤ} (h : 0 < dim) (r : ℕ) :
    (wrapIndex i dim).toNat = r ↔ i % dim = (r : ℤ) := by
  rw [wrapIndex_eq_emod i h]
  have := Int.emod_nonneg i h.ne'
  omega

theorem get_set {α : Type} (A : Array2D α) (j i : ℕ) (v : α) (j' i' : ℕ) :
    (A.set j i v).get j' i' = if j' = j ∧ i' = i then v else A.get j' i' := rfl

/-- A loop of `n` additions `P.at(a k, b k) += v k` adds to every element the
values `v k` whose target it is. -/
theorem foldl_add_get (a b : ℕ → ℕ) (v : ℕ → ℚ) (n : ℕ) (P : Array2D ℚ) (r col : ℕ) :
    ((List.range n).foldl
        (fun P k => P.set (a k) (b k) (P.get (a k) (b k) + v k)) P).get r col
      = P.get r col + ∑ k in Finset.range n, if a k = r ∧ b k = col then v k else 0 := by
  induction n with
  | zero => simp
  | succ n ih =>
    rw [List.range_succ, List.foldl_append, Finset.sum_range_succ, ← add_assoc, ← ih]
    simp only [List.foldl_cons, List.foldl_nil, get_set]
    by_cases h : r = a n ∧ col = b n
    · obtain ⟨h1, h2⟩ := h
      subst h1 h2
      simp
    · have h' : ¬ (a n = r ∧ b n = col) := fun ⟨e1, e2⟩ => h ⟨e1.symm, e2.symm⟩
      simp [h, h']

/-- Pointwise effect of adding one kernel. -/
theorem addKernel_get (L : Array3D ℚ) (cur_Z : ℕ) (xp yp : List ℤ) (P : Array2D ℚ)
    (r col : ℕ) :
    (addKernel L cur_Z xp yp P).get r col
      = P.get r col
        + ∑ ii in Finset.range xp.length, ∑ jj in Finset.range yp.length,
            if (yp.getD jj 0).toNat = r ∧ (xp.getD ii 0).toNat = col
            then L.get cur_Z jj ii else 0 := by
  unfold addKernel
  generalize xp.length = n
  induction n with
  | zero => simp
  | succ n ih =>
    rw [List.range_succ, List.foldl_append, Finset.sum_range_succ, ← add_assoc, ← ih]
    simp only [List.foldl_cons, List.foldl_nil]
    exact foldl_add_get (fun jj => (yp.getD jj 0).toNat) (fun _ => (xp.getD n 0).toNat)
      (fun jj => L.get cur_Z jj n) yp.length _ r col

theorem getD_map_wrap (l : List ℤ) (X dim : ℤ) (k : ℕ) (hk : k < l.length) :
    (l.map (fun i => wrapIndex (i + X) dim)).getD k 0 = wrapIndex (l.getD k 0 + X) dim := by
  rw [List.getD_eq_getElem _ _ (by simpa using hk), List.getD_eq_getElem _ _ hk,
    List.getElem_map]

/-- Without thermal displacement and occupancy rejection one iteration of the
atom loop adds the contribution of the atom if it belongs to the slice. -/
theorem atomStep_get (c : WorkerCapture) (rs : RandomSource) (s : ℕ)
    (hT : c.pars.includeThermalEffects = false) (hO : c.pars.includeOccupancy = false)
    (h0 : 0 < c.pars.imageSize0) (h1 : 0 < c.pars.imageSize1)
    (st : SliceState) (a r col : ℕ) :
    (atomStep c rs s st a).projectedPotential.get r col
      = st.projectedPotential.get r col
        + if c.zPlane.getD a 0 = (s : ℤ) then atomContribution c a r col else 0 := by
  by_cases h : c.zPlane.getD a 0 = (s : ℤ)
  · simp only [atomStep, h, hO, if_true, Bool.false_and, Bool.false_eq_true, if_false,
      atomPixel, hT, addKernel_get, List.length_map, atomContribution]
    congr 1
    apply Finset.sum_congr rfl
    intro ii hii
    apply Finset.sum_congr rfl
    intro jj hjj
    have h0' : (0 : ℤ) < (c.pars.imageSize0 : ℤ) := by exact_mod_cast h0
    have h1' : (0 : ℤ) < (c.pars.imageSize1 : ℤ) := by exact_mod_cast h1
    rw [getD_map_wrap _ _ _ _ (Finset.mem_range.mp hii),
      getD_map_wrap _ _ _ _ (Finset.mem_range.mp hjj)]
    simp only [wrapIndex_toNat_eq_iff _ h0', wrapIndex_toNat_eq_iff _ h1']
  · simp only [atomStep, h, if_false, add_zero]

theorem atomLoop_get (c : WorkerCapture) (rs : RandomSource) (s : ℕ)
    (hT : c.pars.includeThermalEffects = false) (hO : c.pars.includeOccupancy = false)
    (h0 : 0 < c.pars.imageSize0) (h1 : 0 < c.pars.imageSize1)
    (n : ℕ) (st : SliceState) (r col : ℕ) :
    ((List.range n).foldl (atomStep c rs s) st).projectedPotential.get r col
      = st.projectedPotential.get r col
        + ∑ a in (Finset.range n).filter (fun a => c.zPlane.getD a 0 = (s : ℤ)),
            atomContribution c a r col := by
  induction n with
  | zero => simp
  | succ n ih =>
    rw [List.range_succ, List.foldl_append, Finset.sum_filter, Finset.sum_range_succ,
      ← add_assoc, ← Finset.sum_filter, ← ih]
    simp only [List.foldl_cons, List.foldl_nil]
    exact atomStep_get c rs s hT hO h0 h1 _ n r col

/-- Without thermal displacement and occupancy rejection the buffer after the
atom loop of slice `s` is the buffer before it plus the contributions of the
atoms of slice `s`. -/
theorem accumulateSlice_get (c : WorkerCapture) (rs : RandomSource) (s : ℕ)
    (hT : c.pars.includeThermalEffects = false) (hO : c.pars.includeOccupancy = false)
    (h0 : 0 < c.pars.imageSize0) (h1 : 0 < c.pars.imageSize1)
    (P : Array2D ℚ) (r col : ℕ) :
    (accumulateSlice c rs s P).get r col
      = P.get r col
        + ∑ a in (Finset.range c.x.length).filter (fun a => c.zPlane.getD a 0 = (s : ℤ)),
            atomContribution c a r col := by
  unfold accumulateSlice atomLoop
  exact atomLoop_get c rs s hT hO h0 h1 c.x.length _ r col

/-- A unit of work for the single slice `s` stores in slice `s` the
contributions of the atoms of slice `s`, whatever `pars.pot` held before. -/
theorem workUnit_single_get (c : WorkerCapture) (rs : RandomSource) (pot : Array3D ℚ)
    (hT : c.pars.includeThermalEffects = false) (hO : c.pars.includeOccupancy = false)
    (h0 : 0 < c.pars.imageSize0) (h1 : 0 < c.pars.imageSize1) (s r col : ℕ) :
    (workUnit c rs pot (s, s + 1)).get s r col
      = ∑ a in (Finset.range c.x.length).filter (fun a => c.zPlane.getD a 0 = (s : ℤ)),
          atomContribution c a r col := by
  have h := accumulateSlice_get c rs s hT hO h0 h1
    (zeros_ND2 c.pars.imageSize0 c.pars.imageSize1) r col
  simp only [workUnit, Nat.add_sub_cancel_left, sliceLoop, Array3D.get, Array3D.copySlice,
    if_true]
  simpa [Array2D.get, zeros_ND2] using h

/-- The slice loop writes only the slices it runs through. -/
theorem sliceLoop_frame (c : WorkerCapture) (rs : RandomSource) (n : ℕ) :
    ∀ (cur : ℕ) (P : Array2D ℚ) (pot : Array3D ℚ) (k r col : ℕ),
      (k < cur ∨ cur + n ≤ k) →
      (sliceLoop c rs n cur P pot).get k r col = pot.get k r col := by
  induction n with
  | zero => intro cur P pot k r col _; rfl
  | succ n ih =>
    intro cur P pot k r col hk
    simp only [sliceLoop]
    rw [ih (cur + 1) _ _ k r col (by omega)]
    have hne : k ≠ cur := by omega
    simp [Array3D.get, Array3D.copySlice, hne]

/-- A unit of work leaves the slices outside its range as they were. -/
theorem workUnit_frame (c : WorkerCapture) (rs : RandomSource) (pot : Array3D ℚ)
    (range : ℕ × ℕ) (k r col : ℕ) (hk : k < range.1 ∨ range.2 ≤ k) :
    (workUnit c rs pot range).get k r col = pot.get k r col := by
  unfold workUnit
  by_cases hle : range.1 ≤ range.2
  · exact sliceLoop_frame c rs _ _ _ _ k r col (by omega)
  · have : range.2 - range.1 = 0 := by omega
    rw [this]; rfl

theorem foldl_workUnit_frame (c : WorkerCapture) (rs : RandomSource)
    (ranges : List (ℕ × ℕ)) (k r col : ℕ)
    (hk : ∀ range ∈ ranges, k < range.1 ∨ range.2 ≤ k) (pot : Array3D ℚ) :
    (ranges.foldl (workUnit c rs) pot).get k r col = pot.get k r col := by
  induction ranges generalizing pot with
  | nil => rfl
  | cons range ranges ih =>
    simp only [List.foldl_cons]
    rw [ih (fun ρ hρ => hk ρ (List.mem_cons_of_mem _ hρ)),
      workUnit_frame c rs pot range k r col (hk range (List.mem_cons_self _ _))]

/-- Claim C1: with thermal effects and occupancy disabled, if a worker of
`generateProjectedPotentials` receives the single-slice range `[s, s + 1)`
(and no range handed out later contains `s`), then for every pixel `(r, col)`
the stored `pars.pot[s][r][col]` is the sum, over the atoms `a` with
`zPlane[a] = s` and the kernel offsets `(jj, ii)` whose wrapped target
`((yvec[jj] + Y_a) mod imageSize[0], (xvec[ii] + X_a) mod imageSize[1])` is
`(r, col)`, of `potentialLookup[Z_lookup[species_a]][jj][ii]`, where
`X_a = round(x_a / pixelSize[1])` and `Y_a = round(y_a / pixelSize[0])`. -/
theorem single_slice_potential_sum (pars : Parameters) (rs : RandomSource)
    (potentialLookup : Array3D ℚ) (unique_species : List ℕ) (xvec yvec : List ℤ)
    (before after : List (ℕ × ℕ)) (s : ℕ)
    (hne : pars.atoms ≠ [])
    (hT : pars.includeThermalEffects = false) (hO : pars.includeOccupancy = false)
    (h0 : 0 < pars.imageSize0) (h1 : 0 < pars.imageSize1)
    (hafter : ∀ range ∈ after, s < range.1 ∨ range.2 ≤ s) :
    ∃ c pot, prepare pars potentialLookup unique_species xvec yvec = some c
      ∧ generateProjectedPotentials pars rs potentialLookup unique_species xvec yvec
          (before ++ (s, s + 1) :: after) = some (c.numPlanes, pot)
      ∧ c.x = pars.atoms.map (fun a => a.x * pars.tiledCellDim2)
      ∧ c.y = pars.atoms.map (fun a => a.y * pars.tiledCellDim1)
      ∧ c.ID = pars.atoms.map (fun a => a.species)
      ∧ c.Z_lookup = build_Z_lookup unique_species
      ∧ ∀ r col : ℕ,
          pot.get s r col
            = ∑ a in (Finset.range pars.atoms.length).filter
                  (fun a => c.zPlane.getD a 0 = (s : ℤ)),
                ∑ ii in Finset.range xvec.length, ∑ jj in Finset.range yvec.length,
                  if (yvec.getD jj 0 + cround (c.y.getD a 0 / pars.pixelSize0))
                        % (pars.imageSize0 : ℤ) = (r : ℤ)
                      ∧ (xvec.getD ii 0 + cround (c.x.getD a 0 / pars.pixelSize1))
                        % (pars.imageSize1 : ℤ) = (col : ℤ)
                  then potentialLookup.get (c.Z_lookup (c.ID.getD a 0)) jj ii
                  else 0 := by
  obtain ⟨c, max_z, max_p, hc, -, -, hpars, -, hx, hy, -, hID, -, hZ, hxv, hyv, hL⟩ :=
    prepare_spec pars potentialLookup unique_species xvec yvec hne
  refine ⟨c, (before ++ (s, s + 1) :: after).foldl (workUnit c rs)
    (zeros_ND3 c.numPlanes pars.imageSize0 pars.imageSize1), hc, ?_, hx, hy, hID, hZ, ?_⟩
  · simp only [generateProjectedPotentials, hc]
  · intro r col
    rw [List.foldl_append, List.foldl_cons, foldl_workUnit_frame c rs after s r col hafter,
      workUnit_single_get c rs _ (by rw [hpars]; exact hT) (by rw [hpars]; exact hO)
        (by rw [hpars]; exact h0) (by rw [hpars]; exact h1)]
    have hlen : c.x.length = pars.atoms.length := by simp [hx]
    rw [hlen]
    apply Finset.sum_congr rfl
    intro a ha
    simp only [atomContribution, hpars, hxv, hyv, hL]

theorem single_slice_potential_sum_witness :
    exPars.atoms ≠ [] ∧ exPars.includeThermalEffects = false
    ∧ exPars.includeOccupancy = false ∧ 0 < exPars.imageSize0 ∧ 0 < exPars.imageSize1
    ∧ (∀ range ∈ [((1 : ℕ), (2 : ℕ))], 0 < range.1 ∨ range.2 ≤ 0)
    ∧ ∃ c pot, prepare exPars exLookup [1, 6] [0] [0] = some c
      ∧ generateProjectedPotentials exPars exRandom exLookup [1, 6] [0] [0]
          ([] ++ (0, 0 + 1) :: [(1, 2)]) = some (c.numPlanes, pot)
      ∧ c.x = exPars.atoms.map (fun a => a.x * exPars.tiledCellDim2)
      ∧ c.y = exPars.atoms.map (fun a => a.y * exPars.tiledCellDim1)
      ∧ c.ID = exPars.atoms.map (fun a => a.species)
      ∧ c.Z_lookup = build_Z_lookup [1, 6]
      ∧ ∀ r col : ℕ,
          pot.get 0 r col
            = ∑ a in (Finset.range exPars.atoms.length).filter
                  (fun a => c.zPlane.getD a 0 = ((0 : ℕ) : ℤ)),
                ∑ ii in Finset.range [(0 : ℤ)].length, ∑ jj in Finset.range [(0 : ℤ)].length,
                  if ([(0 : ℤ)].getD jj 0 + cround (c.y.getD a 0 / exPars.pixelSize0))
                        % (exPars.imageSize0 : ℤ) = (r : ℤ)
                      ∧ ([(0 : ℤ)].getD ii 0 + cround (c.x.getD a 0 / exPars.pixelSize1))
                        % (exPars.imageSize1 : ℤ) = (col : ℤ)
                  then exLookup.get (c.Z_lookup (c.ID.getD a 0)) jj ii
                  else 0 :=
  ⟨by simp [exPars, exAtoms], rfl, rfl, by decide, by decide, by simp,
    single_slice_potential_sum exPars exRandom exLookup [1, 6] [0] [0] [] [(1, 2)] 0
      (by simp [exPars, exAtoms]) rfl rfl (by decide) (by decide) (by simp)⟩

/-- Claim C2, the code at the failing input: a worker that receives the range
`[0, 2)` keeps accumulating into the buffer of slice `0`.  For the atoms of
`exPars` (slice indices `0, 1, 0`) slice `1` then holds the kernel value `5` of
the first atom, of slice `0`, at the pixel `(0, 0)`, where unit ranges give `0`;
and moving that atom to another pixel, which leaves the slice indices as they
are, changes slice `1`. -/
theorem multi_slice_range_mixes_slices :
    Option.map (fun c => c.zPlane) (prepare exPars exLookup [1, 6] [0] [0]) = some [0, 1, 0]
    ∧ Option.map (fun c => c.zPlane) (prepare exParsMoved exLookup [1, 6] [0] [0])
        = some [0, 1, 0]
    ∧ Option.map (fun p => p.2.get 1 0 0)
        (generateProjectedPotentials exPars exRandom exLookup [1, 6] [0] [0] [(0, 2)])
        = some 5
    ∧ Option.map (fun p => p.2.get 1 0 0)
        (generateProjectedPotentials exPars exRandom exLookup [1, 6] [0] [0] [(0, 1), (1, 2)])
        = some 0
    ∧ Option.map (fun p => p.2.get 1 0 0)
        (generateProjectedPotentials exParsMoved exRandom exLookup [1, 6] [0] [0] [(0, 2)])
        = some 0 := by
  refine ⟨?_, ?_, ?_, ?_, ?_⟩ <;> decide!

/-! ## The kernel table and the single-atom slice -/

theorem get_set3 {α : Type} (A : Array3D α) (k j i : ℕ) (v : α) (k' j' i' : ℕ) :
    (A.set k j i v).get k' j' i'
      = if k' = k ∧ j' = j ∧ i' = i then v else A.get k' j' i' := rfl

theorem fetchRow_get (cp : Array2D ℚ) (k j n : ℕ) (P : Array3D ℚ) (k' j' i' : ℕ) :
    (fetchRow cp k j n P).get k' j' i'
      = if k' = k ∧ j' = j ∧ i' < n then cp.get j' i' else P.get k' j' i' := by
  unfold fetchRow
  induction n with
  | zero => simp
  | succ n ih =>
    rw [List.range_succ, List.foldl_append]
    simp only [List.foldl_cons, List.foldl_nil]
    rw [get_set3, ih]
    by_cases h : k' = k ∧ j' = j
    · obtain ⟨rfl, rfl⟩ := h
      by_cases h2 : i' = n
      · subst h2; simp
      · have h3 : i' < n + 1 ↔ i' < n := by omega
        simp [h2, h3]
    · have h1 : ¬ (k' = k ∧ j' = j ∧ i' = n) := fun ⟨a, b, _⟩ => h ⟨a, b⟩
      have h2 : ¬ (k' = k ∧ j' = j ∧ i' < n) := fun ⟨a, b, _⟩ => h ⟨a, b⟩
      have h3 : ¬ (k' = k ∧ j' = j ∧ i' < n + 1) := fun ⟨a, b, _⟩ => h ⟨a, b⟩
      simp only [h1, h2, h3, if_false]

theorem fetchSlice_get (cp : Array2D ℚ) (k m n : ℕ) (P : Array3D ℚ) (k' j' i' : ℕ) :
    (fetchSlice cp k m n P).get k' j' i'
      = if k' = k ∧ j' < m ∧ i' < n then cp.get j' i' else P.get k' j' i' := by
  unfold fetchSlice
  induction m with
  | zero => simp
  | succ m ih =>
    rw [List.range_succ, List.foldl_append]
    simp only [List.foldl_cons, List.foldl_nil]
    rw [fetchRow_get, ih]
    by_cases h : k' = k ∧ i' < n
    · obtain ⟨rfl, hi⟩ := h
      by_cases h2 : j' = m
      · subst h2; simp [hi]
      · have h3 : j' < m + 1 ↔ j' < m := by omega
        simp [h2, h3]
    · have h1 : ¬ (k' = k ∧ j' = m ∧ i' < n) := fun ⟨a, _, b⟩ => h ⟨a, b⟩
      have h2 : ¬ (k' = k ∧ j' < m ∧ i' < n) := fun ⟨a, _, b⟩ => h ⟨a, b⟩
      have h3 : ¬ (k' = k ∧ j' < m + 1 ∧ i' < n) := fun ⟨a, _, b⟩ => h ⟨a, b⟩
      simp only [h1, h2, h3, if_false]

theorem fetch_fold_get (projPot : ℕ → List ℚ → List ℚ → Array2D ℚ) (species : List ℕ)
    (xr yr : List ℚ) (dimj dimi l : ℕ) (P : Array3D ℚ) (k' j' i' : ℕ) :
    ((List.range l).foldl
        (fun P k => fetchSlice (projPot (species.getD k 0) xr yr) k dimj dimi P) P).get
          k' j' i'
      = if k' < l ∧ j' < dimj ∧ i' < dimi
        then (projPot (species.getD k' 0) xr yr).get j' i' else P.get k' j' i' := by
  induction l with
  | zero => simp
  | succ l ih =>
    rw [List.range_succ, List.foldl_append]
    simp only [List.foldl_cons, List.foldl_nil]
    rw [fetchSlice_get, ih]
    by_cases h : j' < dimj ∧ i' < dimi
    · obtain ⟨hj, hi⟩ := h
      by_cases h2 : k' = l
      · subst h2; simp [hj, hi]
      · have h3 : k' < l + 1 ↔ k' < l := by omega
        simp [h2, h3]
    · have h1 : ¬ (k' = l ∧ j' < dimj ∧ i' < dimi) := fun ⟨_, a, b⟩ => h ⟨a, b⟩
      have h2 : ¬ (k' < l ∧ j' < dimj ∧ i' < dimi) := fun ⟨_, a, b⟩ => h ⟨a, b⟩
      have h3 : ¬ (k' < l + 1 ∧ j' < dimj ∧ i' < dimi) := fun ⟨_, a, b⟩ => h ⟨a, b⟩
      simp only [h1, h2, h3, if_false]

/-- Inside its extents the table filled by `fetch_potentials` holds the kernel
of the species of each slice. -/
theorem fetch_potentials_get (projPot : ℕ → List ℚ → List ℚ → Array2D ℚ)
    (P : Array3D ℚ) (species : List ℕ) (xr yr : List ℚ) (k j i : ℕ)
    (hk : k < P.dimk) (hj : j < P.dimj) (hi : i < P.dimi) :
    (fetch_potentials projPot P species xr yr).get k j i
      = (projPot (species.getD k 0) xr yr).get j i := by
  unfold fetch_potentials
  rw [fetch_fold_get]
  simp [hk, hj, hi]

theorem offsetVector_length (leng : ℤ) : (offsetVector leng).length = 2 * leng.toNat + 1 := by
  unfold offsetVector
  rw [List.length_map, List.length_range]

theorem offsetVector_getD (leng : ℤ) (k : ℕ) (hk : k < 2 * leng.toNat + 1) :
    (offsetVector leng).getD k 0 = -leng + (k : ℤ) := by
  have h : k < (offsetVector leng).length := by rw [offsetVector_length]; exact hk
  rw [List.getD_eq_getElem _ _ h]
  unfold offsetVector
  rw [List.getElem_map, List.getElem_range]

/-- Offsets of a kernel no wider than the extent `d` wrap to distinct
indices. -/
theorem offset_wrap_inj (leng Y : ℤ) (d : ℕ) (hd : 2 * leng.toNat + 1 ≤ d) (j j' : ℕ)
    (hj : j < 2 * leng.toNat + 1) (hj' : j' < 2 * leng.toNat + 1)
    (h : (-leng + (j : ℤ) + Y) % (d : ℤ) = (-leng + (j' : ℤ) + Y) % (d : ℤ)) : j = j' := by
  have h1 := Int.emod_eq_emod_iff_emod_sub_eq_zero.mp h
  have h2 : (d : ℤ) ∣ (j : ℤ) - (j' : ℤ) := by
    have := Int.dvd_of_emod_eq_zero h1
    have e : -leng + (j : ℤ) + Y - (-leng + (j' : ℤ) + Y) = (j : ℤ) - (j' : ℤ) := by ring
    rwa [e] at this
  have h3 : |(j : ℤ) - (j' : ℤ)| < (d : ℤ) := by
    rw [abs_lt]; constructor <;> omega
  have := Int.eq_zero_of_abs_lt_dvd h2 h3
  omega

theorem sum_single_target (n m : ℕ) (f g : ℕ → ℤ) (v : ℕ → ℕ → ℚ) (jj0 ii0 : ℕ)
    (hj : jj0 < n) (hi : ii0 < m)
    (finj : ∀ j, j < n → f j = f jj0 → j = jj0)
    (ginj : ∀ i, i < m → g i = g ii0 → i = ii0) :
    (∑ ii in Finset.range m, ∑ jj in Finset.range n,
        if f jj = f jj0 ∧ g ii = g ii0 then v jj ii else 0) = v jj0 ii0 := by
  rw [Finset.sum_eq_single ii0]
  · rw [Finset.sum_eq_single jj0]
    · simp
    · intro j hjr hne
      have : ¬ (f j = f jj0) := fun e => hne (finj j (Finset.mem_range.mp hjr) e)
      simp [this]
    · intro h; exact absurd (Finset.mem_range.mpr hj) h
  · intro i hir hne
    have : ¬ (g i = g ii0) := fun e => hne (ginj i (Finset.mem_range.mp hir) e)
    simp [this]
  · intro h; exact absurd (Finset.mem_range.mpr hi) h

theorem sum_no_target (n m : ℕ) (f g : ℕ → ℤ) (v : ℕ → ℕ → ℚ) (a b : ℤ)
    (h : ∀ jj ii, jj < n → ii < m → ¬ (f jj = a ∧ g ii = b)) :
    (∑ ii in Finset.range m, ∑ jj in Finset.range n,
        if f jj = a ∧ g ii = b then v jj ii else 0) = 0 := by
  apply Finset.sum_eq_zero
  intro ii hii
  apply Finset.sum_eq_zero
  intro jj hjj
  rw [if_neg (h jj ii (Finset.mem_range.mp hjj) (Finset.mem_range.mp hii))]

theorem zPlaneOf_self (m t : ℚ) : zPlaneOf m t m = 0 := by
  unfold zPlaneOf
  rw [neg_add_cancel, zero_div, zero_add]
  norm_num [cround]

theorem unique_species_single (pars : Parameters) (atom : Atom) (h : pars.atoms = [atom]) :
    get_unique_atomic_species pars = [atom.species] := by
  simp [get_unique_atomic_species, h, unique]

theorem build_Z_lookup_single (sp : ℕ) : build_Z_lookup [sp] sp = 0 := by
  simp [build_Z_lookup, List.range_succ]

/-- The closure data for a single atom: one plane, and the atom is in slice
`0`. -/
theorem prepare_single (pars : Parameters) (potentialLookup : Array3D ℚ)
    (unique_species : List ℕ) (xvec yvec : List ℤ) (atom : Atom)
    (h : pars.atoms = [atom]) :
    ∃ c, prepare pars potentialLookup unique_species xvec yvec = some c
      ∧ c.pars = pars ∧ c.numPlanes = 1
      ∧ c.x = [atom.x * pars.tiledCellDim2] ∧ c.y = [atom.y * pars.tiledCellDim1]
      ∧ c.ID = [atom.species] ∧ c.zPlane = [0]
      ∧ c.Z_lookup = build_Z_lookup unique_species
      ∧ c.xvec = xvec ∧ c.yvec = yvec ∧ c.potentialLookup = potentialLookup := by
  obtain ⟨c, max_z, max_p, hc, hz, hp, hpars, hnum, hx, hy, -, hID, hzP, hZ, hxv, hyv, hL⟩ :=
    prepare_spec pars potentialLookup unique_species xvec yvec (by rw [h]; simp)
  have hmz : max_z = atom.z * pars.tiledCellDim0 := by
    rw [h] at hz
    simpa [max_element] using hz.symm
  have hzP' : c.zPlane = [0] := by
    rw [hzP, h, hmz]
    simp [zPlaneOf_self]
  have hmp : max_p = 0 := by
    rw [h, hmz] at hp
    simpa [max_element, zPlaneOf_self] using hp.symm
  refine ⟨c, hc, hpars, ?_, ?_, ?_, ?_, hzP', hZ, hxv, hyv, hL⟩
  · rw [hnum, hmp]; rfl
  · rw [hx, h]; rfl
  · rw [hy, h]; rfl
  · rw [hID, h]; rfl

/-- Claim C3: for a single atom, with thermal effects and occupancy disabled
and a kernel no larger than the image (`2 * xleng + 1 <= imageSize[1]` and
`2 * yleng + 1 <= imageSize[0]`), `PRISM01_calcPotential`, whose dispatcher
hands out the range `[0, 1)`, yields one slice that is the kernel of the atom's species centred at the atom's wrapped pixel:
`pot[0][(Y + yvec[jj]) mod imageSize[0]][(X + xvec[ii]) mod imageSize[1]]` is
`potentialLookup[0][jj][ii]`, the kernel `projPot(species, xr, yr)` at
`(jj, ii)`, for every kernel offset, and every pixel not of that form is `0`. -/
theorem single_atom_kernel (projPot : ℕ → List ℚ → List ℚ → Array2D ℚ)
    (pars : Parameters) (rs : RandomSource) (atom : Atom)
    (hatoms : pars.atoms = [atom])
    (hT : pars.includeThermalEffects = false) (hO : pars.includeOccupancy = false)
    (hx : 2 * (xleng pars).toNat + 1 ≤ pars.imageSize1)
    (hy : 2 * (yleng pars).toNat + 1 ≤ pars.imageSize0) :
    ∃ pot, PRISM01_calcPotential projPot pars rs [(0, 1)] = some (1, pot)
      ∧ (∀ jj ii, jj < 2 * (yleng pars).toNat + 1 → ii < 2 * (xleng pars).toNat + 1 →
          pot.get 0
              ((cround (atom.y * pars.tiledCellDim1 / pars.pixelSize0)
                  + (yvecOf pars).getD jj 0) % (pars.imageSize0 : ℤ)).toNat
              ((cround (atom.x * pars.tiledCellDim2 / pars.pixelSize1)
                  + (xvecOf pars).getD ii 0) % (pars.imageSize1 : ℤ)).toNat
            = (potentialLookupOf projPot pars).get 0 jj ii
          ∧ (potentialLookupOf projPot pars).get 0 jj ii
            = (projPot atom.species (xrOf pars) (yrOf pars)).get jj ii)
      ∧ (∀ r col : ℕ,
          (∀ jj ii, jj < 2 * (yleng pars).toNat + 1 → ii < 2 * (xleng pars).toNat + 1 →
            ¬ (r = ((cround (atom.y * pars.tiledCellDim1 / pars.pixelSize0)
                      + (yvecOf pars).getD jj 0) % (pars.imageSize0 : ℤ)).toNat
              ∧ col = ((cround (atom.x * pars.tiledCellDim2 / pars.pixelSize1)
                      + (xvecOf pars).getD ii 0) % (pars.imageSize1 : ℤ)).toNat)) →
          pot.get 0 r col = 0) := by
  obtain ⟨c, hc, hpars, hnum, hcx, hcy, hID, hzP, hZ, hxv, hyv, hL⟩ :=
    prepare_single pars (potentialLookupOf projPot pars) (get_unique_atomic_species pars)
      (xvecOf pars) (yvecOf pars) atom hatoms
  have hd0 : (0 : ℤ) < (pars.imageSize0 : ℤ) := by omega
  have hd1 : (0 : ℤ) < (pars.imageSize1 : ℤ) := by omega
  have hylen : (yvecOf pars).length = 2 * (yleng pars).toNat + 1 := offsetVector_length _
  have hxlen : (xvecOf pars).length = 2 * (xleng pars).toNat + 1 := offsetVector_length _
  -- the stored slice is the contribution of the atom
  have hpot : ∀ r col : ℕ,
      ([((0 : ℕ), (1 : ℕ))].foldl (workUnit c rs)
          (zeros_ND3 c.numPlanes pars.imageSize0 pars.imageSize1)).get 0 r col
        = ∑ ii in Finset.range (2 * (xleng pars).toNat + 1),
            ∑ jj in Finset.range (2 * (yleng pars).toNat + 1),
              if ((yvecOf pars).getD jj 0
                    + cround (atom.y * pars.tiledCellDim1 / pars.pixelSize0))
                    % (pars.imageSize0 : ℤ) = (r : ℤ)
                  ∧ ((xvecOf pars).getD ii 0
                    + cround (atom.x * pars.tiledCellDim2 / pars.pixelSize1))
                    % (pars.imageSize1 : ℤ) = (col : ℤ)
              then (potentialLookupOf projPot pars).get 0 jj ii else 0 := by
    intro r col
    have h := workUnit_single_get c rs (zeros_ND3 c.numPlanes pars.imageSize0 pars.imageSize1)
      (by rw [hpars]; exact hT) (by rw [hpars]; exact hO)
      (by rw [hpars]; omega) (by rw [hpars]; omega) 0 r col
    have hfil : (Finset.range c.x.length).filter
        (fun a => c.zPlane.getD a 0 = ((0 : ℕ) : ℤ)) = {0} := by
      rw [hcx, hzP]; rfl
    rw [hfil, Finset.sum_singleton] at h
    simp only [List.foldl_cons, List.foldl_nil]
    rw [h]
    simp only [atomContribution, hpars, hxv, hyv, hL, hZ, hID, hcx, hcy, hxlen, hylen,
      List.getD_cons_zero, unique_species_single pars atom hatoms, build_Z_lookup_single]
  refine ⟨[((0 : ℕ), (1 : ℕ))].foldl (workUnit c rs)
    (zeros_ND3 c.numPlanes pars.imageSize0 pars.imageSize1), ?_, ?_, ?_⟩
  · simp only [PRISM01_calcPotential, generateProjectedPotentials, hc]
    rw [Option.some.injEq, Prod.mk.injEq]
    exact ⟨hnum, rfl⟩
  · intro jj0 ii0 hjj0 hii0
    refine ⟨?_, ?_⟩
    · rw [hpot]
      have e0 := Int.emod_nonneg (cround (atom.y * pars.tiledCellDim1 / pars.pixelSize0)
        + (yvecOf pars).getD jj0 0) hd0.ne'
      have e1 := Int.emod_nonneg (cround (atom.x * pars.tiledCellDim2 / pars.pixelSize1)
        + (xvecOf pars).getD ii0 0) hd1.ne'
      rw [Int.toNat_of_nonneg e0, Int.toNat_of_nonneg e1,
        add_comm (cround _) ((yvecOf pars).getD jj0 0),
        add_comm (cround _) ((xvecOf pars).getD ii0 0)]
      apply sum_single_target _ _
        (fun jj => ((yvecOf pars).getD jj 0
          + cround (atom.y * pars.tiledCellDim1 / pars.pixelSize0)) % (pars.imageSize0 : ℤ))
        (fun ii => ((xvecOf pars).getD ii 0
          + cround (atom.x * pars.tiledCellDim2 / pars.pixelSize1)) % (pars.imageSize1 : ℤ))
        (fun jj ii => (potentialLookupOf projPot pars).get 0 jj ii) jj0 ii0 hjj0 hii0
      · intro j hj e
        simp only [yvecOf, offsetVector_getD _ _ hj, offsetVector_getD _ _ hjj0] at e
        exact offset_wrap_inj _ _ _ hy j jj0 hj hjj0 e
      · intro i hi e
        simp only [xvecOf, offsetVector_getD _ _ hi, offsetVector_getD _ _ hii0] at e
        exact offset_wrap_inj _ _ _ hx i ii0 hi hii0 e
    · unfold potentialLookupOf
      rw [fetch_potentials_get projPot _ _ _ _ 0 jj0 ii0
        (by simp [zeros_ND3, unique_species_single pars atom hatoms])
        (by simpa [zeros_ND3] using hjj0) (by simpa [zeros_ND3] using hii0),
        unique_species_single pars atom hatoms]
      rfl
  · intro r col hno
    rw [hpot]
    apply sum_no_target
    intro jj ii hjj hii hcontra
    apply hno jj ii hjj hii
    obtain ⟨e0, e1⟩ := hcontra
    rw [add_comm (cround _) ((yvecOf pars).getD jj 0),
      add_comm (cround _) ((xvecOf pars).getD ii 0), e0, e1]
    simp

theorem single_atom_kernel_witness :
    exSingle.atoms = [{ x := 5, y := 0, z := 3, species := 14, sigma := 0, occ := 1 }]
    ∧ exSingle.includeThermalEffects = false ∧ exSingle.includeOccupancy = false
    ∧ 2 * (xleng exSingle).toNat + 1 ≤ exSingle.imageSize1
    ∧ 2 * (yleng exSingle).toNat + 1 ≤ exSingle.imageSize0
    ∧ ∃ pot, PRISM01_calcPotential exProjPot exSingle exRandom [(0, 1)] = some (1, pot)
      ∧ (∀ jj ii, jj < 2 * (yleng exSingle).toNat + 1 → ii < 2 * (xleng exSingle).toNat + 1 →
          pot.get 0
              ((cround ((0 : ℚ) * exSingle.tiledCellDim1 / exSingle.pixelSize0)
                  + (yvecOf exSingle).getD jj 0) % (exSingle.imageSize0 : ℤ)).toNat
              ((cround ((5 : ℚ) * exSingle.tiledCellDim2 / exSingle.pixelSize1)
                  + (xvecOf exSingle).getD ii 0) % (exSingle.imageSize1 : ℤ)).toNat
            = (potentialLookupOf exProjPot exSingle).get 0 jj ii
          ∧ (potentialLookupOf exProjPot exSingle).get 0 jj ii
            = (exProjPot 14 (xrOf exSingle) (yrOf exSingle)).get jj ii)
      ∧ (∀ r col : ℕ,
          (∀ jj ii, jj < 2 * (yleng exSingle).toNat + 1 → ii < 2 * (xleng exSingle).toNat + 1 →
            ¬ (r = ((cround ((0 : ℚ) * exSingle.tiledCellDim1 / exSingle.pixelSize0)
                      + (yvecOf exSingle).getD jj 0) % (exSingle.imageSize0 : ℤ)).toNat
              ∧ col = ((cround ((5 : ℚ) * exSingle.tiledCellDim2 / exSingle.pixelSize1)
                      + (xvecOf exSingle).getD ii 0) % (exSingle.imageSize1 : ℤ)).toNat)) →
          pot.get 0 r col = 0) :=
  ⟨rfl, rfl, rfl, by decide!, by decide!,
    single_atom_kernel exProjPot exSingle exRandom
      { x := 5, y := 0, z := 3, species := 14, sigma := 0, occ := 1 }
      rfl rfl rfl (by decide!) (by decide!)⟩

/-! ## Raster loops -/

theorem rasterLoop_eq_foldl {σ : Type} (dimj dimi : ℕ) (body : σ → ℕ → ℕ → σ) (init : σ) :
    rasterLoop dimj dimi body init
      = (rasterList dimj dimi).foldl (fun st p => body st p.1 p.2) init := by
  unfold rasterLoop rasterList
  generalize List.range dimj = ys
  induction ys generalizing init with
  | nil => rfl
  | cons y ys ih =>
    simp only [List.foldl_cons, List.flatMap_cons, List.foldl_append, List.foldl_map]
    exact ih _

theorem mem_rasterList {dimj dimi : ℕ} {p : ℕ × ℕ} :
    p ∈ rasterList dimj dimi ↔ p.1 < dimj ∧ p.2 < dimi := by
  obtain ⟨y, x⟩ := p
  simp only [rasterList, List.mem_flatMap, List.mem_range, List.mem_map, Prod.mk.injEq]
  constructor
  · rintro ⟨a, ha, b, hb, rfl, rfl⟩
    exact ⟨ha, hb⟩
  · rintro ⟨hy, hx⟩
    exact ⟨y, hy, x, hx, rfl, rfl⟩

/-! ## The anti-aliasing mask -/

/-- A loop of assignments `A.at(tj p, ti p) = 1` leaves `1` at the targets and
the old value elsewhere. -/
theorem foldl_set_one_get (tj ti : ℕ × ℕ → ℕ) (l : List (ℕ × ℕ)) (A : Array2D ℕ)
    (r col : ℕ) :
    (l.foldl (fun A p => A.set (tj p) (ti p) 1) A).get r col
      = if ∃ p ∈ l, tj p = r ∧ ti p = col then 1 else A.get r col := by
  induction l generalizing A with
  | nil => simp
  | cons p l ih =>
    simp only [List.foldl_cons]
    rw [ih, get_set]
    by_cases h1 : ∃ q ∈ l, tj q = r ∧ ti q = col
    · have h2 : ∃ q ∈ p :: l, tj q = r ∧ ti q = col := by
        obtain ⟨q, hq, e⟩ := h1
        exact ⟨q, List.mem_cons_of_mem _ hq, e⟩
      rw [if_pos h1, if_pos h2]
    · rw [if_neg h1]
      by_cases h3 : r = tj p ∧ col = ti p
      · have h2 : ∃ q ∈ p :: l, tj q = r ∧ ti q = col :=
          ⟨p, List.mem_cons_self _ _, h3.1.symm, h3.2.symm⟩
        rw [if_pos h3, if_pos h2]
      · have h2 : ¬ ∃ q ∈ p :: l, tj q = r ∧ ti q = col := by
          rintro ⟨q, hq, e1, e2⟩
          rcases List.mem_cons.mp hq with rfl | hq
          · exact h3 ⟨e1.symm, e2.symm⟩
          · exact h1 ⟨q, hq, e1, e2⟩
        rw [if_neg h3, if_neg h2]

/-- The indices that the mask loop of one axis reaches are those of the
band. -/
theorem wrap_band_iff (n r : ℕ) :
    (∃ y, y < n / 2 ∧ (wrapIndex ((y : ℤ) - ((n / 4 : ℕ) : ℤ)) (n : ℤ)).toNat = r)
      ↔ inBand n r := by
  unfold inBand
  rcases Nat.eq_zero_or_pos n with hn | hn
  · subst hn; simp
  have hn' : (0 : ℤ) < (n : ℤ) := by exact_mod_cast hn
  have hq : n / 4 ≤ n / 2 := by omega
  constructor
  · rintro ⟨y, hy, e⟩
    rw [wrapIndex_eq_emod _ hn'] at e
    by_cases hc : n / 4 ≤ y
    · rw [Int.emod_eq_of_lt (by omega) (by omega)] at e
      omega
    · rw [← Int.add_emod_self, Int.emod_eq_of_lt (by omega) (by omega)] at e
      omega
  · rintro (h | ⟨h1, h2⟩)
    · refine ⟨r + n / 4, by omega, ?_⟩
      rw [wrapIndex_eq_emod _ hn', Int.emod_eq_of_lt (by omega) (by omega)]
      omega
    · refine ⟨r - (n - n / 4), by omega, ?_⟩
      rw [wrapIndex_eq_emod _ hn', ← Int.add_emod_self,
        Int.emod_eq_of_lt (by omega) (by omega)]
      omega

/-- The mask holds `1` exactly on the product of the two bands and `0`
elsewhere. -/
theorem buildMask_get (n0 n1 y x : ℕ) :
    (buildMask n0 n1).get y x = if inBand n0 y ∧ inBand n1 x then 1 else 0 := by
  unfold buildMask
  simp only []
  rw [rasterLoop_eq_foldl]
  rw [foldl_set_one_get
    (fun p => (wrapIndex ((p.1 : ℤ) - ((n0 / 4 : ℕ) : ℤ)) (n0 : ℤ)).toNat)
    (fun p => (wrapIndex ((p.2 : ℤ) - ((n1 / 4 : ℕ) : ℤ)) (n1 : ℤ)).toNat)]
  have hiff : (∃ p ∈ rasterList (n0 / 2) (n1 / 2),
        (wrapIndex ((p.1 : ℤ) - ((n0 / 4 : ℕ) : ℤ)) (n0 : ℤ)).toNat = y
        ∧ (wrapIndex ((p.2 : ℤ) - ((n1 / 4 : ℕ) : ℤ)) (n1 : ℤ)).toNat = x)
      ↔ inBand n0 y ∧ inBand n1 x := by
    rw [← wrap_band_iff n0 y, ← wrap_band_iff n1 x]
    constructor
    · rintro ⟨p, hp, e1, e2⟩
      obtain ⟨h1, h2⟩ := mem_rasterList.mp hp
      exact ⟨⟨p.1, h1, e1⟩, ⟨p.2, h2, e2⟩⟩
    · rintro ⟨⟨a, ha, e1⟩, ⟨b, hb, e2⟩⟩
      exact ⟨(a, b), mem_rasterList.mpr ⟨ha, hb⟩, e1, e2⟩
  simp only [hiff]
  rfl

theorem card_band (n : ℕ) : ((Finset.range n).filter (fun r => inBand n r)).card = n / 2 := by
  have hset : (Finset.range n).filter (fun r => inBand n r)
      = Finset.range (n / 2 - n / 4) ∪ Finset.Ico (n - n / 4) n := by
    ext r
    simp only [Finset.mem_filter, Finset.mem_range, Finset.mem_union, Finset.mem_Ico, inBand]
    omega
  rw [hset, Finset.card_union_of_disjoint, Finset.card_range, Nat.card_Ico]
  · omega
  · rw [Finset.disjoint_left]
    intro r h1 h2
    simp only [Finset.mem_range, Finset.mem_Ico] at h1 h2
    omega

/-- Claim C8: for every image size `(n0, n1)` the anti-aliasing mask built by
`setupCoordinates` has `qMask(y, x) = 1` exactly when `y` is in
`[0, n0/2 - n0/4)` or `[n0 - n0/4, n0)` and `x` is in `[0, n1/2 - n1/4)` or
`[n1 - n1/4, n1)`, and `0` otherwise; exactly `(n0/2) * (n1/2)` entries of the
array are `1`. -/
theorem antialiasing_mask_shape {K : Type} [Field K] (cexp : K → K) (I pi : K) (u : Utility)
    (pars : SMatrixParameters) :
    (∀ y x : ℕ,
      ((setupCoordinates cexp I pi u pars).qMask.get y x = 1
        ↔ (y < pars.pot.dimj / 2 - pars.pot.dimj / 4
            ∨ (pars.pot.dimj - pars.pot.dimj / 4 ≤ y ∧ y < pars.pot.dimj))
          ∧ (x < pars.pot.dimi / 2 - pars.pot.dimi / 4
            ∨ (pars.pot.dimi - pars.pot.dimi / 4 ≤ x ∧ x < pars.pot.dimi)))
      ∧ ((setupCoordinates cexp I pi u pars).qMask.get y x = 1
        ∨ (setupCoordinates cexp I pi u pars).qMask.get y x = 0))
    ∧ ((Finset.range pars.pot.dimj ×ˢ Finset.range pars.pot.dimi).filter
        (fun p => (setupCoordinates cexp I pi u pars).qMask.get p.1 p.2 = 1)).card
      = (pars.pot.dimj / 2) * (pars.pot.dimi / 2) := by
  have hq : (setupCoordinates cexp I pi u pars).qMask = buildMask pars.pot.dimj pars.pot.dimi :=
    rfl
  rw [hq]
  refine ⟨?_, ?_⟩
  · intro y x
    rw [buildMask_get]
    by_cases h : inBand pars.pot.dimj y ∧ inBand pars.pot.dimi x
    · rw [if_pos h]
      exact ⟨⟨fun _ => h, fun _ => rfl⟩, Or.inl rfl⟩
    · rw [if_neg h]
      exact ⟨⟨fun e => absurd e (by decide), fun e => absurd e h⟩, Or.inr rfl⟩
  · have hfil : (Finset.range pars.pot.dimj ×ˢ Finset.range pars.pot.dimi).filter
          (fun p => (buildMask pars.pot.dimj pars.pot.dimi).get p.1 p.2 = 1)
        = ((Finset.range pars.pot.dimj).filter (fun r => inBand pars.pot.dimj r))
          ×ˢ ((Finset.range pars.pot.dimi).filter (fun r => inBand pars.pot.dimi r)) := by
      rw [← Finset.filter_product]
      apply Finset.filter_congr
      intro p _
      rw [buildMask_get]
      by_cases h : inBand pars.pot.dimj p.1 ∧ inBand pars.pot.dimi p.2
      · simp [h]
      · simp [h]
    rw [hfil, Finset.card_product, card_band, card_band]

/-! ## The propagators -/

theorem foldl_set_one_dims (tj ti : ℕ × ℕ → ℕ) (l : List (ℕ × ℕ)) (A : Array2D ℕ) :
    (l.foldl (fun A p => A.set (tj p) (ti p) 1) A).dimj = A.dimj
      ∧ (l.foldl (fun A p => A.set (tj p) (ti p) 1) A).dimi = A.dimi := by
  induction l generalizing A with
  | nil => exact ⟨rfl, rfl⟩
  | cons p l ih =>
    simp only [List.foldl_cons]
    exact ih _

theorem buildMask_dims (n0 n1 : ℕ) :
    (buildMask n0 n1).dimj = n0 ∧ (buildMask n0 n1).dimi = n1 := by
  unfold buildMask
  simp only []
  rw [rasterLoop_eq_foldl]
  exact foldl_set_one_dims
    (fun p => (wrapIndex ((p.1 : ℤ) - ((n0 / 4 : ℕ) : ℤ)) (n0 : ℤ)).toNat)
    (fun p => (wrapIndex ((p.2 : ℤ) - ((n1 / 4 : ℕ) : ℤ)) (n1 : ℤ)).toNat) _ _

/-- A loop that assigns `v1 y x` and `v2 y x` at the pixels of the mask leaves
these values at the visited pixels of the mask and the old values
elsewhere. -/
theorem foldl_masked_set_get {K : Type} (qMask : Array2D ℕ) (v1 v2 : ℕ → ℕ → K)
    (l : List (ℕ × ℕ)) (st : Array2D K × Array2D K) (y x : ℕ) :
    ((l.foldl (fun (st : Array2D K × Array2D K) p =>
          if qMask.get p.1 p.2 = 1 then
            (st.1.set p.1 p.2 (v1 p.1 p.2), st.2.set p.1 p.2 (v2 p.1 p.2))
          else st) st).1.get y x
        = if (y, x) ∈ l ∧ qMask.get y x = 1 then v1 y x else st.1.get y x)
    ∧ ((l.foldl (fun (st : Array2D K × Array2D K) p =>
          if qMask.get p.1 p.2 = 1 then
            (st.1.set p.1 p.2 (v1 p.1 p.2), st.2.set p.1 p.2 (v2 p.1 p.2))
          else st) st).2.get y x
        = if (y, x) ∈ l ∧ qMask.get y x = 1 then v2 y x else st.2.get y x) := by
  induction l generalizing st with
  | nil => simp
  | cons p l ih =>
    simp only [List.foldl_cons]
    obtain ⟨ih1, ih2⟩ := ih (if qMask.get p.1 p.2 = 1 then
      (st.1.set p.1 p.2 (v1 p.1 p.2), st.2.set p.1 p.2 (v2 p.1 p.2)) else st)
    rw [ih1, ih2]
    by_cases hl : (y, x) ∈ l ∧ qMask.get y x = 1
    · have hl' : (y, x) ∈ p :: l ∧ qMask.get y x = 1 := ⟨List.mem_cons_of_mem _ hl.1, hl.2⟩
      simp only [hl, hl', if_true, and_self]
    · simp only [hl, if_false]
      by_cases hp : (y, x) = p
      · subst hp
        by_cases hm : qMask.get y x = 1
        · simp [hm, get_set]
        · simp [hm]
      · have hne : ¬ (y = p.1 ∧ x = p.2) := fun ⟨e1, e2⟩ => hp (Prod.ext e1 e2)
        have hl' : ¬ ((y, x) ∈ p :: l ∧ qMask.get y x = 1) := by
          rintro ⟨hmem, hm⟩
          rcases List.mem_cons.mp hmem with e | hmem
          · exact hp e
          · exact hl ⟨hmem, hm⟩
        by_cases hm : qMask.get p.1 p.2 = 1
        · simp only [hm, if_true, hl', if_false, get_set, hne]
          exact ⟨trivial, trivial⟩
        · simp only [hm, if_false, hl']
          exact ⟨trivial, trivial⟩

/-- The propagators of `setupCoordinates` at a pixel: the phase factors on the
mask, zero off the mask. -/
theorem setupCoordinates_prop_get {K : Type} [Field K] (cexp : K → K) (I pi : K)
    (u : Utility) (pars : SMatrixParameters) (y x : ℕ) :
    ((setupCoordinates cexp I pi u pars).prop.get y x
        = if (setupCoordinates cexp I pi u pars).qMask.get y x = 1 then
            cexp (-I * pi * (pars.lambda : K) * (pars.sliceThickness : K)
              * (((setupCoordinates cexp I pi u pars).q2.get y x : ℚ) : K))
          else 0)
    ∧ ((setupCoordinates cexp I pi u pars).propBack.get y x
        = if (setupCoordinates cexp I pi u pars).qMask.get y x = 1 then
            cexp (I * pi * (pars.lambda : K) * ((pars.tiledCellDim0 / 2 : ℚ) : K)
              * (((setupCoordinates cexp I pi u pars).q2.get y x : ℚ) : K))
          else 0) := by
  have hmask : (setupCoordinates cexp I pi u pars).qMask
      = buildMask pars.pot.dimj pars.pot.dimi := rfl
  have hmem : (buildMask pars.pot.dimj pars.pot.dimi).get y x = 1 →
      (y, x) ∈ rasterList (buildMask pars.pot.dimj pars.pot.dimi).dimj
        (buildMask pars.pot.dimj pars.pot.dimi).dimi := by
    intro h
    rw [(buildMask_dims _ _).1, (buildMask_dims _ _).2]
    rw [buildMask_get] at h
    by_cases hb : inBand pars.pot.dimj y ∧ inBand pars.pot.dimi x
    · apply mem_rasterList.mpr
      obtain ⟨h1, h2⟩ := hb
      unfold inBand at h1 h2
      constructor
      · show y < pars.pot.dimj
        omega
      · show x < pars.pot.dimi
        omega
    · rw [if_neg hb] at h
      exact absurd h (by decide)
  have hfold := foldl_masked_set_get (buildMask pars.pot.dimj pars.pot.dimi)
    (fun y x => cexp (-I * pi * (pars.lambda : K) * (pars.sliceThickness : K)
      * (((setupCoordinates cexp I pi u pars).q2.get y x : ℚ) : K)))
    (fun y x => cexp (I * pi * (pars.lambda : K) * ((pars.tiledCellDim0 / 2 : ℚ) : K)
      * (((setupCoordinates cexp I pi u pars).q2.get y x : ℚ) : K)))
    (rasterList (buildMask pars.pot.dimj pars.pot.dimi).dimj
      (buildMask pars.pot.dimj pars.pot.dimi).dimi)
    (zeros_ND2 pars.pot.dimj pars.pot.dimi, zeros_ND2 pars.pot.dimj pars.pot.dimi) y x
  rw [hmask]
  have hprop : (setupCoordinates cexp I pi u pars).prop
      = (buildPropagators cexp I pi pars.lambda pars.sliceThickness pars.tiledCellDim0
          (setupCoordinates cexp I pi u pars).q2 (buildMask pars.pot.dimj pars.pot.dimi)
          pars.pot.dimj pars.pot.dimi).1 := rfl
  have hback : (setupCoordinates cexp I pi u pars).propBack
      = (buildPropagators cexp I pi pars.lambda pars.sliceThickness pars.tiledCellDim0
          (setupCoordinates cexp I pi u pars).q2 (buildMask pars.pot.dimj pars.pot.dimi)
          pars.pot.dimj pars.pot.dimi).2 := rfl
  rw [hprop, hback]
  unfold buildPropagators
  rw [rasterLoop_eq_foldl]
  obtain ⟨h1, h2⟩ := hfold
  by_cases hm : (buildMask pars.pot.dimj pars.pot.dimi).get y x = 1
  · have hboth : (y, x) ∈ rasterList (buildMask pars.pot.dimj pars.pot.dimi).dimj
          (buildMask pars.pot.dimj pars.pot.dimi).dimi
        ∧ (buildMask pars.pot.dimj pars.pot.dimi).get y x = 1 := ⟨hmem hm, hm⟩
    rw [if_pos hboth] at h1 h2
    rw [if_pos hm, if_pos hm]
    exact ⟨h1, h2⟩
  · have hboth : ¬ ((y, x) ∈ rasterList (buildMask pars.pot.dimj pars.pot.dimi).dimj
          (buildMask pars.pot.dimj pars.pot.dimi).dimi
        ∧ (buildMask pars.pot.dimj pars.pot.dimi).get y x = 1) := fun h => hm h.2
    rw [if_neg hboth] at h1 h2
    rw [if_neg hm, if_neg hm]
    exact ⟨h1, h2⟩

theorem abs_exp_neg_phase (a b c : ℚ) :
    Complex.abs (Complex.exp (-Complex.I * (Real.pi : ℂ) * (a : ℂ) * (b : ℂ) * (c : ℂ))) = 1 := by
  have h : -Complex.I * (Real.pi : ℂ) * (a : ℂ) * (b : ℂ) * (c : ℂ)
      = ((-(Real.pi * (a : ℝ) * (b : ℝ) * (c : ℝ)) : ℝ) : ℂ) * Complex.I := by
    push_cast; ring
  rw [h, Complex.abs_exp_ofReal_mul_I]

theorem abs_exp_pos_phase (a b c : ℚ) :
    Complex.abs (Complex.exp (Complex.I * (Real.pi : ℂ) * (a : ℂ) * (b : ℂ) * (c : ℂ))) = 1 := by
  have h : Complex.I * (Real.pi : ℂ) * (a : ℂ) * (b : ℂ) * (c : ℂ)
      = ((Real.pi * (a : ℝ) * (b : ℝ) * (c : ℝ) : ℝ) : ℂ) * Complex.I := by
    push_cast; ring
  rw [h, Complex.abs_exp_ofReal_mul_I]

/-- Claim C9: after `setupCoordinates`, over the complex numbers and with the
exact exponential, the propagator and the back-propagator are `0` at every
pixel where `qMask` is `0`; where `qMask` is `1` they are
`exp(-i * pi * lambda * sliceThickness * q2(y, x))` and
`exp(i * pi * lambda * (tiledCellDim[0] / 2) * q2(y, x))`, both of modulus
`1`. -/
theorem propagators_masked_phase (u : Utility) (pars : SMatrixParameters) (y x : ℕ) :
    ((setupCoordinates Complex.exp Complex.I (Real.pi : ℂ) u pars).qMask.get y x = 0 →
        (setupCoordinates Complex.exp Complex.I (Real.pi : ℂ) u pars).prop.get y x = 0
        ∧ (setupCoordinates Complex.exp Complex.I (Real.pi : ℂ) u pars).propBack.get y x = 0)
    ∧ ((setupCoordinates Complex.exp Complex.I (Real.pi : ℂ) u pars).qMask.get y x = 1 →
        (setupCoordinates Complex.exp Complex.I (Real.pi : ℂ) u pars).prop.get y x
          = Complex.exp (-Complex.I * (Real.pi : ℂ) * (pars.lambda : ℂ)
              * (pars.sliceThickness : ℂ)
              * (((setupCoordinates Complex.exp Complex.I (Real.pi : ℂ) u pars).q2.get y x
                  : ℚ) : ℂ))
        ∧ (setupCoordinates Complex.exp Complex.I (Real.pi : ℂ) u pars).propBack.get y x
          = Complex.exp (Complex.I * (Real.pi : ℂ) * (pars.lambda : ℂ)
              * ((pars.tiledCellDim0 / 2 : ℚ) : ℂ)
              * (((setupCoordinates Complex.exp Complex.I (Real.pi : ℂ) u pars).q2.get y x
                  : ℚ) : ℂ))
        ∧ Complex.abs
            ((setupCoordinates Complex.exp Complex.I (Real.pi : ℂ) u pars).prop.get y x) = 1
        ∧ Complex.abs
            ((setupCoordinates Complex.exp Complex.I (Real.pi : ℂ) u pars).propBack.get y x)
            = 1) := by
  obtain ⟨h1, h2⟩ :=
    setupCoordinates_prop_get Complex.exp Complex.I (Real.pi : ℂ) u pars y x
  refine ⟨?_, ?_⟩
  · intro h0
    have hne : ¬ ((setupCoordinates Complex.exp Complex.I (Real.pi : ℂ) u pars).qMask.get y x
        = 1) := by rw [h0]; decide
    rw [if_neg hne] at h1 h2
    exact ⟨h1, h2⟩
  · intro hm
    rw [if_pos hm] at h1 h2
    refine ⟨h1, h2, ?_, ?_⟩
    · rw [h1]; exact abs_exp_neg_phase _ _ _
    · rw [h2]; exact abs_exp_pos_phase _ _ _

/-! ## The down-sampling index vectors -/

theorem getD_set (l : List ℕ) (i j v : ℕ) :
    (l.set i v).getD j 0 = if i = j ∧ j < l.length then v else l.getD j 0 := by
  simp only [List.getD_eq_getElem?_getD, List.getElem?_set]
  by_cases h : i = j
  · subst h
    by_cases h2 : i < l.length
    · simp [h2]
    · simp [h2, List.getElem?_eq_none (not_lt.mp h2)]
  · simp [h]

/-- The vector after the first `k` iterations of the filling loop. -/
theorem downsample_fold (n k : ℕ) (hk : k ≤ n / 4) :
    ((List.range k).foldl
        (fun q i =>
          (q.set i i).set (i + n / 4) (((i : ℤ) - ((n / 4 : ℕ) : ℤ)) + (n : ℤ)).toNat)
        (List.replicate (n / 2) 0)).length = n / 2
    ∧ ∀ j, ((List.range k).foldl
        (fun q i =>
          (q.set i i).set (i + n / 4) (((i : ℤ) - ((n / 4 : ℕ) : ℤ)) + (n : ℤ)).toNat)
        (List.replicate (n / 2) 0)).getD j 0
      = if j < k then j else if n / 4 ≤ j ∧ j < n / 4 + k then n - n / 4 + (j - n / 4) else 0 := by
  induction k with
  | zero =>
    refine ⟨by simp, ?_⟩
    intro j
    have h1 : ¬ (n / 4 ≤ j ∧ j < n / 4 + 0) := by omega
    simp only [List.range_zero, List.foldl_nil, Nat.not_lt_zero, if_false, h1]
    rw [List.getD_eq_getElem?_getD, List.getElem?_replicate]
    by_cases h : j < n / 2 <;> simp [h]
  | succ k ih =>
    obtain ⟨hlen, hget⟩ := ih (by omega)
    rw [List.range_succ, List.foldl_append]
    simp only [List.foldl_cons, List.foldl_nil]
    refine ⟨by rw [List.length_set, List.length_set, hlen], ?_⟩
    intro j
    rw [getD_set, getD_set, List.length_set, hlen, hget]
    have hv : (((k : ℤ) - ((n / 4 : ℕ) : ℤ)) + (n : ℤ)).toNat = n - n / 4 + k := by omega
    rw [hv]
    by_cases h1 : k + n / 4 = j ∧ j < n / 2
    · rw [if_pos h1]
      have h2 : ¬ j < k + 1 := by omega
      have h3 : n / 4 ≤ j ∧ j < n / 4 + (k + 1) := by omega
      rw [if_neg h2, if_pos h3]
      omega
    · rw [if_neg h1]
      by_cases h4 : k = j ∧ j < n / 2
      · rw [if_pos h4]
        have h5 : j < k + 1 := by omega
        rw [if_pos h5]
        omega
      · rw [if_neg h4]
        by_cases h6 : j < k
        · have h7 : j < k + 1 := by omega
          rw [if_pos h6, if_pos h7]
        · have h7 : ¬ j < k + 1 := by omega
          rw [if_neg h6, if_neg h7]
          by_cases h8 : n / 4 ≤ j ∧ j < n / 4 + k
          · have h9 : n / 4 ≤ j ∧ j < n / 4 + (k + 1) := by omega
            rw [if_pos h8, if_pos h9]
          · have h9 : ¬ (n / 4 ≤ j ∧ j < n / 4 + (k + 1)) := by omega
            rw [if_neg h8, if_neg h9]

/-- Length and entries of an index vector, for every extent. -/
theorem downsampleIndex_spec (n : ℕ) :
    (downsampleIndex n).length = n / 2
    ∧ ∀ j, (downsampleIndex n).getD j 0
      = if j < n / 4 then j else if j < n / 4 + n / 4 then n - n / 4 + (j - n / 4) else 0 := by
  obtain ⟨h1, h2⟩ := downsample_fold n (n / 4) le_rfl
  refine ⟨h1, ?_⟩
  intro j
  have := h2 j
  unfold downsampleIndex
  simp only []
  rw [this]
  by_cases h : j < n / 4
  · rw [if_pos h, if_pos h]
  · rw [if_neg h, if_neg h]
    by_cases h3 : j < n / 4 + n / 4
    · rw [if_pos ⟨by omega, h3⟩, if_pos h3]
    · rw [if_neg (fun hh => h3 hh.2), if_neg h3]

/-- When `n / 2` is even the vector is the list of the low indices followed by
the high indices. -/
theorem downsampleIndex_eq (n : ℕ) (h : n % 4 ≤ 1) :
    downsampleIndex n = List.range (n / 4) ++ List.range' (n - n / 4) (n / 4) := by
  obtain ⟨hlen, hget⟩ := downsampleIndex_spec n
  apply List.ext_getElem
  · rw [hlen, List.length_append, List.length_range, List.length_range']
    omega
  · intro j h1 h2
    rw [← List.getD_eq_getElem _ 0 h1, hget]
    rw [hlen] at h1
    by_cases hj : j < n / 4
    · rw [if_pos hj, List.getElem_append_left (by simpa using hj), List.getElem_range]
    · rw [if_neg hj, if_pos (by omega),
        List.getElem_append_right (by simpa using not_lt.mp hj), List.getElem_range']
      simp only [List.length_range]
      omega

/-- Claim C10, the claim as stated fails: for the extent `6` the vector has
`3` entries but only `2` of them are written; it is `[0, 5, 0]`, which is
not the list of the low and high indices and holds the index `0` twice. -/
theorem downsample_index_extent_six :
    (setupSMatrixCoordinates 6 6).2 = [0, 5, 0]
    ∧ (setupSMatrixCoordinates 6 6).1 = [0, 5, 0]
    ∧ (setupSMatrixCoordinates 6 6).2 ≠ List.range (6 / 4) ++ List.range' (6 - 6 / 4) (6 / 4)
    ∧ ¬ (setupSMatrixCoordinates 6 6).2.Nodup := by
  decide

/-- Claim C10, amended: for every image extent `n` with `n mod 4 <= 1` (so for
every multiple of `4`) both index vectors that `setupSMatrixCoordinates` builds
for an axis of extent `n` have `n / 2` entries and consist of exactly the
indices `0 .. n/4 - 1` followed by `n - n/4 .. n - 1` (entry `i` is `i` and
entry `n/4 + i` is `n - n/4 + i` for `i < n/4`); every entry is below `n` and
no index occurs twice. -/
theorem downsample_index_vectors (n m : ℕ) (h : n % 4 ≤ 1) :
    (setupSMatrixCoordinates m n).1 = (setupSMatrixCoordinates n m).2
    ∧ ((setupSMatrixCoordinates n m).2).length = n / 2
    ∧ (setupSMatrixCoordinates n m).2
        = List.range (n / 4) ++ List.range' (n - n / 4) (n / 4)
    ∧ (∀ i, i < n / 4 →
        ((setupSMatrixCoordinates n m).2).getD i 0 = i
        ∧ ((setupSMatrixCoordinates n m).2).getD (n / 4 + i) 0 = n - n / 4 + i)
    ∧ (∀ e ∈ (setupSMatrixCoordinates n m).2, e < n)
    ∧ ((setupSMatrixCoordinates n m).2).Nodup := by
  have hy : (setupSMatrixCoordinates n m).2 = downsampleIndex n := rfl
  have hx : (setupSMatrixCoordinates m n).1 = downsampleIndex n := rfl
  obtain ⟨hlen, hget⟩ := downsampleIndex_spec n
  have heq := downsampleIndex_eq n h
  rw [hx, hy]
  refine ⟨rfl, hlen, heq, ?_, ?_, ?_⟩
  · intro i hi
    rw [hget, hget, if_pos hi, if_neg (by omega), if_pos (by omega)]
    exact ⟨rfl, by omega⟩
  · intro e he
    rw [heq, List.mem_append, List.mem_range, List.mem_range'_1] at he
    omega
  · rw [heq, List.nodup_append]
    refine ⟨List.nodup_range _, List.nodup_range' _ _, ?_⟩
    intro a ha hb
    rw [List.mem_range] at ha
    rw [List.mem_range'_1] at hb
    omega

theorem downsample_index_vectors_witness :
    8 % 4 ≤ 1
    ∧ (setupSMatrixCoordinates 5 8).1 = (setupSMatrixCoordinates 8 5).2
    ∧ ((setupSMatrixCoordinates 8 5).2).length = 8 / 2
    ∧ (setupSMatrixCoordinates 8 5).2
        = List.range (8 / 4) ++ List.range' (8 - 8 / 4) (8 / 4)
    ∧ (∀ i, i < 8 / 4 →
        ((setupSMatrixCoordinates 8 5).2).getD i 0 = i
        ∧ ((setupSMatrixCoordinates 8 5).2).getD (8 / 4 + i) 0 = 8 - 8 / 4 + i)
    ∧ (∀ e ∈ (setupSMatrixCoordinates 8 5).2, e < 8)
    ∧ ((setupSMatrixCoordinates 8 5).2).Nodup :=
  ⟨by decide, downsample_index_vectors 8 5 (by decide)⟩

/-! ## Beam selection -/

theorem rasterList_pairwise (dimj dimi : ℕ) :
    (rasterList dimj dimi).Pairwise
      (fun p q => p.1 * dimi + p.2 < q.1 * dimi + q.2) := by
  unfold rasterList
  rw [List.pairwise_flatMap]
  refine ⟨?_, ?_⟩
  · intro y _
    rw [List.pairwise_map]
    exact (List.pairwise_lt_range dimi).imp (fun h => by simpa using h)
  · apply (List.pairwise_lt_range dimj).imp
    intro y1 y2 hy p hp q hq
    simp only [List.mem_map, List.mem_range] at hp hq
    obtain ⟨a, ha, rfl⟩ := hp
    obtain ⟨b, hb, rfl⟩ := hq
    show y1 * dimi + a < y2 * dimi + b
    have h1 : (y1 + 1) * dimi ≤ y2 * dimi := Nat.mul_le_mul_right dimi hy
    have h2 : (y1 + 1) * dimi = y1 * dimi + dimi := by ring
    omega

theorem rasterList_nodup (dimj dimi : ℕ) : (rasterList dimj dimi).Nodup := by
  apply (rasterList_pairwise dimj dimi).imp
  intro p q h e
  rw [e] at h
  exact lt_irrefl _ h

theorem rasterList_toFinset (dimj dimi : ℕ) :
    (rasterList dimj dimi).toFinset = Finset.range dimj ×ˢ Finset.range dimi := by
  ext p
  rw [List.mem_toFinset, mem_rasterList, Finset.mem_product, Finset.mem_range,
    Finset.mem_range]

/-- The number of visited pixels that pass a test is the number of pixels of
the grid that pass it. -/
theorem rasterList_filter_length (dimj dimi : ℕ) (t : ℕ × ℕ → Bool) :
    ((rasterList dimj dimi).filter t).length
      = ((Finset.range dimj ×ˢ Finset.range dimi).filter (fun p => t p = true)).card := by
  rw [← rasterList_toFinset, ← List.toFinset_filter,
    List.toFinset_card_of_nodup ((rasterList_nodup dimj dimi).filter _)]

/-- The selection loop of `setupBeams` over a list of pixels. -/
theorem foldl_select_get (t : ℕ × ℕ → Bool) (l : List (ℕ × ℕ)) (st : Array2D ℕ × ℕ)
    (y x : ℕ) :
    ((l.foldl (fun (st : Array2D ℕ × ℕ) p =>
          if t p then (st.1.set p.1 p.2 1, st.2 + 1) else st) st).1.get y x
        = if (y, x) ∈ l ∧ t (y, x) = true then 1 else st.1.get y x)
    ∧ (l.foldl (fun (st : Array2D ℕ × ℕ) p =>
          if t p then (st.1.set p.1 p.2 1, st.2 + 1) else st) st).2
        = st.2 + (l.filter t).length := by
  induction l generalizing st with
  | nil => simp
  | cons p l ih =>
    simp only [List.foldl_cons]
    obtain ⟨ih1, ih2⟩ := ih (if t p then (st.1.set p.1 p.2 1, st.2 + 1) else st)
    rw [ih1, ih2]
    by_cases hp : t p = true
    · simp only [hp, if_true, List.filter_cons_of_pos, List.length_cons, get_set, List.mem_cons]
      refine ⟨?_, by omega⟩
      by_cases hl : (y, x) ∈ l ∧ t (y, x) = true
      · rw [if_pos hl, if_pos ⟨Or.inr hl.1, hl.2⟩]
      · rw [if_neg hl]
        by_cases he : (y, x) = p
        · have h3 : y = p.1 ∧ x = p.2 := by rw [← he]; exact ⟨rfl, rfl⟩
          rw [if_pos h3, if_pos ⟨Or.inl he, by rw [he]; exact hp⟩]
        · have h3 : ¬ (y = p.1 ∧ x = p.2) := fun ⟨e1, e2⟩ => he (Prod.ext e1 e2)
          have h4 : ¬ (((y, x) = p ∨ (y, x) ∈ l) ∧ t (y, x) = true) := by
            rintro ⟨h5 | h5, h6⟩
            · exact he h5
            · exact hl ⟨h5, h6⟩
          rw [if_neg h3, if_neg h4]
    · have hp' : t p = false := by simpa using hp
      simp only [hp', Bool.false_eq_true, if_false, List.mem_cons]
      refine ⟨?_, ?_⟩
      · by_cases hl : (y, x) ∈ l ∧ t (y, x) = true
        · rw [if_pos hl, if_pos ⟨Or.inr hl.1, hl.2⟩]
        · have h4 : ¬ (((y, x) = p ∨ (y, x) ∈ l) ∧ t (y, x) = true) := by
            rintro ⟨h5 | h5, h6⟩
            · rw [h5, hp'] at h6; exact absurd h6 (by decide)
            · exact hl ⟨h5, h6⟩
          rw [if_neg hl, if_neg h4]
      · rw [List.filter_cons_of_neg (by simpa using hp')]

/-- The selection test of `setupBeams`, as a proposition. -/
theorem beamTest_iff (pars : SMatrixParameters) (q2 : Array2D ℚ) (qMask : Array2D ℕ)
    (mesh_a : Array2D ℚ × Array2D ℚ) (y x : ℕ) :
    beamTest pars q2 qMask mesh_a y x = true
      ↔ q2.get y x < (pars.alphaBeamMax / pars.lambda) ^ 2
        ∧ qMask.get y x = 1
        ∧ (pars.interpolationFactorY : ℤ) ∣ cround (mesh_a.1.get y x)
        ∧ (pars.interpolationFactorX : ℤ) ∣ cround (mesh_a.2.get y x) := by
  simp only [beamTest, Bool.and_eq_true, decide_eq_true_eq, Int.dvd_iff_tmod_eq_zero]
  tauto

/-- The local `mask` of `setupBeams`: `1` at the pixels of the grid that pass
the test, `0` elsewhere. -/
theorem setupBeams_mask_get {K : Type} (u : Utility) (pars : SMatrixParameters)
    (c : Coordinates K) (y x : ℕ) :
    (setupBeams u pars c).mask.get y x
      = if (y, x) ∈ rasterList c.qMask.dimj c.qMask.dimi
            ∧ beamTest pars c.q2 c.qMask
                (u.meshgrid (u.makeFourierCoords c.imageSize0 (1 / (c.imageSize0 : ℚ)))
                  (u.makeFourierCoords c.imageSize1 (1 / (c.imageSize1 : ℚ)))) y x = true
        then 1 else 0 := by
  simp only [setupBeams]
  rw [rasterLoop_eq_foldl]
  exact (foldl_select_get (fun p => beamTest pars c.q2 c.qMask
    (u.meshgrid (u.makeFourierCoords c.imageSize0 (1 / (c.imageSize0 : ℚ)))
      (u.makeFourierCoords c.imageSize1 (1 / (c.imageSize1 : ℚ)))) p.1 p.2) _ _ y x).1

/-- The counter `numberBeams` of `setupBeams`. -/
theorem setupBeams_numberBeams {K : Type} (u : Utility) (pars : SMatrixParameters)
    (c : Coordinates K) :
    (setupBeams u pars c).numberBeams
      = ((rasterList c.qMask.dimj c.qMask.dimi).filter (fun p => beamTest pars c.q2 c.qMask
          (u.meshgrid (u.makeFourierCoords c.imageSize0 (1 / (c.imageSize0 : ℚ)))
            (u.makeFourierCoords c.imageSize1 (1 / (c.imageSize1 : ℚ)))) p.1 p.2)).length := by
  simp only [setupBeams]
  rw [rasterLoop_eq_foldl]
  rw [(foldl_select_get (fun p => beamTest pars c.q2 c.qMask
    (u.meshgrid (u.makeFourierCoords c.imageSize0 (1 / (c.imageSize0 : ℚ)))
      (u.makeFourierCoords c.imageSize1 (1 / (c.imageSize1 : ℚ)))) p.1 p.2) _ _ 0 0).2]
  simp

/-- Claim C6: in regular-grid mode, for positive interpolation factors,
`setupBeams` selects the pixel `(y, x)` of the grid if and only if
`q2(y, x) < (alphaBeamMax / lambda)^2`, `qMask(y, x) = 1`, and the rounded mesh
coordinates of `(y, x)` are multiples of `interpolationFactorY` and of
`interpolationFactorX`; `numberBeams` is the number of pixels of the grid that
satisfy this. -/
theorem beam_selection_predicate {K : Type} (u : Utility) (pars : SMatrixParameters)
    (c : Coordinates K)
    (hfx : 0 < pars.interpolationFactorX) (hfy : 0 < pars.interpolationFactorY) :
    (∀ y x : ℕ,
      (setupBeams u pars c).mask.get y x = 1
        ↔ (y < c.qMask.dimj ∧ x < c.qMask.dimi)
          ∧ c.q2.get y x < (pars.alphaBeamMax / pars.lambda) ^ 2
          ∧ c.qMask.get y x = 1
          ∧ (pars.interpolationFactorY : ℤ) ∣ cround
              ((u.meshgrid (u.makeFourierCoords c.imageSize0 (1 / (c.imageSize0 : ℚ)))
                (u.makeFourierCoords c.imageSize1 (1 / (c.imageSize1 : ℚ)))).1.get y x)
          ∧ (pars.interpolationFactorX : ℤ) ∣ cround
              ((u.meshgrid (u.makeFourierCoords c.imageSize0 (1 / (c.imageSize0 : ℚ)))
                (u.makeFourierCoords c.imageSize1 (1 / (c.imageSize1 : ℚ)))).2.get y x))
    ∧ (setupBeams u pars c).numberBeams
      = ((Finset.range c.qMask.dimj ×ˢ Finset.range c.qMask.dimi).filter
          (fun p =>
            c.q2.get p.1 p.2 < (pars.alphaBeamMax / pars.lambda) ^ 2
            ∧ c.qMask.get p.1 p.2 = 1
            ∧ (pars.interpolationFactorY : ℤ) ∣ cround
                ((u.meshgrid (u.makeFourierCoords c.imageSize0 (1 / (c.imageSize0 : ℚ)))
                  (u.makeFourierCoords c.imageSize1 (1 / (c.imageSize1 : ℚ)))).1.get p.1 p.2)
            ∧ (pars.interpolationFactorX : ℤ) ∣ cround
                ((u.meshgrid (u.makeFourierCoords c.imageSize0 (1 / (c.imageSize0 : ℚ)))
                  (u.makeFourierCoords c.imageSize1 (1 / (c.imageSize1 : ℚ)))).2.get p.1 p.2))).card
    := by
  have _hpos := And.intro hfx hfy
  have hmask := setupBeams_mask_get u pars c
  have hnum := setupBeams_numberBeams u pars c
  refine ⟨?_, ?_⟩
  · intro y x
    rw [hmask, ← beamTest_iff]
    by_cases h : (y, x) ∈ rasterList c.qMask.dimj c.qMask.dimi
        ∧ beamTest pars c.q2 c.qMask
            (u.meshgrid (u.makeFourierCoords c.imageSize0 (1 / (c.imageSize0 : ℚ)))
              (u.makeFourierCoords c.imageSize1 (1 / (c.imageSize1 : ℚ)))) y x = true
    · rw [if_pos h]
      exact ⟨fun _ => ⟨mem_rasterList.mp h.1, h.2⟩, fun _ => rfl⟩
    · rw [if_neg h]
      exact ⟨fun e => absurd e (by decide),
        fun e => absurd ⟨mem_rasterList.mpr e.1, e.2⟩ h⟩
  · rw [hnum, rasterList_filter_length]
    congr 1
    apply Finset.filter_congr
    intro p _
    exact beamTest_iff pars c.q2 c.qMask _ p.1 p.2

theorem beam_selection_predicate_witness :
    0 < exSMatrix.interpolationFactorX ∧ 0 < exSMatrix.interpolationFactorY
    ∧ ((∀ y x : ℕ,
      (setupBeams exUtility exSMatrix exCoordinates).mask.get y x = 1
        ↔ (y < exCoordinates.qMask.dimj ∧ x < exCoordinates.qMask.dimi)
          ∧ exCoordinates.q2.get y x < (exSMatrix.alphaBeamMax / exSMatrix.lambda) ^ 2
          ∧ exCoordinates.qMask.get y x = 1
          ∧ (exSMatrix.interpolationFactorY : ℤ) ∣ cround
              ((exUtility.meshgrid
                (exUtility.makeFourierCoords exCoordinates.imageSize0 (1 / (exCoordinates.imageSize0 : ℚ)))
                (exUtility.makeFourierCoords exCoordinates.imageSize1 (1 / (exCoordinates.imageSize1 : ℚ)))).1.get y x)
          ∧ (exSMatrix.interpolationFactorX : ℤ) ∣ cround
              ((exUtility.meshgrid
                (exUtility.makeFourierCoords exCoordinates.imageSize0 (1 / (exCoordinates.imageSize0 : ℚ)))
                (exUtility.makeFourierCoords exCoordinates.imageSize1 (1 / (exCoordinates.imageSize1 : ℚ)))).2.get y x))
    ∧ (setupBeams exUtility exSMatrix exCoordinates).numberBeams
      = ((Finset.range exCoordinates.qMask.dimj ×ˢ Finset.range exCoordinates.qMask.dimi).filter
          (fun p =>
            exCoordinates.q2.get p.1 p.2 < (exSMatrix.alphaBeamMax / exSMatrix.lambda) ^ 2
            ∧ exCoordinates.qMask.get p.1 p.2 = 1
            ∧ (exSMatrix.interpolationFactorY : ℤ) ∣ cround
                ((exUtility.meshgrid
                  (exUtility.makeFourierCoords exCoordinates.imageSize0 (1 / (exCoordinates.imageSize0 : ℚ)))
                  (exUtility.makeFourierCoords exCoordinates.imageSize1 (1 / (exCoordinates.imageSize1 : ℚ)))).1.get p.1 p.2)
            ∧ (exSMatrix.interpolationFactorX : ℤ) ∣ cround
                ((exUtility.meshgrid
                  (exUtility.makeFourierCoords exCoordinates.imageSize0 (1 / (exCoordinates.imageSize0 : ℚ)))
                  (exUtility.makeFourierCoords exCoordinates.imageSize1 (1 / (exCoordinates.imageSize1 : ℚ)))).2.get p.1 p.2))).card) :=
  ⟨by decide, by decide,
    beam_selection_predicate exUtility exSMatrix exCoordinates (by decide) (by decide)⟩

/-! ## Beam numbering -/

theorem flat_inj {d y x y' x' : ℕ} (hx : x < d) (hx' : x' < d)
    (h : y * d + x = y' * d + x') : y = y' ∧ x = x' := by
  rcases lt_trichotomy y y' with hlt | heq | hgt
  · have h1 : (y + 1) * d ≤ y' * d := Nat.mul_le_mul_right d hlt
    have h2 : (y + 1) * d = y * d + d := by ring
    omega
  · subst heq
    exact ⟨rfl, by omega⟩
  · have h1 : (y' + 1) * d ≤ y * d := Nat.mul_le_mul_right d hgt
    have h2 : (y' + 1) * d = y' * d + d := by ring
    omega

/-- The numbering loop over a list of distinct pixels: the index list grows by
the flat indices of the selected pixels, in order, the `k`-th selected pixel
gets the number `beam_count + k`, and the other pixels keep their value. -/
theorem foldl_number (mask : Array2D ℕ) (dimi : ℕ) (l : List (ℕ × ℕ)) (hl : l.Nodup)
    (st : Numbering) :
    (l.foldl (fun (st : Numbering) p =>
        if mask.get p.1 p.2 = 1 then
          { beams := st.beams.set p.1 p.2 (st.beam_count : ℚ),
            beamsIndex := st.beamsIndex ++ [p.1 * dimi + p.2],
            beam_count := st.beam_count + 1 }
        else st) st).beamsIndex
      = st.beamsIndex
        ++ (l.filter (fun p => decide (mask.get p.1 p.2 = 1))).map (fun p => p.1 * dimi + p.2)
    ∧ (∀ (k : ℕ) (hk : k < (l.filter (fun p => decide (mask.get p.1 p.2 = 1))).length),
        (l.foldl (fun (st : Numbering) p =>
          if mask.get p.1 p.2 = 1 then
            { beams := st.beams.set p.1 p.2 (st.beam_count : ℚ),
              beamsIndex := st.beamsIndex ++ [p.1 * dimi + p.2],
              beam_count := st.beam_count + 1 }
          else st) st).beams.get
            ((l.filter (fun p => decide (mask.get p.1 p.2 = 1)))[k]).1
            ((l.filter (fun p => decide (mask.get p.1 p.2 = 1)))[k]).2
          = ((st.beam_count + k : ℕ) : ℚ))
    ∧ ∀ y x, (y, x) ∉ l.filter (fun p => decide (mask.get p.1 p.2 = 1)) →
        (l.foldl (fun (st : Numbering) p =>
          if mask.get p.1 p.2 = 1 then
            { beams := st.beams.set p.1 p.2 (st.beam_count : ℚ),
              beamsIndex := st.beamsIndex ++ [p.1 * dimi + p.2],
              beam_count := st.beam_count + 1 }
          else st) st).beams.get y x = st.beams.get y x := by
  induction l generalizing st with
  | nil =>
    refine ⟨by simp, ?_, ?_⟩
    · intro k hk
      exact absurd hk (by simp)
    · intro y x _
      rfl
  | cons p l ih =>
    have hpl : p ∉ l := (List.nodup_cons.mp hl).1
    simp only [List.foldl_cons]
    by_cases hp : mask.get p.1 p.2 = 1
    · obtain ⟨ih1, ih2, ih3⟩ := ih (List.nodup_cons.mp hl).2
        { beams := st.beams.set p.1 p.2 (st.beam_count : ℚ),
          beamsIndex := st.beamsIndex ++ [p.1 * dimi + p.2],
          beam_count := st.beam_count + 1 }
      have hfil : (p :: l).filter (fun p => decide (mask.get p.1 p.2 = 1))
          = p :: l.filter (fun p => decide (mask.get p.1 p.2 = 1)) :=
        List.filter_cons_of_pos (by simpa using hp)
      have hnot : (p.1, p.2) ∉ l.filter (fun p => decide (mask.get p.1 p.2 = 1)) :=
        fun h => hpl (List.mem_filter.mp h).1
      rw [if_pos hp, ih1]
      simp only [hfil]
      refine ⟨by simp, ?_, ?_⟩
      · intro k hk
        cases k with
        | zero =>
          simp only [List.getElem_cons_zero, Nat.add_zero]
          rw [ih3 p.1 p.2 hnot, get_set, if_pos ⟨rfl, rfl⟩]
        | succ k =>
          simp only [List.getElem_cons_succ]
          rw [ih2 k (by simpa using hk)]
          show ((st.beam_count + 1 + k : ℕ) : ℚ) = ((st.beam_count + (k + 1) : ℕ) : ℚ)
          congr 1
          omega
      · intro y x hyx
        have h1 : (y, x) ∉ l.filter (fun p => decide (mask.get p.1 p.2 = 1)) :=
          fun h => hyx (List.mem_cons_of_mem _ h)
        have h2 : ¬ (y = p.1 ∧ x = p.2) := by
          rintro ⟨e1, e2⟩
          exact hyx (by rw [e1, e2]; exact List.mem_cons_self _ _)
        rw [ih3 y x h1, get_set, if_neg h2]
    · obtain ⟨ih1, ih2, ih3⟩ := ih (List.nodup_cons.mp hl).2 st
      have hfil : (p :: l).filter (fun p => decide (mask.get p.1 p.2 = 1))
          = l.filter (fun p => decide (mask.get p.1 p.2 = 1)) :=
        List.filter_cons_of_neg (by simpa using hp)
      rw [if_neg hp]
      simp only [hfil]
      exact ⟨ih1, ih2, ih3⟩

/-- What the block `number the beams` leaves in `beamsIndex` and `beams`. -/
theorem numberTheBeams_spec (mask qMask : Array2D ℕ) (n0 n1 : ℕ) :
    (numberTheBeams mask qMask n0 n1).beamsIndex
      = ((rasterList qMask.dimj qMask.dimi).filter
          (fun p => decide (mask.get p.1 p.2 = 1))).map (fun p => p.1 * qMask.dimi + p.2)
    ∧ (∀ (k : ℕ) (hk : k < ((rasterList qMask.dimj qMask.dimi).filter
          (fun p => decide (mask.get p.1 p.2 = 1))).length),
        (numberTheBeams mask qMask n0 n1).beams.get
            (((rasterList qMask.dimj qMask.dimi).filter
              (fun p => decide (mask.get p.1 p.2 = 1)))[k]).1
            (((rasterList qMask.dimj qMask.dimi).filter
              (fun p => decide (mask.get p.1 p.2 = 1)))[k]).2
          = ((k + 1 : ℕ) : ℚ))
    ∧ ∀ y x, (y, x) ∉ (rasterList qMask.dimj qMask.dimi).filter
          (fun p => decide (mask.get p.1 p.2 = 1)) →
        (numberTheBeams mask qMask n0 n1).beams.get y x = 0 := by
  unfold numberTheBeams
  rw [rasterLoop_eq_foldl]
  obtain ⟨h1, h2, h3⟩ := foldl_number mask qMask.dimi (rasterList qMask.dimj qMask.dimi)
    (rasterList_nodup _ _)
    { beams := zeros_ND2 n0 n1, beamsIndex := [], beam_count := 1 }
  refine ⟨?_, ?_, ?_⟩
  · rw [h1]; rfl
  · intro k hk
    rw [h2 k hk, Nat.add_comm]
  · intro y x hyx
    rw [h3 y x hyx]; rfl

/-- The content of the numbering: the index list is strictly increasing, and
within the grid the pixel numbered `k + 1` is the one whose flat index is
entry `k`; unselected pixels are numbered `0`, and the entries are the flat
indices of the selected pixels. -/
theorem numberTheBeams_properties (mask qMask : Array2D ℕ) (n0 n1 : ℕ) :
    (numberTheBeams mask qMask n0 n1).beamsIndex.Pairwise (fun a b => a < b)
    ∧ (numberTheBeams mask qMask n0 n1).beamsIndex.length
      = ((rasterList qMask.dimj qMask.dimi).filter
          (fun p => decide (mask.get p.1 p.2 = 1))).length
    ∧ (∀ k y x, k < (numberTheBeams mask qMask n0 n1).beamsIndex.length →
        y < qMask.dimj → x < qMask.dimi →
        ((numberTheBeams mask qMask n0 n1).beams.get y x = ((k + 1 : ℕ) : ℚ)
          ↔ (numberTheBeams mask qMask n0 n1).beamsIndex.getD k 0 = y * qMask.dimi + x))
    ∧ (∀ y x, mask.get y x ≠ 1 → (numberTheBeams mask qMask n0 n1).beams.get y x = 0)
    ∧ (∀ y x, y < qMask.dimj → x < qMask.dimi →
        (mask.get y x = 1
          ↔ y * qMask.dimi + x ∈ (numberTheBeams mask qMask n0 n1).beamsIndex)) := by
  obtain ⟨hidx, hsel, hunsel⟩ := numberTheBeams_spec mask qMask n0 n1
  have hgrid : ∀ p ∈ (rasterList qMask.dimj qMask.dimi).filter
      (fun p => decide (mask.get p.1 p.2 = 1)), p.1 < qMask.dimj ∧ p.2 < qMask.dimi :=
    fun p hp => mem_rasterList.mp (List.mem_filter.mp hp).1
  rw [hidx]
  refine ⟨?_, by rw [List.length_map], ?_, ?_, ?_⟩
  · rw [List.pairwise_map]
    exact (rasterList_pairwise _ _).filter _
  · intro k y x hk hy hx
    rw [List.length_map] at hk
    rw [List.getD_eq_getElem _ _ (by rw [List.length_map]; exact hk), List.getElem_map]
    constructor
    · intro h
      by_cases hm : (y, x) ∈ (rasterList qMask.dimj qMask.dimi).filter
          (fun p => decide (mask.get p.1 p.2 = 1))
      · obtain ⟨k', hk', e⟩ := List.mem_iff_getElem.mp hm
        have h2 := hsel k' hk'
        rw [e] at h2
        rw [h] at h2
        have h3 : k + 1 = k' + 1 := Nat.cast_injective (R := ℚ) h2
        have h4 : k' = k := by omega
        subst h4
        rw [e]
      · rw [hunsel y x hm] at h
        have : (0 : ℚ) < ((k + 1 : ℕ) : ℚ) := by exact_mod_cast Nat.succ_pos k
        rw [← h] at this
        exact absurd this (lt_irrefl _)
    · intro h
      have hp := hgrid _ (List.getElem_mem hk)
      obtain ⟨e1, e2⟩ := flat_inj hp.2 hx h
      have h2 := hsel k hk
      rw [e1, e2] at h2
      exact h2
  · intro y x hne
    apply hunsel
    intro h
    have := (List.mem_filter.mp h).2
    exact hne (by simpa using this)
  · intro y x hy hx
    rw [List.mem_map]
    constructor
    · intro h
      exact ⟨(y, x), List.mem_filter.mpr ⟨mem_rasterList.mpr ⟨hy, hx⟩, by simpa using h⟩, rfl⟩
    · rintro ⟨p, hp, e⟩
      obtain ⟨e1, e2⟩ := flat_inj (hgrid p hp).2 hx e
      have := (List.mem_filter.mp hp).2
      rw [← e1, ← e2]
      simpa using this

/-- The selection loop of `setupBeams_HRTEM` treats `mask` and `numberBeams`
as the selection loop of `setupBeams` does. -/
theorem foldl_select_HRTEM (t : ℕ × ℕ → Bool) (f1 f2 : ℕ × ℕ → ℚ) (g1 g2 : ℕ × ℕ → ℤ)
    (l : List (ℕ × ℕ)) (st : Beams) :
    ((l.foldl (fun (st : Beams) p =>
        if t p then
          { st with
            mask := st.mask.set p.1 p.2 1,
            xTilts_tem := st.xTilts_tem ++ [f1 p],
            yTilts_tem := st.yTilts_tem ++ [f2 p],
            xTiltsInd_tem := st.xTiltsInd_tem ++ [g1 p],
            yTiltsInd_tem := st.yTiltsInd_tem ++ [g2 p],
            numberBeams := st.numberBeams + 1 }
        else st) st).mask,
      (l.foldl (fun (st : Beams) p =>
        if t p then
          { st with
            mask := st.mask.set p.1 p.2 1,
            xTilts_tem := st.xTilts_tem ++ [f1 p],
            yTilts_tem := st.yTilts_tem ++ [f2 p],
            xTiltsInd_tem := st.xTiltsInd_tem ++ [g1 p],
            yTiltsInd_tem := st.yTiltsInd_tem ++ [g2 p],
            numberBeams := st.numberBeams + 1 }
        else st) st).numberBeams)
      = l.foldl (fun (st : Array2D ℕ × ℕ) p =>
          if t p then (st.1.set p.1 p.2 1, st.2 + 1) else st) (st.mask, st.numberBeams) := by
  induction l generalizing st with
  | nil => rfl
  | cons p l ih =>
    simp only [List.foldl_cons]
    rw [ih]
    by_cases hp : t p = true
    · simp only [hp, if_true]
    · simp only [hp, if_false]
      rfl

/-- The local `mask` and the counter `numberBeams` of `setupBeams_HRTEM`. -/
theorem setupBeams_HRTEM_mask_get {K : Type} (u : Utility) (pars : SMatrixParameters)
    (c : Coordinates K) :
    (∀ y x, (setupBeams_HRTEM u pars c).mask.get y x
      = if (y, x) ∈ rasterList c.qMask.dimj c.qMask.dimi
            ∧ beamCheck pars c
                (u.meshgrid (u.makeFourierCoords c.imageSize0 (1 / (c.imageSize0 : ℚ)))
                  (u.makeFourierCoords c.imageSize1 (1 / (c.imageSize1 : ℚ)))) y x = true
        then 1 else 0)
    ∧ (setupBeams_HRTEM u pars c).numberBeams
      = ((rasterList c.qMask.dimj c.qMask.dimi).filter (fun p => beamCheck pars c
          (u.meshgrid (u.makeFourierCoords c.imageSize0 (1 / (c.imageSize0 : ℚ)))
            (u.makeFourierCoords c.imageSize1 (1 / (c.imageSize1 : ℚ)))) p.1 p.2)).length := by
  have hproj := foldl_select_HRTEM
    (fun p => beamCheck pars c
      (u.meshgrid (u.makeFourierCoords c.imageSize0 (1 / (c.imageSize0 : ℚ)))
        (u.makeFourierCoords c.imageSize1 (1 / (c.imageSize1 : ℚ)))) p.1 p.2)
    (fun p => c.qxa.get p.1 p.2 * pars.lambda) (fun p => c.qya.get p.1 p.2 * pars.lambda)
    (fun p => Int.tdiv (cround ((u.meshgrid
      (u.makeFourierCoords c.imageSize0 (1 / (c.imageSize0 : ℚ)))
      (u.makeFourierCoords c.imageSize1 (1 / (c.imageSize1 : ℚ)))).2.get p.1 p.2))
      (interp_fx_HRTEM pars))
    (fun p => Int.tdiv (cround ((u.meshgrid
      (u.makeFourierCoords c.imageSize0 (1 / (c.imageSize0 : ℚ)))
      (u.makeFourierCoords c.imageSize1 (1 / (c.imageSize1 : ℚ)))).1.get p.1 p.2))
      (interp_fy_HRTEM pars))
    (rasterList c.qMask.dimj c.qMask.dimi)
    { mask := zeros_ND2 c.imageSize0 c.imageSize1, numberBeams := 0,
      beams := zeros_ND2 c.imageSize0 c.imageSize1, beamsIndex := [],
      xTilts_tem := [], yTilts_tem := [], xTiltsInd_tem := [], yTiltsInd_tem := [] }
  have hsel := foldl_select_get
    (fun p => beamCheck pars c
      (u.meshgrid (u.makeFourierCoords c.imageSize0 (1 / (c.imageSize0 : ℚ)))
        (u.makeFourierCoords c.imageSize1 (1 / (c.imageSize1 : ℚ)))) p.1 p.2)
    (rasterList c.qMask.dimj c.qMask.dimi)
    (zeros_ND2 c.imageSize0 c.imageSize1, 0)
  have hm := congrArg Prod.fst hproj
  have hn := congrArg Prod.snd hproj
  simp only [setupBeams_HRTEM]
  rw [rasterLoop_eq_foldl]
  refine ⟨fun y x => ?_, ?_⟩
  · exact (congrArg (fun m => m.get y x) hm).trans (hsel y x).1
  · refine hn.trans ?_
    rw [(hsel 0 0).2]
    simp

/-- For a selection mask given by a test on the grid, the numbering has as
many entries as pixels pass the test. -/
theorem selected_length (qMask mask : Array2D ℕ) (t : ℕ × ℕ → Bool)
    (hmask : ∀ y x, mask.get y x
      = if (y, x) ∈ rasterList qMask.dimj qMask.dimi ∧ t (y, x) = true then 1 else 0) :
    ((rasterList qMask.dimj qMask.dimi).filter (fun p => decide (mask.get p.1 p.2 = 1))).length
      = ((rasterList qMask.dimj qMask.dimi).filter t).length := by
  congr 1
  apply List.filter_congr
  intro p hp
  rw [hmask p.1 p.2]
  by_cases h : t p = true
  · have h' : (p.1, p.2) ∈ rasterList qMask.dimj qMask.dimi ∧ t (p.1, p.2) = true := ⟨hp, h⟩
    rw [if_pos h', h]
    rfl
  · have h' : ¬ ((p.1, p.2) ∈ rasterList qMask.dimj qMask.dimi ∧ t (p.1, p.2) = true) :=
      fun hh => h hh.2
    have h2 : t p = false := by simpa using h
    rw [if_neg h', h2]
    rfl

/-- Claim C7: after `setupBeams`, and after `setupBeams_HRTEM`, `beamsIndex`
lists the selected pixels in row-major raster order as flat indices
`y * dimi + x`: it is strictly increasing and has `numberBeams` entries, its
entries are the flat indices of the selected pixels, and for every
`k < numberBeams` and every pixel `(y, x)` of the grid `beams(y, x) = k + 1`
exactly when `beamsIndex[k] = y * dimi + x`; `beams` is `0` at every unselected
pixel. -/
theorem beam_numbering_raster_order {K : Type} (u : Utility) (pars : SMatrixParameters)
    (c : Coordinates K) :
    ((setupBeams u pars c).beamsIndex.Pairwise (fun a b => a < b)
      ∧ (setupBeams u pars c).beamsIndex.length = (setupBeams u pars c).numberBeams
      ∧ (∀ k y x, k < (setupBeams u pars c).numberBeams →
          y < c.qMask.dimj → x < c.qMask.dimi →
          ((setupBeams u pars c).beams.get y x = ((k + 1 : ℕ) : ℚ)
            ↔ (setupBeams u pars c).beamsIndex.getD k 0 = y * c.qMask.dimi + x))
      ∧ (∀ y x, (setupBeams u pars c).mask.get y x ≠ 1 →
          (setupBeams u pars c).beams.get y x = 0)
      ∧ (∀ y x, y < c.qMask.dimj → x < c.qMask.dimi →
          ((setupBeams u pars c).mask.get y x = 1
            ↔ y * c.qMask.dimi + x ∈ (setupBeams u pars c).beamsIndex)))
    ∧ ((setupBeams_HRTEM u pars c).beamsIndex.Pairwise (fun a b => a < b)
      ∧ (setupBeams_HRTEM u pars c).beamsIndex.length = (setupBeams_HRTEM u pars c).numberBeams
      ∧ (∀ k y x, k < (setupBeams_HRTEM u pars c).numberBeams →
          y < c.qMask.dimj → x < c.qMask.dimi →
          ((setupBeams_HRTEM u pars c).beams.get y x = ((k + 1 : ℕ) : ℚ)
            ↔ (setupBeams_HRTEM u pars c).beamsIndex.getD k 0 = y * c.qMask.dimi + x))
      ∧ (∀ y x, (setupBeams_HRTEM u pars c).mask.get y x ≠ 1 →
          (setupBeams_HRTEM u pars c).beams.get y x = 0)
      ∧ (∀ y x, y < c.qMask.dimj → x < c.qMask.dimi →
          ((setupBeams_HRTEM u pars c).mask.get y x = 1
            ↔ y * c.qMask.dimi + x ∈ (setupBeams_HRTEM u pars c).beamsIndex))) := by
  constructor
  · obtain ⟨h1, h2, h3, h4, h5⟩ :=
      numberTheBeams_properties (setupBeams u pars c).mask c.qMask c.imageSize0 c.imageSize1
    have hlen : (setupBeams u pars c).beamsIndex.length = (setupBeams u pars c).numberBeams := by
      rw [setupBeams_numberBeams]
      refine h2.trans ?_
      exact selected_length c.qMask (setupBeams u pars c).mask
        (fun p => beamTest pars c.q2 c.qMask
          (u.meshgrid (u.makeFourierCoords c.imageSize0 (1 / (c.imageSize0 : ℚ)))
            (u.makeFourierCoords c.imageSize1 (1 / (c.imageSize1 : ℚ)))) p.1 p.2)
        (setupBeams_mask_get u pars c)
    refine ⟨h1, hlen, ?_, h4, h5⟩
    intro k y x hk hy hx
    exact h3 k y x (by rw [← hlen] at hk; exact hk) hy hx
  · obtain ⟨h1, h2, h3, h4, h5⟩ :=
      numberTheBeams_properties (setupBeams_HRTEM u pars c).mask c.qMask
        c.imageSize0 c.imageSize1
    obtain ⟨hmask, hnum⟩ := setupBeams_HRTEM_mask_get u pars c
    have hlen : (setupBeams_HRTEM u pars c).beamsIndex.length
        = (setupBeams_HRTEM u pars c).numberBeams := by
      rw [hnum]
      refine h2.trans ?_
      exact selected_length c.qMask (setupBeams_HRTEM u pars c).mask
        (fun p => beamCheck pars c
          (u.meshgrid (u.makeFourierCoords c.imageSize0 (1 / (c.imageSize0 : ℚ)))
            (u.makeFourierCoords c.imageSize1 (1 / (c.imageSize1 : ℚ)))) p.1 p.2)
        hmask
    refine ⟨h1, hlen, ?_, h4, h5⟩
    intro k y x hk hy hx
    exact h3 k y x (by rw [← hlen] at hk; exact hk) hy hx

/-! ## Batch size and transmission -/

/-- Claim C15: the batch size is
`min(batchSizeTargetCPU, max(1, numberBeams / numThreads))` with integer
division; for at least one thread and a target of at least `1` it lies
between `1` and the target, and `batchSizeCPU * numThreads <= numberBeams`
whenever `numberBeams >= numThreads`. -/
theorem batch_size_bounds (batchSizeTargetCPU numberBeams numThreads : ℕ)
    (hT : 1 ≤ numThreads) (hB : 1 ≤ batchSizeTargetCPU) :
    batchSizeCPU_of batchSizeTargetCPU numberBeams numThreads
        = min batchSizeTargetCPU (max 1 (numberBeams / numThreads))
    ∧ 1 ≤ batchSizeCPU_of batchSizeTargetCPU numberBeams numThreads
    ∧ batchSizeCPU_of batchSizeTargetCPU numberBeams numThreads ≤ batchSizeTargetCPU
    ∧ (numThreads ≤ numberBeams →
        batchSizeCPU_of batchSizeTargetCPU numberBeams numThreads * numThreads
          ≤ numberBeams) := by
  refine ⟨rfl, ?_, ?_, ?_⟩
  · unfold batchSizeCPU_of
    exact le_min hB (le_max_left _ _)
  · unfold batchSizeCPU_of
    exact min_le_left _ _
  · intro h
    unfold batchSizeCPU_of
    have h1 : 1 ≤ numberBeams / numThreads := (Nat.one_le_div_iff (by omega)).2 h
    rw [max_eq_right h1]
    calc min batchSizeTargetCPU (numberBeams / numThreads) * numThreads
        ≤ numberBeams / numThreads * numThreads :=
          Nat.mul_le_mul_right _ (min_le_right _ _)
      _ ≤ numberBeams := Nat.div_mul_le_self _ _

theorem batch_size_bounds_witness :
    batchSizeCPU_of 4 10 3 = min 4 (max 1 (10 / 3))
    ∧ 1 ≤ batchSizeCPU_of 4 10 3
    ∧ batchSizeCPU_of 4 10 3 ≤ 4
    ∧ (3 ≤ 10 → batchSizeCPU_of 4 10 3 * 3 ≤ 10) :=
  batch_size_bounds 4 10 3 (by decide) (by decide)

theorem abs_exp_sigma_phase (a b : ℚ) :
    Complex.abs (Complex.exp (Complex.I * (a : ℂ) * (b : ℂ))) = 1 := by
  have h : Complex.I * (a : ℂ) * (b : ℂ) = (((a : ℝ) * (b : ℝ) : ℝ) : ℂ) * Complex.I := by
    push_cast; ring
  rw [h, Complex.abs_exp_ofReal_mul_I]

theorem flat_in_bounds {dk dj di n : ℕ} (h : n < dk * dj * di) :
    n / (dj * di) < dk ∧ n / di % dj < dj ∧ n % di < di := by
  have hj : 0 < dj := by
    rcases Nat.eq_zero_or_pos dj with h0 | h0
    · subst h0; simp at h
    · exact h0
  have hi : 0 < di := by
    rcases Nat.eq_zero_or_pos di with h0 | h0
    · subst h0; simp at h
    · exact h0
  refine ⟨?_, Nat.mod_lt _ hj, Nat.mod_lt _ hi⟩
  apply Nat.div_lt_of_lt_mul
  calc n < dk * dj * di := h
    _ = dj * di * dk := by ring

/-- Claim C19: the transmission volume has the three extents of the potential
volume; at every flat index `n` of the volume it is
`exp(i * sigma * pot[n])`, which has modulus exactly `1` and is `1` where the
potential is `0`; the same holds at every index triple inside the extents. -/
theorem transmission_phase_only (sigma : ℚ) (pot : Array3D ℚ) :
    (buildTransmission Complex.exp Complex.I sigma pot).dimk = pot.dimk
    ∧ (buildTransmission Complex.exp Complex.I sigma pot).dimj = pot.dimj
    ∧ (buildTransmission Complex.exp Complex.I sigma pot).dimi = pot.dimi
    ∧ (∀ n, n < pot.dimk * pot.dimj * pot.dimi →
        (buildTransmission Complex.exp Complex.I sigma pot).flat n
            = Complex.exp (Complex.I * (sigma : ℂ) * ((pot.flat n : ℚ) : ℂ))
        ∧ Complex.abs ((buildTransmission Complex.exp Complex.I sigma pot).flat n) = 1
        ∧ (pot.flat n = 0 →
            (buildTransmission Complex.exp Complex.I sigma pot).flat n = 1))
    ∧ (∀ k j i, k < pot.dimk → j < pot.dimj → i < pot.dimi →
        (buildTransmission Complex.exp Complex.I sigma pot).get k j i
            = Complex.exp (Complex.I * (sigma : ℂ) * ((pot.get k j i : ℚ) : ℂ))
        ∧ Complex.abs ((buildTransmission Complex.exp Complex.I sigma pot).get k j i) = 1
        ∧ (pot.get k j i = 0 →
            (buildTransmission Complex.exp Complex.I sigma pot).get k j i = 1)) := by
  have key : ∀ k j i, k < pot.dimk → j < pot.dimj → i < pot.dimi →
      (buildTransmission Complex.exp Complex.I sigma pot).data k j i
        = Complex.exp (Complex.I * (sigma : ℂ) * ((pot.data k j i : ℚ) : ℂ)) := by
    intro k j i hk hj hi
    simp only [buildTransmission, hk, hj, hi, and_self, if_true]
  refine ⟨rfl, rfl, rfl, ?_, ?_⟩
  · intro n hn
    obtain ⟨hk, hj, hi⟩ := flat_in_bounds hn
    have e := key _ _ _ hk hj hi
    have e' : (buildTransmission Complex.exp Complex.I sigma pot).flat n
        = Complex.exp (Complex.I * (sigma : ℂ) * ((pot.flat n : ℚ) : ℂ)) := e
    refine ⟨e', ?_, ?_⟩
    · rw [e']; exact abs_exp_sigma_phase _ _
    · intro h0
      rw [e', h0]
      simp
  · intro k j i hk hj hi
    have e' : (buildTransmission Complex.exp Complex.I sigma pot).get k j i
        = Complex.exp (Complex.I * (sigma : ℂ) * ((pot.get k j i : ℚ) : ℂ)) := key _ _ _ hk hj hi
    refine ⟨e', ?_, ?_⟩
    · rw [e']; exact abs_exp_sigma_phase _ _
    · intro h0
      rw [e', h0]
      simp

/-! ## The potential kernels -/

theorem ite_gt_eq_max (p m : ℚ) : (if p > m then p else m) = max m p := by
  split_ifs with h
  · exact (max_eq_right (le_of_lt h)).symm
  · exact (max_eq_left (not_lt.1 h)).symm

theorem get_potMin_eq (pot : Array2D ℚ) (xr yr : List ℚ) :
    get_potMin pot xr yr
      = max (max 0 (pot.get (yr.length / 2) (xr.length - 2)))
          (pot.get (yr.length - 2) (xr.length / 2)) := by
  have e1 : ((xr.length : ℤ) - 2).toNat = xr.length - 2 := by omega
  have e2 : ((yr.length : ℤ) - 2).toNat = yr.length - 2 := by omega
  simp only [get_potMin, List.range_succ, List.range_zero, List.nil_append, List.cons_append,
    List.foldl_cons, List.foldl_nil, List.getD_cons_zero, List.getD_cons_succ, Int.toNat_natCast,
    e1, e2, ite_gt_eq_max]

theorem get_potMin3D_eq (pot : Array3D ℚ) (xr yr zr : List ℚ) :
    get_potMin3D pot xr yr zr
      = max (max (max 0 (pot.get (zr.length / 2) (yr.length / 2) (xr.length - 2)))
              (pot.get (zr.length / 2) (yr.length - 2) (xr.length / 2)))
          (pot.get (zr.length - 2) (yr.length / 2) (xr.length / 2)) := by
  have e1 : ((xr.length : ℤ) - 2).toNat = xr.length - 2 := by omega
  have e2 : ((yr.length : ℤ) - 2).toNat = yr.length - 2 := by omega
  have e3 : ((zr.length : ℤ) - 2).toNat = zr.length - 2 := by omega
  simp only [get_potMin3D, List.range_succ, List.range_zero, List.nil_append, List.cons_append,
    List.foldl_cons, List.foldl_nil, List.getD_cons_zero, List.getD_cons_succ, Int.toNat_natCast,
    e1, e2, e3, ite_gt_eq_max]

theorem projPot_get (superSample : ℕ → List ℚ → List ℚ → Array2D ℚ) (Z : ℕ)
    (xr yr : List ℚ) (j i : ℕ) :
    (projPot superSample Z xr yr).get j i
      = clampSub ((boxAverage 8 (superSample Z xr yr) yr.length xr.length).get j i)
          (get_potMin (boxAverage 8 (superSample Z xr yr) yr.length xr.length) xr yr) := rfl

theorem kirklandPotential3D_get (superSample : ℕ → List ℚ → List ℚ → List ℚ → Array3D ℚ)
    (Z : ℕ) (xr yr zr : List ℚ) (k j i : ℕ) :
    (kirklandPotential3D superSample Z xr yr zr).get k j i
      = clampSub
          ((boxAverage3D 8 (superSample Z xr yr zr) zr.length yr.length xr.length).get k j i)
          (get_potMin3D
            (boxAverage3D 8 (superSample Z xr yr zr) zr.length yr.length xr.length)
            xr yr zr) := rfl

theorem clampSub_nonneg (a m : ℚ) : 0 ≤ clampSub a m := by
  unfold clampSub
  split_ifs with h
  · exact le_refl _
  · exact not_lt.1 h

theorem clampSub_eq_zero {a m : ℚ} (h : a ≤ m) : clampSub a m = 0 := by
  unfold clampSub
  split_ifs with h1
  · rfl
  · linarith [not_lt.1 h1]

theorem rasterLoop_invariant {σ : Type} (P : σ → Prop) (dimj dimi : ℕ)
    (body : σ → ℕ → ℕ → σ) (h : ∀ st j i, P st → P (body st j i)) (init : σ)
    (h0 : P init) : P (rasterLoop dimj dimi body init) := by
  rw [rasterLoop_eq_foldl]
  generalize rasterList dimj dimi = l
  induction l generalizing init with
  | nil => exact h0
  | cons a l ih => exact ih _ (h _ _ _ h0)

theorem rasterLoop3_invariant {σ : Type} (P : σ → Prop) (dimk dimj dimi : ℕ)
    (body : σ → ℕ → ℕ → ℕ → σ) (h : ∀ st k j i, P st → P (body st k j i)) (init : σ)
    (h0 : P init) : P (rasterLoop3 dimk dimj dimi body init) := by
  unfold rasterLoop3
  generalize List.range dimk = l
  induction l generalizing init with
  | nil => exact h0
  | cons a l ih =>
    exact ih _ (rasterLoop_invariant P dimj dimi _ (fun st j i hs => h st a j i hs) init h0)

theorem boxAverage_dims (ss : ℕ) (potSS : Array2D ℚ) (dimj dimi : ℕ) :
    (boxAverage ss potSS dimj dimi).dimj = dimj
    ∧ (boxAverage ss potSS dimj dimi).dimi = dimi := by
  have key := rasterLoop_invariant
    (fun (pot : Array2D ℚ) => pot.dimj = dimj ∧ pot.dimi = dimi) ss ss
    (fun pot sy sx =>
      rasterLoop pot.dimj pot.dimi
        (fun pot j i => pot.set j i (pot.get j i + potSS.get (j * ss + sy) (i * ss + sx)))
        pot)
    (fun st _ _ hs => by
      refine rasterLoop_invariant
        (fun (pot : Array2D ℚ) => pot.dimj = dimj ∧ pot.dimi = dimi) _ _ _ ?_ st hs
      intro _ _ _ hs'
      exact hs')
    (zeros_ND2 dimj dimi) ⟨rfl, rfl⟩
  exact key

theorem boxAverage3D_dims (ss : ℕ) (potSS : Array3D ℚ) (dimk dimj dimi : ℕ) :
    (boxAverage3D ss potSS dimk dimj dimi).dimk = dimk
    ∧ (boxAverage3D ss potSS dimk dimj dimi).dimj = dimj
    ∧ (boxAverage3D ss potSS dimk dimj dimi).dimi = dimi := by
  have key := rasterLoop3_invariant
    (fun (pot : Array3D ℚ) => pot.dimk = dimk ∧ pot.dimj = dimj ∧ pot.dimi = dimi) ss ss ss
    (fun pot sz sy sx =>
      rasterLoop3 pot.dimk pot.dimj pot.dimi
        (fun pot k j i =>
          pot.set k j i (pot.get k j i + potSS.get (k * ss + sz) (j * ss + sy) (i * ss + sx)))
        pot)
    (fun st _ _ _ hs => by
      refine rasterLoop3_invariant
        (fun (pot : Array3D ℚ) => pot.dimk = dimk ∧ pot.dimj = dimj ∧ pot.dimi = dimi)
        _ _ _ _ ?_ st hs
      intro _ _ _ _ hs'
      exact hs')
    (zeros_ND3 dimk dimj dimi) ⟨rfl, rfl, rfl⟩
  exact key

theorem projPot_dims (superSample : ℕ → List ℚ → List ℚ → Array2D ℚ) (Z : ℕ)
    (xr yr : List ℚ) :
    (projPot superSample Z xr yr).dimj = yr.length
    ∧ (projPot superSample Z xr yr).dimi = xr.length := by
  have d := boxAverage_dims 8 (superSample Z xr yr) yr.length xr.length
  simp only [projPot, Array2D.map]
  exact d

theorem kirklandPotential3D_dims (superSample : ℕ → List ℚ → List ℚ → List ℚ → Array3D ℚ)
    (Z : ℕ) (xr yr zr : List ℚ) :
    (kirklandPotential3D superSample Z xr yr zr).dimk = zr.length
    ∧ (kirklandPotential3D superSample Z xr yr zr).dimj = yr.length
    ∧ (kirklandPotential3D superSample Z xr yr zr).dimi = xr.length := by
  have d := boxAverage3D_dims 8 (superSample Z xr yr zr) zr.length yr.length xr.length
  simp only [kirklandPotential3D, Array3D.map]
  exact d

/-- Claim C16: for coordinate vectors with at least `2` samples per axis, every
element of the kernel returned by `projPot` and by `kirklandPotential3D` is
`>= 0`, and every probe point of `get_potMin` (of `get_potMin3D`) lies inside
the kernel and has the value exactly `0` there, so the minimum element of the
kernel is `0`. -/
theorem kernel_minimum_zero (superSample : ℕ → List ℚ → List ℚ → Array2D ℚ)
    (superSample3D : ℕ → List ℚ → List ℚ → List ℚ → Array3D ℚ) (Z : ℕ) (xr yr zr : List ℚ)
    (hx : 2 ≤ xr.length) (hy : 2 ≤ yr.length) (hz : 2 ≤ zr.length) :
    ((projPot superSample Z xr yr).dimj = yr.length
      ∧ (projPot superSample Z xr yr).dimi = xr.length
      ∧ (∀ j i, 0 ≤ (projPot superSample Z xr yr).get j i)
      ∧ (∀ p ∈ probes2D xr yr, p.1 < yr.length ∧ p.2 < xr.length
          ∧ (projPot superSample Z xr yr).get p.1 p.2 = 0))
    ∧ ((kirklandPotential3D superSample3D Z xr yr zr).dimk = zr.length
      ∧ (kirklandPotential3D superSample3D Z xr yr zr).dimj = yr.length
      ∧ (kirklandPotential3D superSample3D Z xr yr zr).dimi = xr.length
      ∧ (∀ k j i, 0 ≤ (kirklandPotential3D superSample3D Z xr yr zr).get k j i)
      ∧ (∀ p ∈ probes3D xr yr zr, p.1 < zr.length ∧ p.2.1 < yr.length ∧ p.2.2 < xr.length
          ∧ (kirklandPotential3D superSample3D Z xr yr zr).get p.1 p.2.1 p.2.2 = 0)) := by
  have d2 := projPot_dims superSample Z xr yr
  have d3 := kirklandPotential3D_dims superSample3D Z xr yr zr
  refine ⟨⟨d2.1, d2.2, ?_, ?_⟩, ⟨d3.1, d3.2.1, d3.2.2, ?_, ?_⟩⟩
  · intro j i
    rw [projPot_get]
    exact clampSub_nonneg _ _
  · intro p hp
    simp only [probes2D, List.mem_cons, List.mem_singleton, List.not_mem_nil, or_false] at hp
    rcases hp with rfl | rfl
    · refine ⟨by show yr.length / 2 < yr.length; omega,
        by show xr.length - 2 < xr.length; omega, ?_⟩
      rw [projPot_get, get_potMin_eq]
      exact clampSub_eq_zero (le_trans (le_max_right _ _) (le_max_left _ _))
    · refine ⟨by show yr.length - 2 < yr.length; omega,
        by show xr.length / 2 < xr.length; omega, ?_⟩
      rw [projPot_get, get_potMin_eq]
      exact clampSub_eq_zero (le_max_right _ _)
  · intro k j i
    rw [kirklandPotential3D_get]
    exact clampSub_nonneg _ _
  · intro p hp
    simp only [probes3D, List.mem_cons, List.mem_singleton, List.not_mem_nil, or_false] at hp
    rcases hp with rfl | rfl | rfl
    · refine ⟨by show zr.length / 2 < zr.length; omega,
        by show yr.length / 2 < yr.length; omega,
        by show xr.length - 2 < xr.length; omega, ?_⟩
      rw [kirklandPotential3D_get, get_potMin3D_eq]
      exact clampSub_eq_zero
        (le_trans (le_trans (le_max_right _ _) (le_max_left _ _)) (le_max_left _ _))
    · refine ⟨by show zr.length / 2 < zr.length; omega,
        by show yr.length - 2 < yr.length; omega,
        by show xr.length / 2 < xr.length; omega, ?_⟩
      rw [kirklandPotential3D_get, get_potMin3D_eq]
      exact clampSub_eq_zero (le_trans (le_max_right _ _) (le_max_left _ _))
    · refine ⟨by show zr.length - 2 < zr.length; omega,
        by show yr.length / 2 < yr.length; omega,
        by show xr.length / 2 < xr.length; omega, ?_⟩
      rw [kirklandPotential3D_get, get_potMin3D_eq]
      exact clampSub_eq_zero (le_max_right _ _)

theorem kernel_minimum_zero_witness :
    2 ≤ exRadii.length
    ∧ (∀ j i, 0 ≤ (projPot exSuperSample 0 exRadii exRadii).get j i)
    ∧ (∀ p ∈ probes2D exRadii exRadii, p.1 < exRadii.length ∧ p.2 < exRadii.length
        ∧ (projPot exSuperSample 0 exRadii exRadii).get p.1 p.2 = 0) :=
  ⟨by decide,
    (kernel_minimum_zero exSuperSample (fun _ xr yr zr => zeros_ND3 zr.length yr.length xr.length)
      0 exRadii exRadii exRadii (by decide) (by decide) (by decide)).1.2.2.1,
    (kernel_minimum_zero exSuperSample (fun _ xr yr zr => zeros_ND3 zr.length yr.length xr.length)
      0 exRadii exRadii exRadii (by decide) (by decide) (by decide)).1.2.2.2⟩

/-- Claim C18, the claim as stated fails: on a kernel of `5 x 5` samples whose
averaged potential is `3` and `1` at the two probe points and `2` at the
corner `(0, 0)`, the minimum over the probe points is `1` and the claim gives
the corner the value `2 - 1 = 1`; `projPot` subtracts `3`, the largest probe
value, and returns `0` at the corner. -/
theorem projPot_offset_not_minimum :
    (boxAverage 8 (exSuperSample 0 exRadii exRadii) 5 5).get 2 3 = 3
    ∧ (boxAverage 8 (exSuperSample 0 exRadii exRadii) 5 5).get 3 2 = 1
    ∧ (boxAverage 8 (exSuperSample 0 exRadii exRadii) 5 5).get 0 0 = 2
    ∧ probes2D exRadii exRadii = [(2, 3), (3, 2)]
    ∧ (projPot exSuperSample 0 exRadii exRadii).get 0 0 = 0
    ∧ (projPot exSuperSample 0 exRadii exRadii).get 0 0
        ≠ clampSub ((boxAverage 8 (exSuperSample 0 exRadii exRadii) 5 5).get 0 0)
            (min ((boxAverage 8 (exSuperSample 0 exRadii exRadii) 5 5).get 2 3)
              ((boxAverage 8 (exSuperSample 0 exRadii exRadii) 5 5).get 3 2)) := by
  decide!

/-- Claim C18, amended: after box-averaging, `projPot` subtracts from every
kernel element the maximum of `0` and of the averaged potential at its two
probe points, and `kirklandPotential3D` the maximum of `0` and of the averaged
potential at its three probe points; both then replace every negative result
by `0`. -/
theorem projPot_subtracts_probe_maximum (superSample : ℕ → List ℚ → List ℚ → Array2D ℚ)
    (superSample3D : ℕ → List ℚ → List ℚ → List ℚ → Array3D ℚ) (Z : ℕ) (xr yr zr : List ℚ) :
    (∀ j i, (projPot superSample Z xr yr).get j i
      = clampSub ((boxAverage 8 (superSample Z xr yr) yr.length xr.length).get j i)
          (((probes2D xr yr).map
              (fun p => (boxAverage 8 (superSample Z xr yr) yr.length xr.length).get p.1 p.2)).foldl
            max 0))
    ∧ (∀ k j i, (kirklandPotential3D superSample3D Z xr yr zr).get k j i
      = clampSub
          ((boxAverage3D 8 (superSample3D Z xr yr zr) zr.length yr.length xr.length).get k j i)
          (((probes3D xr yr zr).map
              (fun p =>
                (boxAverage3D 8 (superSample3D Z xr yr zr) zr.length yr.length xr.length).get
                  p.1 p.2.1 p.2.2)).foldl
            max 0)) := by
  refine ⟨?_, ?_⟩
  · intro j i
    rw [projPot_get, get_potMin_eq]
    rfl
  · intro k j i
    rw [kirklandPotential3D_get, get_potMin3D_eq]
    rfl

/-! ## Plane-wave propagation -/

/-- Claim C13, the code departs from the claim: in HRTEM mode, for the beam
`0` of a `4 x 4` image whose back-propagator is `2` at the beam's spectral
index, the batch propagator on the range `[0, 1)` writes `2 / 4` at the flat
index `1` of the slab, while the one-beam propagator, which has no
back-propagation step, writes `1 / 4`.  In PRISM mode both write `1 / 4`. -/
theorem single_beam_skips_back_propagation :
    (propagatePlaneWave_CPU exTransforms (exPropagator Algorithm.HRTEM) 0 (fun _ => 0)
        exScompact).mem 1 = 1 / 4
    ∧ (propagatePlaneWave_CPU_batch exTransforms (exPropagator Algorithm.HRTEM) 0 1 (fun _ => 0)
        exScompact).mem 1 = 1 / 2
    ∧ (propagatePlaneWave_CPU exTransforms (exPropagator Algorithm.PRISM) 0 (fun _ => 0)
        exScompact).mem 1 = 1 / 4
    ∧ (propagatePlaneWave_CPU_batch exTransforms (exPropagator Algorithm.PRISM) 0 1 (fun _ => 0)
        exScompact).mem 1 = 1 / 4 := by
  decide!

theorem slice_index_lt {t h n i : ℕ} (ht : t < h) (hi : i < n) : t * n + i < n * h := by
  calc t * n + i < t * n + n := by omega
    _ = n * (t + 1) := by ring
    _ ≤ n * h := Nat.mul_le_mul_left _ ht

theorem slice_index_div {t n i : ℕ} (hi : i < n) : (t * n + i) / n = t := by
  have hn : 0 < n := by omega
  rw [Nat.add_comm, Nat.add_mul_div_right _ _ hn, Nat.div_eq_of_lt hi, Nat.zero_add]

theorem slice_index_mod {t n i : ℕ} (hi : i < n) : (t * n + i) % n = i := by
  rw [Nat.add_comm, Nat.add_mul_mod_self_right, Nat.mod_eq_of_lt hi]

theorem mulSlice_get {K : Type} [Mul K] (mem : ℕ → K) (base count : ℕ) (src : ℕ → K) (m : ℕ) :
    mulSlice mem base count src m
      = if base ≤ m ∧ m < base + count then mem m * src (m - base) else mem m := by
  induction count generalizing m with
  | zero =>
    have : ¬ (base ≤ m ∧ m < base + 0) := by omega
    simp only [mulSlice, List.range_zero, List.foldl_nil, this, if_false]
  | succ c ih =>
    have e : mulSlice mem base (c + 1) src
        = writeAt (mulSlice mem base c src) (base + c)
            (mulSlice mem base c src (base + c) * src c) := by
      simp only [mulSlice, List.range_succ, List.foldl_append, List.foldl_cons, List.foldl_nil]
    rw [e]
    unfold writeAt
    by_cases hm : m = base + c
    · subst hm
      have h1 : ¬ (base ≤ base + c ∧ base + c < base + c) := by omega
      have h2 : base ≤ base + c ∧ base + c < base + (c + 1) := by omega
      have h3 : base + c - base = c := by omega
      rw [if_pos rfl, ih, if_neg h1, if_pos h2, h3]
    · rw [if_neg hm, ih]
      by_cases h : base ≤ m ∧ m < base + c
      · have h2 : base ≤ m ∧ m < base + (c + 1) := by omega
        rw [if_pos h, if_pos h2]
      · have h2 : ¬ (base ≤ m ∧ m < base + (c + 1)) := by omega
        rw [if_neg h, if_neg h2]

theorem mulBatch_get {K : Type} [Mul K] (mem : ℕ → K) (count n : ℕ) (src : ℕ → K) (m : ℕ) :
    mulBatch mem count n src m = if m < count * n then mem m * src (m % n) else mem m := by
  induction count generalizing m with
  | zero =>
    simp only [mulBatch, List.range_zero, List.foldl_nil, Nat.zero_mul, Nat.not_lt_zero, if_false]
  | succ c ih =>
    have e : mulBatch mem (c + 1) n src = mulSlice (mulBatch mem c n src) (c * n) n src := by
      simp only [mulBatch, List.range_succ, List.foldl_append, List.foldl_cons, List.foldl_nil]
    rw [e, mulSlice_get, ih]
    have hs : (c + 1) * n = c * n + n := by ring
    by_cases h1 : c * n ≤ m ∧ m < c * n + n
    · have h2 : ¬ m < c * n := by omega
      have h3 : m < (c + 1) * n := by omega
      have h4 : m - c * n = m % n := by
        have hi : m - c * n < n := by omega
        have := slice_index_mod (t := c) hi
        rw [← this]
        congr 1
        omega
      rw [if_pos h1, if_neg h2, if_pos h3, h4]
    · rw [if_neg h1]
      by_cases h2 : m < c * n
      · have h3 : m < (c + 1) * n := by omega
        rw [if_pos h2, if_pos h3]
      · have h3 : ¬ m < (c + 1) * n := by omega
        rw [if_neg h2, if_neg h3]

theorem mulBatch_slice {K : Type} [Mul K] (mem : ℕ → K) {count n t i : ℕ} (src : ℕ → K)
    (ht : t < count) (hi : i < n) :
    mulBatch mem count n src (t * n + i) = mem (t * n + i) * src i := by
  have h : t * n + i < count * n := by
    have := slice_index_lt ht hi
    rwa [Nat.mul_comm n count] at this
  rw [mulBatch_get, if_pos h, slice_index_mod hi]

theorem executePlan_slice {K : Type} [Zero K] (f : (ℕ → K) → ℕ → K) {n howmany t i : ℕ}
    (mem : ℕ → K) (ht : t < howmany) (hi : i < n) :
    executePlan f n howmany mem (t * n + i)
      = f (restrictSlice n (fun j => mem (t * n + j))) i := by
  unfold executePlan restrictSlice
  rw [if_pos (slice_index_lt ht hi), slice_index_div hi, slice_index_mod hi]

theorem divAll_slice {K : Type} [Div K] (mem : ℕ → K) {n howmany t i : ℕ} (d : K)
    (ht : t < howmany) (hi : i < n) :
    divAll mem (n * howmany) d (t * n + i) = mem (t * n + i) / d := by
  unfold divAll
  rw [if_pos (slice_index_lt ht hi)]

theorem seed_fold {K : Type} [One K] (bI : List ℕ) (N : ℕ) (k cur c0 : ℕ) (mem : ℕ → K) :
    ((List.range' cur k).foldl
        (fun (st : (ℕ → K) × ℕ) jj => (writeAt st.1 (st.2 * N + bI.getD jj 0) 1, st.2 + 1))
        (mem, c0)).1
      = fun m => if ∃ t, t < k ∧ m = (c0 + t) * N + bI.getD (cur + t) 0 then 1 else mem m := by
  induction k generalizing cur c0 mem with
  | zero =>
    funext m
    have : ¬ ∃ t, t < 0 ∧ m = (c0 + t) * N + bI.getD (cur + t) 0 := by
      rintro ⟨t, ht, _⟩; omega
    simp only [List.range'_zero, List.foldl_nil, this, if_false]
  | succ k ih =>
    rw [List.range'_succ, List.foldl_cons, ih]
    funext m
    by_cases h0 : m = c0 * N + bI.getD cur 0
    · have h1 : ∃ t, t < k + 1 ∧ m = (c0 + t) * N + bI.getD (cur + t) 0 := ⟨0, by omega, h0⟩
      rw [if_pos h1]
      split_ifs with h2
      · rfl
      · simp only [writeAt, h0, if_true]
    · by_cases h2 : ∃ t, t < k ∧ m = (c0 + 1 + t) * N + bI.getD (cur + 1 + t) 0
      · obtain ⟨t, ht, hm⟩ := h2
        have h1 : ∃ t, t < k + 1 ∧ m = (c0 + t) * N + bI.getD (cur + t) 0 :=
          ⟨t + 1, by omega, by rw [hm]; congr 2 <;> ring_nf⟩
        rw [if_pos ⟨t, ht, hm⟩, if_pos h1]
      · have h1 : ¬ ∃ t, t < k + 1 ∧ m = (c0 + t) * N + bI.getD (cur + t) 0 := by
          rintro ⟨t, ht, hm⟩
          rcases Nat.eq_zero_or_pos t with h | h
          · subst h; exact h0 hm
          · exact h2 ⟨t - 1, by omega, by
              rw [hm]
              have e1 : c0 + 1 + (t - 1) = c0 + t := by omega
              have e2 : cur + 1 + (t - 1) = cur + t := by omega
              rw [e1, e2]⟩
        rw [if_neg h2, if_neg h1]
        simp only [writeAt, h0, if_false]


theorem seedStack_slice {K : Type} [Zero K] [One K] (bI : List ℕ) {N cur stop t i : ℕ}
    (ht : t < stop - cur) (hi : i < N)
    (hidx : ∀ t', t' < stop - cur → bI.getD (cur + t') 0 < N) :
    seedStack bI N cur stop (fun _ => (0 : K)) (t * N + i) = impulse (bI.getD (cur + t) 0) i := by
  unfold seedStack impulse
  rw [seed_fold]
  beta_reduce
  by_cases h : i = bI.getD (cur + t) 0
  · have h1 : ∃ t', t' < stop - cur ∧ t * N + i = (0 + t') * N + bI.getD (cur + t') 0 :=
      ⟨t, ht, by rw [Nat.zero_add, h]⟩
    rw [if_pos h1, if_pos h]
  · have h1 : ¬ ∃ t', t' < stop - cur ∧ t * N + i = (0 + t') * N + bI.getD (cur + t') 0 := by
      rintro ⟨t', ht', e⟩
      rw [Nat.zero_add] at e
      obtain ⟨e1, e2⟩ := flat_inj hi (hidx t' ht') e
      subst e1
      exact h e2
    rw [if_neg h1, if_neg h]

theorem restrictSlice_congr {K : Type} [Zero K] {n : ℕ} {x y : ℕ → K}
    (h : ∀ j, j < n → x j = y j) : restrictSlice n x = restrictSlice n y := by
  funext j
  unfold restrictSlice
  split_ifs with hj
  · exact h j hj
  · rfl

theorem sliceStep_batch_slice {K : Type} [Field K] (tr : Transforms K)
    (pars : PropagatorParameters K) {count t i : ℕ} (mem : ℕ → K) (a idx : ℕ)
    (hc : count ≤ pars.batchSizeCPU) (ht : t < count)
    (hi : i < pars.imageSize0 * pars.imageSize1)
    (h : ∀ j, j < pars.imageSize0 * pars.imageSize1 →
      mem (t * (pars.imageSize0 * pars.imageSize1) + j)
        = claimedWave tr.forward tr.inverse (pars.imageSize0 * pars.imageSize1)
            (fun a j => pars.transmission.flat (a * (pars.imageSize0 * pars.imageSize1) + j))
            pars.prop.flat idx a j) :
    sliceStep_batch tr pars count mem a (t * (pars.imageSize0 * pars.imageSize1) + i)
      = claimedWave tr.forward tr.inverse (pars.imageSize0 * pars.imageSize1)
          (fun a j => pars.transmission.flat (a * (pars.imageSize0 * pars.imageSize1) + j))
          pars.prop.flat idx (a + 1) i := by
  have ht' : t < pars.batchSizeCPU := lt_of_lt_of_le ht hc
  unfold sliceStep_batch
  rw [divAll_slice _ _ ht' hi, executePlan_slice _ _ ht' hi]
  have e1 := restrictSlice_congr (fun j hj => by
    rw [mulBatch_slice _ _ ht hj, h j hj, mul_comm] :
      ∀ j, j < pars.imageSize0 * pars.imageSize1 →
        mulBatch mem count (pars.imageSize0 * pars.imageSize1)
            (fun jj => pars.transmission.flat (a * (pars.imageSize0 * pars.imageSize1) + jj))
            (t * (pars.imageSize0 * pars.imageSize1) + j)
          = pars.transmission.flat (a * (pars.imageSize0 * pars.imageSize1) + j)
            * claimedWave tr.forward tr.inverse (pars.imageSize0 * pars.imageSize1)
                (fun a j => pars.transmission.flat (a * (pars.imageSize0 * pars.imageSize1) + j))
                pars.prop.flat idx a j)
  have e2 := restrictSlice_congr (fun j hj => by
    rw [mulBatch_slice _ _ ht hj, executePlan_slice _ _ ht' hj, e1, mul_comm] :
      ∀ j, j < pars.imageSize0 * pars.imageSize1 →
        mulBatch
            (executePlan tr.forward (pars.imageSize0 * pars.imageSize1) pars.batchSizeCPU
              (mulBatch mem count (pars.imageSize0 * pars.imageSize1)
                (fun jj =>
                  pars.transmission.flat (a * (pars.imageSize0 * pars.imageSize1) + jj))))
            count (pars.imageSize0 * pars.imageSize1) pars.prop.flat
            (t * (pars.imageSize0 * pars.imageSize1) + j)
          = pars.prop.flat j
            * tr.forward (restrictSlice (pars.imageSize0 * pars.imageSize1) (fun j =>
                pars.transmission.flat (a * (pars.imageSize0 * pars.imageSize1) + j)
                  * claimedWave tr.forward tr.inverse (pars.imageSize0 * pars.imageSize1)
                      (fun a j =>
                        pars.transmission.flat (a * (pars.imageSize0 * pars.imageSize1) + j))
                      pars.prop.flat idx a j)) j)
  rw [e2]
  rfl

theorem slice_loop_batch_slice {K : Type} [Field K] (tr : Transforms K)
    (pars : PropagatorParameters K) {count t : ℕ} (mem0 : ℕ → K) (idx : ℕ)
    (hc : count ≤ pars.batchSizeCPU) (ht : t < count)
    (h0 : ∀ j, j < pars.imageSize0 * pars.imageSize1 →
      mem0 (t * (pars.imageSize0 * pars.imageSize1) + j)
        = claimedWave tr.forward tr.inverse (pars.imageSize0 * pars.imageSize1)
            (fun a j => pars.transmission.flat (a * (pars.imageSize0 * pars.imageSize1) + j))
            pars.prop.flat idx 0 j)
    (P : ℕ) :
    ∀ j, j < pars.imageSize0 * pars.imageSize1 →
      ((List.range P).foldl (sliceStep_batch tr pars count) mem0)
          (t * (pars.imageSize0 * pars.imageSize1) + j)
        = claimedWave tr.forward tr.inverse (pars.imageSize0 * pars.imageSize1)
            (fun a j => pars.transmission.flat (a * (pars.imageSize0 * pars.imageSize1) + j))
            pars.prop.flat idx P j := by
  induction P with
  | zero => exact h0
  | succ P ih =>
    intro j hj
    rw [List.range_succ, List.foldl_append, List.foldl_cons, List.foldl_nil]
    exact sliceStep_batch_slice tr pars _ P idx hc ht hj ih

/-- Claim C11: with abstract transforms `F` (forward) and `B` (unnormalised
inverse) on one slice, and a zeroed buffer of at least `stopBeam - currentBeam`
slices, for every beam `b` of the range the slice `b - currentBeam` of
`psi_stack` after the forward transform that follows the slice loop is
`F(psi_numPlanes)`, where `psi_0 = B(unit impulse at beamsIndex[b]) / N` and
`psi_(a+1) = B(prop * F(transmission[a] * psi_a)) / N` for
`a = 0 .. numPlanes - 1`; the transmission slice of pass `a` starts at the
flat index `a * N` for every beam of the batch. -/
theorem batch_propagation_recurrence {K : Type} [Field K] (tr : Transforms K)
    (pars : PropagatorParameters K) (currentBeam stopBeam b n : ℕ)
    (hcount : stopBeam - currentBeam ≤ pars.batchSizeCPU)
    (hb : currentBeam ≤ b) (hb' : b < stopBeam)
    (hidx : ∀ jj, currentBeam ≤ jj → jj < stopBeam →
      pars.beamsIndex.getD jj 0 < pars.imageSize0 * pars.imageSize1)
    (hn : n < pars.imageSize0 * pars.imageSize1) :
    exitWave_CPU_batch tr pars currentBeam stopBeam (fun _ => 0)
        ((b - currentBeam) * (pars.imageSize0 * pars.imageSize1) + n)
      = claimedExitWave tr.forward tr.inverse (pars.imageSize0 * pars.imageSize1)
          (fun a j => pars.transmission.flat (a * (pars.imageSize0 * pars.imageSize1) + j))
          pars.prop.flat (pars.beamsIndex.getD b 0) pars.numPlanes n := by
  have ht : b - currentBeam < stopBeam - currentBeam := by omega
  have ht' : b - currentBeam < pars.batchSizeCPU := by omega
  have hmin : min pars.batchSizeCPU (stopBeam - currentBeam) = stopBeam - currentBeam :=
    min_eq_right hcount
  have hb0 : currentBeam + (b - currentBeam) = b := by omega
  unfold exitWave_CPU_batch claimedExitWave
  rw [executePlan_slice _ _ ht' hn, hmin]
  congr 1
  apply restrictSlice_congr
  refine slice_loop_batch_slice tr pars _ _ hcount ht ?_ pars.numPlanes
  intro j hj
  rw [divAll_slice _ _ ht' hj, executePlan_slice _ _ ht' hj]
  show _ = tr.inverse _ j / _
  congr 2
  apply restrictSlice_congr
  intro i hi
  rw [seedStack_slice _ ht hi (fun t' h' => hidx _ (by omega) (by omega)), hb0]

theorem batch_propagation_recurrence_witness :
    exitWave_CPU_batch exTransforms (exPropagator Algorithm.PRISM) 0 1 (fun _ => 0)
        ((0 - 0) * ((exPropagator Algorithm.PRISM).imageSize0
          * (exPropagator Algorithm.PRISM).imageSize1) + 3)
      = claimedExitWave exTransforms.forward exTransforms.inverse
          ((exPropagator Algorithm.PRISM).imageSize0 * (exPropagator Algorithm.PRISM).imageSize1)
          (fun a j => (exPropagator Algorithm.PRISM).transmission.flat
            (a * ((exPropagator Algorithm.PRISM).imageSize0
              * (exPropagator Algorithm.PRISM).imageSize1) + j))
          (exPropagator Algorithm.PRISM).prop.flat
          ((exPropagator Algorithm.PRISM).beamsIndex.getD 0 0)
          (exPropagator Algorithm.PRISM).numPlanes 3 :=
  batch_propagation_recurrence exTransforms (exPropagator Algorithm.PRISM) 0 1 0 3
    (by decide) (by decide) (by decide)
    (fun jj _ h => by
      have e : jj = 0 := by omega
      subst e
      decide)
    (by decide)

theorem executePlan_single {K : Type} [Zero K] (f : (ℕ → K) → ℕ → K) {n i : ℕ}
    (mem : ℕ → K) (hi : i < n) :
    executePlan f n 1 mem i = f (restrictSlice n mem) i := by
  have h := executePlan_slice f mem (Nat.zero_lt_one) hi
  simp only [Nat.zero_mul, Nat.zero_add] at h
  exact h

theorem round_trip_slice {K : Type} [Field K] (tr : Transforms K) (N : ℕ)
    (hN : (N : K) ≠ 0)
    (hFB : ∀ (x : ℕ → K) n, n < N →
      tr.forward (restrictSlice N (tr.inverse (restrictSlice N x))) n = (N : K) * x n)
    (hlin : ∀ (c : K) (x : ℕ → K) n, tr.forward (fun j => c * x j) n = c * tr.forward x n)
    (x : ℕ → K) {n : ℕ} (hn : n < N) :
    tr.forward (restrictSlice N (fun j => tr.inverse (restrictSlice N x) j / (N : K))) n
      = x n := by
  have e : restrictSlice N (fun j => tr.inverse (restrictSlice N x) j / (N : K))
      = fun j => (1 / (N : K)) * restrictSlice N (tr.inverse (restrictSlice N x)) j := by
    funext j
    unfold restrictSlice
    split_ifs with hj
    · ring
    · ring
  rw [e, hlin, hFB x n hn]
  field_simp

/-- Claim C12: for transforms with `F(B(x)) = N * x` on a slice, `F` commuting
with the multiplication by a scalar, and a specimen of zero slices, the
spectral exit wave that the batch propagator and the one-beam propagator
compute for the beam `b` from a zeroed buffer is the unit impulse at
`beamsIndex[b]`: the division by `N` after the inverse transform undoes the
scaling of the library. -/
theorem zero_slice_round_trip {K : Type} [Field K] (tr : Transforms K)
    (pars : PropagatorParameters K) (currentBeam stopBeam b n : ℕ)
    (hP : pars.numPlanes = 0)
    (hN : ((pars.imageSize0 * pars.imageSize1 : ℕ) : K) ≠ 0)
    (hFB : ∀ (x : ℕ → K) n, n < pars.imageSize0 * pars.imageSize1 →
      tr.forward (restrictSlice (pars.imageSize0 * pars.imageSize1)
          (tr.inverse (restrictSlice (pars.imageSize0 * pars.imageSize1) x))) n
        = ((pars.imageSize0 * pars.imageSize1 : ℕ) : K) * x n)
    (hlin : ∀ (c : K) (x : ℕ → K) n, tr.forward (fun j => c * x j) n = c * tr.forward x n)
    (hcount : stopBeam - currentBeam ≤ pars.batchSizeCPU)
    (hb : currentBeam ≤ b) (hb' : b < stopBeam)
    (hidx : ∀ jj, currentBeam ≤ jj → jj < stopBeam →
      pars.beamsIndex.getD jj 0 < pars.imageSize0 * pars.imageSize1)
    (hn : n < pars.imageSize0 * pars.imageSize1) :
    exitWave_CPU_batch tr pars currentBeam stopBeam (fun _ => 0)
        ((b - currentBeam) * (pars.imageSize0 * pars.imageSize1) + n)
      = impulse (pars.beamsIndex.getD b 0) n
    ∧ exitWave_CPU tr pars b (fun _ => 0) n = impulse (pars.beamsIndex.getD b 0) n := by
  have ht : b - currentBeam < stopBeam - currentBeam := by omega
  have ht' : b - currentBeam < pars.batchSizeCPU := by omega
  have hb0 : currentBeam + (b - currentBeam) = b := by omega
  constructor
  · unfold exitWave_CPU_batch
    rw [hP, List.range_zero, List.foldl_nil, executePlan_slice _ _ ht' hn]
    have e : restrictSlice (pars.imageSize0 * pars.imageSize1) (fun j =>
          divAll
            (executePlan tr.inverse (pars.imageSize0 * pars.imageSize1) pars.batchSizeCPU
              (seedStack pars.beamsIndex (pars.imageSize0 * pars.imageSize1) currentBeam
                stopBeam (fun _ => 0)))
            (pars.imageSize0 * pars.imageSize1 * pars.batchSizeCPU)
            ((pars.imageSize0 * pars.imageSize1 : ℕ) : K)
            ((b - currentBeam) * (pars.imageSize0 * pars.imageSize1) + j))
        = restrictSlice (pars.imageSize0 * pars.imageSize1) (fun j =>
            tr.inverse (restrictSlice (pars.imageSize0 * pars.imageSize1)
              (impulse (pars.beamsIndex.getD b 0))) j
              / ((pars.imageSize0 * pars.imageSize1 : ℕ) : K)) := by
      apply restrictSlice_congr
      intro j hj
      rw [divAll_slice _ _ ht' hj, executePlan_slice _ _ ht' hj]
      congr 2
      apply restrictSlice_congr
      intro i hi
      rw [seedStack_slice _ ht hi (fun t' h' => hidx _ (by omega) (by omega)), hb0]
    rw [e]
    exact round_trip_slice tr _ hN hFB hlin _ hn
  · unfold exitWave_CPU
    rw [hP, List.range_zero, List.foldl_nil, executePlan_single _ _ hn]
    have e : restrictSlice (pars.imageSize0 * pars.imageSize1)
          (divAll
            (executePlan tr.inverse (pars.imageSize0 * pars.imageSize1) 1
              (writeAt (fun _ => 0) (pars.beamsIndex.getD b 0) 1))
            (pars.imageSize0 * pars.imageSize1)
            ((pars.imageSize0 * pars.imageSize1 : ℕ) : K))
        = restrictSlice (pars.imageSize0 * pars.imageSize1) (fun j =>
            tr.inverse (restrictSlice (pars.imageSize0 * pars.imageSize1)
              (impulse (pars.beamsIndex.getD b 0))) j
              / ((pars.imageSize0 * pars.imageSize1 : ℕ) : K)) := by
      apply restrictSlice_congr
      intro j hj
      unfold divAll
      rw [if_pos hj, executePlan_single _ _ hj]
      rfl
    rw [e]
    exact round_trip_slice tr _ hN hFB hlin _ hn

theorem zero_slice_round_trip_witness :
    exitWave_CPU_batch exTransforms exPropagatorEmpty 0 1 (fun _ => 0)
        ((0 - 0) * (exPropagatorEmpty.imageSize0 * exPropagatorEmpty.imageSize1) + 3)
      = impulse (exPropagatorEmpty.beamsIndex.getD 0 0) 3
    ∧ exitWave_CPU exTransforms exPropagatorEmpty 0 (fun _ => 0) 3
      = impulse (exPropagatorEmpty.beamsIndex.getD 0 0) 3 :=
  zero_slice_round_trip exTransforms exPropagatorEmpty 0 1 0 3 rfl
    (by simp [exPropagatorEmpty, exPropagator])
    (fun x n hn => by
      have hn' : n < 16 := hn
      simp [exTransforms, exPropagatorEmpty, exPropagator, restrictSlice, hn'])
    (fun _ _ _ => rfl)
    (by decide) (by decide) (by decide)
    (fun jj _ h => by
      have e : jj = 0 := by omega
      subst e
      decide)
    (by decide)

/-! ## Writes of the batch propagator -/

theorem writeSlab_spec {K : Type} [Div K] (S : SMatrixMemory K) (cb M : ℕ) (small : ℕ → K)
    (d : K) :
    (writeSlab S cb M small d).dimk = S.dimk
    ∧ (writeSlab S cb M small d).dimj = S.dimj
    ∧ (writeSlab S cb M small d).dimi = S.dimi
    ∧ (writeSlab S cb M small d).written
        = S.written ++ List.range' (cb * S.dimj * S.dimi) M
    ∧ (writeSlab S cb M small d).beams = S.beams ++ [cb]
    ∧ (∀ m, ¬ (cb * S.dimj * S.dimi ≤ m ∧ m < cb * S.dimj * S.dimi + M) →
        (writeSlab S cb M small d).mem m = S.mem m) := by
  induction M with
  | zero =>
    simp only [writeSlab, List.range_zero, List.foldl_nil, List.range'_zero, List.append_nil,
      true_and, implies_true]
  | succ M ih =>
    have e : writeSlab S cb (M + 1) small d
        = (writeSlab S cb M small d).write
            (cb * (writeSlab S cb M small d).dimj * (writeSlab S cb M small d).dimi + M)
            (small M / d) := by
      simp only [writeSlab, List.range_succ, List.foldl_append, List.foldl_cons, List.foldl_nil]
    obtain ⟨h1, h2, h3, h4, h5, h6⟩ := ih
    rw [e]
    refine ⟨h1, h2, h3, ?_, h5, ?_⟩
    · show (writeSlab S cb M small d).written ++ [_] = _
      rw [h4, h2, h3, List.append_assoc, List.range'_1_concat]
    · intro m hm
      show writeAt (writeSlab S cb M small d).mem _ _ m = _
      unfold writeAt
      rw [h2, h3, if_neg (by omega), h6 m (by omega)]

theorem range'_slabs (cb k M : ℕ) :
    (List.range' cb k).flatMap (fun b => List.range' (b * M) M)
      = List.range' (cb * M) (k * M) := by
  induction k generalizing cb with
  | zero => simp
  | succ k ih =>
    rw [List.range'_succ, List.flatMap_cons, ih]
    have e1 : (cb + 1) * M = cb * M + M := by ring
    have e2 : (k + 1) * M = k * M + M := by ring
    rw [e1, e2, List.range'_append_1]

theorem cropLoop_spec {K : Type} [Field K] (tr : Transforms K) (pars : PropagatorParameters K)
    (psi : ℕ → K) (k cb bi : ℕ) (small : ℕ → K) (S : SMatrixMemory K) :
    (cropLoop tr pars psi k cb bi small S).dimk = S.dimk
    ∧ (cropLoop tr pars psi k cb bi small S).dimj = S.dimj
    ∧ (cropLoop tr pars psi k cb bi small S).dimi = S.dimi
    ∧ (cropLoop tr pars psi k cb bi small S).written
        = S.written ++ (List.range' cb k).flatMap (fun b =>
            List.range' (b * S.dimj * S.dimi) (pars.qyInd.length * pars.qxInd.length))
    ∧ (cropLoop tr pars psi k cb bi small S).beams = S.beams ++ List.range' cb k
    ∧ (∀ m, (∀ b, cb ≤ b → b < cb + k →
          ¬ (b * S.dimj * S.dimi ≤ m
              ∧ m < b * S.dimj * S.dimi + pars.qyInd.length * pars.qxInd.length)) →
        (cropLoop tr pars psi k cb bi small S).mem m = S.mem m) := by
  induction k generalizing cb bi small S with
  | zero =>
    simp only [cropLoop, List.range'_zero, List.flatMap_nil, List.append_nil, true_and,
      implies_true]
  | succ k ih =>
    unfold cropLoop
    simp only []
    obtain ⟨h1, h2, h3, h4, h5, h6⟩ := ih (cb + 1) (bi + 1)
      (executePlan tr.final (pars.qyInd.length * pars.qxInd.length) 1
        (cropBeam pars psi (bi * (pars.imageSize0 * pars.imageSize1)) small))
      (writeSlab S cb (pars.qyInd.length * pars.qxInd.length)
        (executePlan tr.final (pars.qyInd.length * pars.qxInd.length) 1
          (cropBeam pars psi (bi * (pars.imageSize0 * pars.imageSize1)) small))
        ((pars.qyInd.length * pars.qxInd.length : ℕ) : K))
    obtain ⟨w1, w2, w3, w4, w5, w6⟩ := writeSlab_spec S cb
      (pars.qyInd.length * pars.qxInd.length)
      (executePlan tr.final (pars.qyInd.length * pars.qxInd.length) 1
        (cropBeam pars psi (bi * (pars.imageSize0 * pars.imageSize1)) small))
      ((pars.qyInd.length * pars.qxInd.length : ℕ) : K)
    refine ⟨h1.trans w1, h2.trans w2, h3.trans w3, ?_, ?_, ?_⟩
    · rw [h4, w4, w2, w3, List.range'_succ, List.flatMap_cons, List.append_assoc]
    · rw [h5, w5, List.range'_succ, List.append_assoc]
      rfl
    · intro m hm
      rw [h6 m (fun b hb hb' => by rw [w2, w3]; exact hm b (by omega) (by omega)),
        w6 m (hm cb (by omega) (by omega))]

/-- Claim C14: for a work range `[start, stop)` with `stop <= numberBeams` and
`stop - start <= batchSizeCPU`, on a compact scattering matrix of extents
`numberBeams x J x I` with `J = imageSize[0] / 2`, `I = imageSize[1] / 2` and
the index vectors of `setupSMatrixCoordinates`, the batch propagator assigns
exactly the flat indices `start*J*I .. stop*J*I - 1` of `Scompact`, each once
and in increasing order, all of them below `numberBeams*J*I`; it leaves every
element outside this interval unchanged, keeps the extents, writes the slabs
of the beams `start .. stop - 1`, and the slabs of distinct beams share no
flat index. -/
theorem batch_writes_own_slabs {K : Type} [Field K] (tr : Transforms K)
    (pars : PropagatorParameters K) (start stop numberBeams : ℕ) (psi_stack : ℕ → K)
    (S : SMatrixMemory K)
    (hstop : stop ≤ numberBeams) (_hbatch : stop - start ≤ pars.batchSizeCPU)
    (hk : S.dimk = numberBeams) (hj : S.dimj = pars.imageSize0 / 2)
    (hi : S.dimi = pars.imageSize1 / 2)
    (hq : setupSMatrixCoordinates pars.imageSize0 pars.imageSize1 = (pars.qxInd, pars.qyInd)) :
    (propagatePlaneWave_CPU_batch tr pars start stop psi_stack S).written
        = S.written ++ List.range' (start * (pars.imageSize0 / 2 * (pars.imageSize1 / 2)))
            ((stop - start) * (pars.imageSize0 / 2 * (pars.imageSize1 / 2)))
    ∧ (List.range' (start * (pars.imageSize0 / 2 * (pars.imageSize1 / 2)))
        ((stop - start) * (pars.imageSize0 / 2 * (pars.imageSize1 / 2)))).Nodup
    ∧ (∀ n ∈ List.range' (start * (pars.imageSize0 / 2 * (pars.imageSize1 / 2)))
          ((stop - start) * (pars.imageSize0 / 2 * (pars.imageSize1 / 2))),
        n < numberBeams * (pars.imageSize0 / 2 * (pars.imageSize1 / 2)))
    ∧ (∀ m, ¬ (start * (pars.imageSize0 / 2 * (pars.imageSize1 / 2)) ≤ m
            ∧ m < stop * (pars.imageSize0 / 2 * (pars.imageSize1 / 2))) →
        (propagatePlaneWave_CPU_batch tr pars start stop psi_stack S).mem m = S.mem m)
    ∧ (propagatePlaneWave_CPU_batch tr pars start stop psi_stack S).beams
        = S.beams ++ List.range' start (stop - start)
    ∧ ((propagatePlaneWave_CPU_batch tr pars start stop psi_stack S).dimk = numberBeams
      ∧ (propagatePlaneWave_CPU_batch tr pars start stop psi_stack S).dimj
          = pars.imageSize0 / 2
      ∧ (propagatePlaneWave_CPU_batch tr pars start stop psi_stack S).dimi
          = pars.imageSize1 / 2)
    ∧ (∀ b b' n n', n < pars.imageSize0 / 2 * (pars.imageSize1 / 2) →
        n' < pars.imageSize0 / 2 * (pars.imageSize1 / 2) →
        b * (pars.imageSize0 / 2 * (pars.imageSize1 / 2)) + n
          = b' * (pars.imageSize0 / 2 * (pars.imageSize1 / 2)) + n' →
        b = b' ∧ n = n') := by
  have hqx : pars.qxInd.length = pars.imageSize1 / 2 := by
    have e : downsampleIndex pars.imageSize1 = pars.qxInd := congrArg Prod.fst hq
    rw [← e]
    exact (downsampleIndex_spec _).1
  have hqy : pars.qyInd.length = pars.imageSize0 / 2 := by
    have e : downsampleIndex pars.imageSize0 = pars.qyInd := congrArg Prod.snd hq
    rw [← e]
    exact (downsampleIndex_spec _).1
  obtain ⟨c1, c2, c3, c4, c5, c6⟩ := cropLoop_spec tr pars
    (if pars.algorithm = Algorithm.HRTEM then
      mulBatch (exitWave_CPU_batch tr pars start stop psi_stack)
        (min pars.batchSizeCPU (stop - start)) (pars.imageSize0 * pars.imageSize1)
        pars.propBack.flat
     else exitWave_CPU_batch tr pars start stop psi_stack)
    (stop - start) start 0 (fun _ => 0) S
  have hf : (fun b => List.range' (b * S.dimj * S.dimi)
        (pars.qyInd.length * pars.qxInd.length))
      = fun b => List.range' (b * (pars.imageSize0 / 2 * (pars.imageSize1 / 2)))
          (pars.imageSize0 / 2 * (pars.imageSize1 / 2)) := by
    funext b
    rw [hj, hi, hqy, hqx, Nat.mul_assoc]
  refine ⟨?_, List.nodup_range' _ _, ?_, ?_, c5, ⟨c1.trans hk, c2.trans hj, c3.trans hi⟩, ?_⟩
  · show (cropLoop tr pars _ (stop - start) start 0 (fun _ => 0) S).written = _
    rw [c4, hf, range'_slabs]
  · intro n hn
    rw [List.mem_range'_1] at hn
    have h1 : start < stop := by
      by_contra h
      have : stop - start = 0 := by omega
      rw [this, Nat.zero_mul] at hn
      omega
    have h2 : start * (pars.imageSize0 / 2 * (pars.imageSize1 / 2))
        + (stop - start) * (pars.imageSize0 / 2 * (pars.imageSize1 / 2))
        = stop * (pars.imageSize0 / 2 * (pars.imageSize1 / 2)) := by
      rw [← Nat.add_mul]
      congr 1
      omega
    have h3 := Nat.mul_le_mul_right (pars.imageSize0 / 2 * (pars.imageSize1 / 2)) hstop
    omega
  · intro m hm
    show (cropLoop tr pars _ (stop - start) start 0 (fun _ => 0) S).mem m = _
    apply c6
    intro b hb hb' hmb
    rw [hj, hi, hqy, hqx, Nat.mul_assoc] at hmb
    have h1 := Nat.mul_le_mul_right (pars.imageSize0 / 2 * (pars.imageSize1 / 2)) hb
    have h2 : b + 1 ≤ stop := by omega
    have h3 := Nat.mul_le_mul_right (pars.imageSize0 / 2 * (pars.imageSize1 / 2)) h2
    rw [Nat.add_mul, Nat.one_mul] at h3
    omega
  · intro b b' n n' hn hn' h
    exact flat_inj hn hn' h

theorem batch_writes_own_slabs_witness :
    (propagatePlaneWave_CPU_batch exTransforms (exPropagator Algorithm.PRISM) 0 1 (fun _ => 0)
        exScompact).written = [0, 1, 2, 3]
    ∧ (∀ m, ¬ (0 ≤ m ∧ m < 4) →
        (propagatePlaneWave_CPU_batch exTransforms (exPropagator Algorithm.PRISM) 0 1
          (fun _ => 0) exScompact).mem m = exScompact.mem m) :=
  ⟨(batch_writes_own_slabs exTransforms (exPropagator Algorithm.PRISM) 0 1 1 (fun _ => 0)
      exScompact (by decide) (by decide) rfl rfl rfl (by decide)).1,
    (batch_writes_own_slabs exTransforms (exPropagator Algorithm.PRISM) 0 1 1 (fun _ => 0)
      exScompact (by decide) (by decide) rfl rfl rfl (by decide)).2.2.2.1⟩

/-! ## The dispatcher contract -/

theorem sliceLoop_eq_foldl (c : WorkerCapture) (rs : RandomSource) (n cur : ℕ)
    (P : Array2D ℚ) (pot : Array3D ℚ) :
    sliceLoop c rs n cur P pot = ((List.range' cur n).foldl (slicePass c rs) (P, pot)).2 := by
  induction n generalizing cur P pot with
  | zero => rfl
  | succ n ih =>
    rw [List.range'_succ, List.foldl_cons]
    unfold sliceLoop
    exact ih _ _ _

theorem partition_indices (ranges : List (ℕ × ℕ)) (total : ℕ)
    (h : handsOutPartition ranges total) :
    ranges.flatMap rangeIndices = List.range total := by
  obtain ⟨_, hp, hc⟩ := h
  have hs : (ranges.flatMap rangeIndices).Pairwise (· < ·) := by
    rw [List.pairwise_flatMap]
    refine ⟨fun r _ => List.pairwise_lt_range' _ _, hp.imp ?_⟩
    intro r r' hrr x hx y hy
    simp only [rangeIndices, List.mem_range'_1] at hx hy
    omega
  have hm : ∀ s, s ∈ ranges.flatMap rangeIndices ↔ s ∈ List.range total := by
    intro s
    rw [List.mem_range, hc s, List.mem_flatMap]
    constructor
    · rintro ⟨r, hr, hx⟩
      simp only [rangeIndices, List.mem_range'_1] at hx
      exact ⟨r, hr, by omega, by omega⟩
    · rintro ⟨r, hr, h1, h2⟩
      refine ⟨r, hr, ?_⟩
      simp only [rangeIndices, List.mem_range'_1]
      omega
  have hperm : (ranges.flatMap rangeIndices).Perm (List.range total) :=
    (List.perm_ext_iff_of_nodup (hs.imp (fun h => Nat.ne_of_lt h)) (List.nodup_range total)).2 hm
  exact List.eq_of_perm_of_sorted hperm hs (List.pairwise_lt_range total)

theorem beamWorkUnit_beams {K : Type} [Field K] (tr : Transforms K)
    (pars : PropagatorParameters K) (S : SMatrixMemory K) (r : ℕ × ℕ) :
    (beamWorkUnit tr pars S r).beams = S.beams ++ rangeIndices r := by
  unfold beamWorkUnit
  split_ifs with h
  · exact (cropLoop_spec tr pars _ (r.2 - r.1) r.1 0 (fun _ => 0) S).2.2.2.2.1
  · have : r.2 - r.1 = 0 := by omega
    simp only [rangeIndices, this, List.range'_zero, List.append_nil]

theorem foldl_beamWorkUnit_beams {K : Type} [Field K] (tr : Transforms K)
    (pars : PropagatorParameters K) (ranges : List (ℕ × ℕ)) (S : SMatrixMemory K) :
    (ranges.foldl (beamWorkUnit tr pars) S).beams = S.beams ++ ranges.flatMap rangeIndices := by
  induction ranges generalizing S with
  | nil => simp
  | cons r rs ih =>
    rw [List.foldl_cons, ih, beamWorkUnit_beams, List.flatMap_cons, List.append_assoc]

/-- Claim C20: when the dispatcher hands out non-empty, increasing,
non-overlapping ranges that cover `[0, total)`, every unit of work of the
slicing loop runs one pass (accumulate, copy to `pars.pot`) for each index of
its range, the passes of all units are exactly the slices
`0 .. numPlanes - 1`, each once; and the beams whose slab a call of the batch
propagator writes during `fill_Scompact_CPUOnly` are exactly the beams
`0 .. numberBeams - 1`, each once. -/
theorem every_index_processed_once {K : Type} [Field K] (c : WorkerCapture)
    (rs : RandomSource) (cexp : K → K) (I : K) (tr : Transforms K)
    (pars : PropagatorParameters K) (sigma : ℚ) (pot : Array3D ℚ)
    (numberBeams batchSizeTargetCPU numThreads : ℕ) (sliceRanges beamRanges : List (ℕ × ℕ))
    (hs : handsOutPartition sliceRanges c.numPlanes)
    (hb : handsOutPartition beamRanges numberBeams) :
    (∀ pot0 r, workUnit c rs pot0 r
        = ((rangeIndices r).foldl (slicePass c rs)
            (zeros_ND2 c.pars.imageSize0 c.pars.imageSize1, pot0)).2)
    ∧ sliceRanges.flatMap rangeIndices = List.range c.numPlanes
    ∧ (∀ s, s < c.numPlanes → (sliceRanges.flatMap rangeIndices).count s = 1)
    ∧ (fill_Scompact_CPUOnly cexp I tr pars sigma pot numberBeams batchSizeTargetCPU
          numThreads beamRanges).beams = List.range numberBeams
    ∧ (∀ b, b < numberBeams →
        (fill_Scompact_CPUOnly cexp I tr pars sigma pot numberBeams batchSizeTargetCPU
          numThreads beamRanges).beams.count b = 1) := by
  have e1 := partition_indices sliceRanges c.numPlanes hs
  have e2 : (fill_Scompact_CPUOnly cexp I tr pars sigma pot numberBeams batchSizeTargetCPU
      numThreads beamRanges).beams = List.range numberBeams := by
    unfold fill_Scompact_CPUOnly
    simp only []
    rw [foldl_beamWorkUnit_beams, partition_indices beamRanges numberBeams hb]
    rfl
  refine ⟨fun pot0 r => sliceLoop_eq_foldl c rs _ _ _ _, e1, ?_, e2, ?_⟩
  · intro s hs'
    rw [e1]
    exact List.count_eq_one_of_mem (List.nodup_range _) (List.mem_range.2 hs')
  · intro b hb'
    rw [e2]
    exact List.count_eq_one_of_mem (List.nodup_range _) (List.mem_range.2 hb')

theorem exRanges_partition : handsOutPartition [((0 : ℕ), (1 : ℕ)), (1, 2)] 2 := by
  refine ⟨by decide, by decide, ?_⟩
  intro b
  simp only [List.mem_cons, List.mem_singleton, List.not_mem_nil, or_false, exists_eq_or_imp,
    exists_eq_left]
  omega

theorem every_index_processed_once_witness :
    handsOutPartition [((0 : ℕ), (1 : ℕ)), (1, 2)] exCapture.numPlanes
    ∧ [((0 : ℕ), (1 : ℕ)), (1, 2)].flatMap rangeIndices = List.range exCapture.numPlanes
    ∧ (fill_Scompact_CPUOnly (fun z => z) 1 exTransforms (exPropagator Algorithm.PRISM) 1
          (zeros_ND3 1 4 4) 2 1 1 [(0, 1), (1, 2)]).beams = List.range 2 :=
  ⟨exRanges_partition,
    (every_index_processed_once exCapture exRandom (fun z => z) 1 exTransforms
      (exPropagator Algorithm.PRISM) 1 (zeros_ND3 1 4 4) 2 1 1 [(0, 1), (1, 2)] [(0, 1), (1, 2)]
      exRanges_partition exRanges_partition).2.1,
    (every_index_processed_once exCapture exRandom (fun z => z) 1 exTransforms
      (exPropagator Algorithm.PRISM) 1 (zeros_ND3 1 4 4) 2 1 1 [(0, 1), (1, 2)] [(0, 1), (1, 2)]
      exRanges_partition exRanges_partition).2.2.2.1⟩

/-! ## Alignment test, slice index and wrapped indices -/

theorem cround_neg (q : ℚ) : cround (-q) = -cround q := by
  unfold cround
  rcases lt_trichotomy q 0 with h | h | h
  · have h1 : (0 : ℚ) ≤ -q := by linarith
    have h2 : ¬ (0 : ℚ) ≤ q := by linarith
    rw [if_pos h1, if_neg h2, neg_neg]
  · subst h
    have e : ⌊(1 : ℚ) / 2⌋ = 0 := by rw [Int.floor_eq_iff]; norm_num
    simp only [neg_zero, le_refl, if_true, zero_add, e]
  · have h1 : ¬ (0 : ℚ) ≤ -q := by linarith
    have h2 : (0 : ℚ) ≤ q := by linarith
    rw [if_neg h1, if_pos h2, neg_neg]

theorem alignmentTest_iff_dvd (m f : ℤ) : alignmentTest m f = true ↔ f ∣ m := by
  unfold alignmentTest
  rw [decide_eq_true_iff]
  exact Int.dvd_iff_tmod_eq_zero.symm

/-- Claim C29: for every integer mesh coordinate `m` and every interpolation
factor `f >= 1`, the test `m % f == 0` with the truncating remainder holds
exactly when `f` divides `m`, and it holds for `m` exactly when it holds for
`-m`; the rounded coordinate of a mirrored pixel is the negated rounded
coordinate, so a pixel and its mirror pass or fail the alignment test
together.  The test is the one that `beamTest` applies on both axes. -/
theorem alignment_test_symmetric (m f : ℤ) (_hf : 1 ≤ f) :
    (alignmentTest m f = true ↔ f ∣ m)
    ∧ (alignmentTest m f = true ↔ Int.tmod m f = 0)
    ∧ alignmentTest (-m) f = alignmentTest m f
    ∧ (∀ v : ℚ, alignmentTest (cround (-v)) f = alignmentTest (cround v) f)
    ∧ (∀ (pars : SMatrixParameters) (q2 : Array2D ℚ) (qMask : Array2D ℕ)
        (mesh_a : Array2D ℚ × Array2D ℚ) (y x : ℕ),
        beamTest pars q2 qMask mesh_a y x
          = (decide (q2.get y x < (pars.alphaBeamMax / pars.lambda) ^ 2)
              && decide (qMask.get y x = 1)
              && alignmentTest (cround (mesh_a.1.get y x)) (pars.interpolationFactorY : ℤ)
              && alignmentTest (cround (mesh_a.2.get y x)) (pars.interpolationFactorX : ℤ))) := by
  have hneg : ∀ k : ℤ, alignmentTest (-k) f = alignmentTest k f := by
    intro k
    rw [Bool.eq_iff_iff, alignmentTest_iff_dvd, alignmentTest_iff_dvd, dvd_neg]
  refine ⟨alignmentTest_iff_dvd m f, ?_, hneg m, ?_, ?_⟩
  · unfold alignmentTest
    rw [decide_eq_true_iff]
  · intro v
    rw [cround_neg, hneg]
  · intro pars q2 qMask mesh_a y x
    rfl

theorem alignment_test_symmetric_witness :
    (1 : ℤ) ≤ 3 ∧ alignmentTest (-6) 3 = alignmentTest 6 3 ∧ alignmentTest 6 3 = true :=
  ⟨by decide, (alignment_test_symmetric 6 3 (by decide)).2.2.1,
    (alignment_test_symmetric 6 3 (by decide)).1.2 (by decide)⟩

theorem wrapped_target_lt (l : List ℤ) (X : ℤ) {dim : ℕ} (h : 0 < dim) (k : ℕ) :
    ((l.map (fun i => wrapIndex (i + X) (dim : ℤ))).getD k 0).toNat < dim := by
  have hd : (0 : ℤ) < (dim : ℤ) := by exact_mod_cast h
  by_cases hk : k < l.length
  · rw [getD_map_wrap _ _ _ _ hk, wrapIndex_eq_emod _ hd]
    have h1 := Int.emod_nonneg (l.getD k 0 + X) hd.ne'
    have h2 := Int.emod_lt_of_pos (l.getD k 0 + X) hd
    omega
  · rw [List.getD_eq_default _ _ (by simpa using hk)]
    simpa using h

theorem addKernel_frame (L : Array3D ℚ) (cur_Z : ℕ) (xp yp : List ℤ) (P : Array2D ℚ)
    (r col : ℕ)
    (h : ∀ ii jj, ¬ ((yp.getD jj 0).toNat = r ∧ (xp.getD ii 0).toNat = col)) :
    (addKernel L cur_Z xp yp P).get r col = P.get r col := by
  rw [addKernel_get]
  have : (∑ ii in Finset.range xp.length, ∑ jj in Finset.range yp.length,
      if (yp.getD jj 0).toNat = r ∧ (xp.getD ii 0).toNat = col then L.get cur_Z jj ii else 0)
      = 0 := by
    apply Finset.sum_eq_zero
    intro ii _
    apply Finset.sum_eq_zero
    intro jj _
    rw [if_neg (h ii jj)]
  rw [this, add_zero]

theorem atomStep_frame (c : WorkerCapture) (rs : RandomSource) (s : ℕ) (st : SliceState)
    (a : ℕ) (h0 : 0 < c.pars.imageSize0) (h1 : 0 < c.pars.imageSize1) (r col : ℕ)
    (h : ¬ (r < c.pars.imageSize0 ∧ col < c.pars.imageSize1)) :
    (atomStep c rs s st a).projectedPotential.get r col = st.projectedPotential.get r col := by
  have key : (addKernel c.potentialLookup (c.Z_lookup (c.ID.getD a 0))
      (c.xvec.map (fun i => wrapIndex
        (i + (atomPixel c rs (c.pars.randomSeed + s * c.numPlanes) st.nRandn a).1)
        (c.pars.imageSize1 : ℤ)))
      (c.yvec.map (fun i => wrapIndex
        (i + (atomPixel c rs (c.pars.randomSeed + s * c.numPlanes) st.nRandn a).2.1)
        (c.pars.imageSize0 : ℤ)))
      st.projectedPotential).get r col = st.projectedPotential.get r col := by
    apply addKernel_frame
    intro ii jj hh
    apply h
    have e1 := wrapped_target_lt c.yvec
      (atomPixel c rs (c.pars.randomSeed + s * c.numPlanes) st.nRandn a).2.1 h0 jj
    have e2 := wrapped_target_lt c.xvec
      (atomPixel c rs (c.pars.randomSeed + s * c.numPlanes) st.nRandn a).1 h1 ii
    rw [hh.1] at e1
    rw [hh.2] at e2
    exact ⟨e1, e2⟩
  unfold atomStep
  simp only []
  split_ifs <;> first | rfl | exact key

/-- Claim C25: for every integer `i` and every extent `dim > 0` the wrapped
index `(i % dim + dim) % dim` with the truncating remainder lies in
`[0, dim)` and is congruent to `i` modulo `dim`; for positive image extents
the targets `(yp[jj], xp[ii])` of the kernel accumulation are inside the
slice for every pixel position `(X, Y)` of the atom, and one pass of the atom
loop changes no element outside the extents of the slice. -/
theorem wrapped_index_in_bounds (i dim : ℤ) (hd : 0 < dim) (c : WorkerCapture)
    (rs : RandomSource) (s : ℕ) (st : SliceState) (a : ℕ)
    (h0 : 0 < c.pars.imageSize0) (h1 : 0 < c.pars.imageSize1) :
    (0 ≤ wrapIndex i dim ∧ wrapIndex i dim < dim ∧ wrapIndex i dim ≡ i [ZMOD dim])
    ∧ (∀ (X Y : ℤ) (ii jj : ℕ),
        ((c.yvec.map (fun v => wrapIndex (v + Y) (c.pars.imageSize0 : ℤ))).getD jj 0).toNat
            < c.pars.imageSize0
        ∧ ((c.xvec.map (fun v => wrapIndex (v + X) (c.pars.imageSize1 : ℤ))).getD ii 0).toNat
            < c.pars.imageSize1)
    ∧ (∀ r col, ¬ (r < c.pars.imageSize0 ∧ col < c.pars.imageSize1) →
        (atomStep c rs s st a).projectedPotential.get r col
          = st.projectedPotential.get r col) := by
  refine ⟨⟨?_, ?_, ?_⟩, ?_, ?_⟩
  · rw [wrapIndex_eq_emod i hd]
    exact Int.emod_nonneg i hd.ne'
  · rw [wrapIndex_eq_emod i hd]
    exact Int.emod_lt_of_pos i hd
  · rw [wrapIndex_eq_emod i hd]
    exact Int.mod_modEq i dim
  · intro X Y ii jj
    exact ⟨wrapped_target_lt c.yvec Y h0 jj, wrapped_target_lt c.xvec X h1 ii⟩
  · intro r col h
    exact atomStep_frame c rs s st a h0 h1 r col h

theorem wrapped_index_in_bounds_witness :
    (0 : ℤ) < 4 ∧ 0 < exCapture.pars.imageSize0 ∧ 0 < exCapture.pars.imageSize1
    ∧ (0 ≤ wrapIndex (-5) 4 ∧ wrapIndex (-5) 4 < 4 ∧ wrapIndex (-5) 4 ≡ -5 [ZMOD 4]) :=
  ⟨by decide, by decide, by decide,
    (wrapped_index_in_bounds (-5) 4 (by decide) exCapture exRandom 0
      { projectedPotential := zeros_ND2 4 4, nRand := 0, nRandn := 0, accumulated := [] } 0
      (by decide) (by decide)).1⟩

/-! ## Tilt factors and determinism of the beam set-up -/

/-- Claim C23, the code departs from the claim: in rectangular tilt mode with
the tilt steps `1/4` along `x` and `1/32` along `y` and the minimum resolvable
step `1/8` on both axes, the `y` step is below its minimum step, so the claim
gives `interp_fy = 1`; the guard of `interp_fy` compares the `x` step, which
passes, and `interp_fy` is `round((1/32) / (1/8)) = 0`, the divisor of the
alignment test. -/
theorem interp_fy_guard_reads_x_step :
    exTilt.tiltMode = TiltSelection.Rectangular
    ∧ exTilt.lambda / exTilt.tiledCellDim1 = 1 / 8
    ∧ exTilt.yTiltStep_tem < exTilt.lambda / exTilt.tiledCellDim1
    ∧ 0 ≤ exTilt.yTiltStep_tem ∧ 0 ≤ exTilt.xTiltStep_tem
    ∧ interp_fx_HRTEM exTilt = 2
    ∧ interp_fy_HRTEM exTilt = 0
    ∧ ¬ (1 ≤ interp_fy_HRTEM exTilt) := by
  decide!

theorem beamTest_congr (pars pars' : SMatrixParameters)
    (hl : pars.lambda = pars'.lambda) (ha : pars.alphaBeamMax = pars'.alphaBeamMax)
    (hfx : pars.interpolationFactorX = pars'.interpolationFactorX)
    (hfy : pars.interpolationFactorY = pars'.interpolationFactorY) :
    beamTest pars = beamTest pars' := by
  funext q2 qMask mesh_a y x
  unfold beamTest
  rw [hl, ha, hfx, hfy]

theorem setupBeams_congr {K K' : Type} (u : Utility) (pars pars' : SMatrixParameters)
    (c : Coordinates K) (c' : Coordinates K')
    (h0 : c.imageSize0 = c'.imageSize0) (h1 : c.imageSize1 = c'.imageSize1)
    (hq : c.q2 = c'.q2) (hm : c.qMask = c'.qMask) (ht : beamTest pars = beamTest pars') :
    setupBeams u pars c = setupBeams u pars' c' := by
  unfold setupBeams
  rw [h0, h1, hq, hm, ht]

/-- Claim C21: the beams that `setupCoordinates` followed by `setupBeams`
select are a function of the image extents, the pixel sizes, the wavelength,
`alphaBeamMax` and the interpolation factors: two parameter sets that agree
on these give the same `numberBeams` and the same `beamsIndex`, whatever
their other members are.  The thread count, the batch-size target and the
random seed are not read by the two functions. -/
theorem beams_depend_on_geometry_only {K K' : Type} [Field K] [Field K'] (cexp : K → K)
    (I pi : K) (cexp' : K' → K') (I' pi' : K') (u : Utility) (pars pars' : SMatrixParameters)
    (hj : pars.pot.dimj = pars'.pot.dimj) (hi : pars.pot.dimi = pars'.pot.dimi)
    (hp0 : pars.pixelSize0 = pars'.pixelSize0) (hp1 : pars.pixelSize1 = pars'.pixelSize1)
    (hl : pars.lambda = pars'.lambda) (ha : pars.alphaBeamMax = pars'.alphaBeamMax)
    (hfx : pars.interpolationFactorX = pars'.interpolationFactorX)
    (hfy : pars.interpolationFactorY = pars'.interpolationFactorY) :
    (setupBeams u pars (setupCoordinates cexp I pi u pars)).numberBeams
        = (setupBeams u pars' (setupCoordinates cexp' I' pi' u pars')).numberBeams
    ∧ (setupBeams u pars (setupCoordinates cexp I pi u pars)).beamsIndex
        = (setupBeams u pars' (setupCoordinates cexp' I' pi' u pars')).beamsIndex := by
  have e : setupBeams u pars (setupCoordinates cexp I pi u pars)
      = setupBeams u pars' (setupCoordinates cexp' I' pi' u pars') := by
    apply setupBeams_congr
    · exact hj
    · exact hi
    · simp only [setupCoordinates, hj, hi, hp0, hp1]
    · simp only [setupCoordinates, hj, hi]
    · exact beamTest_congr pars pars' hl ha hfx hfy
  rw [e]
  exact ⟨rfl, rfl⟩

theorem beams_depend_on_geometry_only_witness :
    exSMatrix.sliceThickness ≠ exSMatrixOther.sliceThickness
    ∧ (setupBeams exUtility exSMatrix
          (setupCoordinates (fun z => z) (1 : ℚ) 3 exUtility exSMatrix)).numberBeams
        = (setupBeams exUtility exSMatrixOther
            (setupCoordinates (fun z => z) (1 : ℚ) 3 exUtility exSMatrixOther)).numberBeams
    ∧ (setupBeams exUtility exSMatrix
          (setupCoordinates (fun z => z) (1 : ℚ) 3 exUtility exSMatrix)).beamsIndex
        = (setupBeams exUtility exSMatrixOther
            (setupCoordinates (fun z => z) (1 : ℚ) 3 exUtility exSMatrixOther)).beamsIndex :=
  ⟨by decide!,
    (beams_depend_on_geometry_only (fun z => z) (1 : ℚ) 3 (fun z => z) (1 : ℚ) 3 exUtility
      exSMatrix exSMatrixOther rfl rfl rfl rfl rfl rfl rfl rfl).1,
    (beams_depend_on_geometry_only (fun z => z) (1 : ℚ) 3 (fun z => z) (1 : ℚ) 3 exUtility
      exSMatrix exSMatrixOther rfl rfl rfl rfl rfl rfl rfl rfl).2⟩

/-! ## Species and lookup -/

theorem unique_cons_head (a : ℕ) (l : List ℕ) : ∃ t, unique (a :: l) = a :: t := by
  induction l generalizing a with
  | nil => exact ⟨[], rfl⟩
  | cons b l ih =>
    unfold unique
    split_ifs with h
    · subst h
      exact ih a
    · exact ⟨_, rfl⟩

theorem mem_unique (z : ℕ) (l : List ℕ) : z ∈ unique l ↔ z ∈ l := by
  induction l with
  | nil => simp [unique]
  | cons a l ih =>
    cases l with
    | nil => simp [unique]
    | cons b l =>
      unfold unique
      split_ifs with h
      · subst h
        rw [ih]
        simp
      · rw [List.mem_cons, ih, List.mem_cons (a := z) (b := a)]

theorem unique_sorted (l : List ℕ) (h : l.Pairwise (· ≤ ·)) :
    (unique l).Pairwise (· < ·) := by
  induction l with
  | nil => simp [unique]
  | cons a l ih =>
    cases l with
    | nil => simp [unique]
    | cons b l =>
      have hs := ih (List.Pairwise.of_cons h)
      unfold unique
      split_ifs with hab
      · exact hs
      · rw [List.pairwise_cons]
        refine ⟨?_, hs⟩
        intro x hx
        rw [mem_unique] at hx
        have h1 : a ≤ b := (List.pairwise_cons.1 h).1 b (List.mem_cons_self _ _)
        have h2 : b ≤ x := by
          rcases List.mem_cons.1 hx with e | e
          · exact e ▸ le_refl _
          · exact (List.pairwise_cons.1 (List.Pairwise.of_cons h)).1 x e
        omega

theorem build_Z_lookup_fold (U : List ℕ) (hU : U.Nodup) (n : ℕ) (hn : n ≤ U.length) :
    ∀ i, i < n →
      ((List.range n).foldl
        (fun (Z : ℕ → ℕ) i => fun key => if key = U.getD i 0 then i else Z key)
        (fun _ => 0)) (U.getD i 0) = i := by
  induction n with
  | zero => intro i hi; omega
  | succ n ih =>
    intro i hi
    rw [List.range_succ, List.foldl_append, List.foldl_cons, List.foldl_nil]
    by_cases h : i = n
    · subst h
      simp only [if_true]
    · have hi' : i < n := by omega
      have hne : U.getD i 0 ≠ U.getD n 0 := by
        rw [List.getD_eq_getElem _ _ (by omega), List.getD_eq_getElem _ _ (by omega)]
        intro e
        exact h ((List.Nodup.getElem_inj_iff hU).1 e)
      simp only [hne, if_false]
      exact ih (by omega) i hi'

theorem build_Z_lookup_inverse (U : List ℕ) (hU : U.Nodup) (z : ℕ) (hz : z ∈ U) :
    build_Z_lookup U z < U.length ∧ U.getD (build_Z_lookup U z) 0 = z := by
  obtain ⟨i, hi, e⟩ := List.getElem_of_mem hz
  have e' : U.getD i 0 = z := by rw [List.getD_eq_getElem _ _ hi, e]
  have h := build_Z_lookup_fold U hU U.length le_rfl i hi
  unfold build_Z_lookup
  rw [← e', h]
  exact ⟨hi, rfl⟩

theorem fetch_potentials_dimk (projPot : ℕ → List ℚ → List ℚ → Array2D ℚ)
    (P : Array3D ℚ) (species : List ℕ) (xr yr : List ℚ) :
    (fetch_potentials projPot P species xr yr).dimk = P.dimk := by
  unfold fetch_potentials
  generalize List.range P.dimk = ks
  generalize hd : P.dimj = dj
  generalize hi : P.dimi = di
  clear hd hi
  induction ks generalizing P with
  | nil => rfl
  | cons k ks ih =>
    rw [List.foldl_cons, ih]
    unfold fetchSlice
    generalize List.range dj = js
    induction js generalizing P with
    | nil => rfl
    | cons j js ih2 =>
      rw [List.foldl_cons, ih2]
      unfold fetchRow
      generalize List.range di = is
      induction is generalizing P with
      | nil => rfl
      | cons i is ih3 =>
        rw [List.foldl_cons, ih3]
        rfl

/-- Claim C30: `get_unique_atomic_species` returns a strictly increasing list
whose entries are exactly the species of the atoms; for every atom the index
`Z_lookup[species]` built from that list is below the length of the list and
below the first extent of the lookup table, the list holds the atom's species
at that index, and the slice of the lookup table at that index is the kernel
of the atom's own species. -/
theorem unique_species_lookup (projPot : ℕ → List ℚ → List ℚ → Array2D ℚ)
    (pars : Parameters) :
    (get_unique_atomic_species pars).Pairwise (· < ·)
    ∧ (∀ z, z ∈ get_unique_atomic_species pars ↔ ∃ a ∈ pars.atoms, a.species = z)
    ∧ (∀ a ∈ pars.atoms,
        build_Z_lookup (get_unique_atomic_species pars) a.species
            < (get_unique_atomic_species pars).length
        ∧ (get_unique_atomic_species pars).getD
            (build_Z_lookup (get_unique_atomic_species pars) a.species) 0 = a.species
        ∧ build_Z_lookup (get_unique_atomic_species pars) a.species
            < (potentialLookupOf projPot pars).dimk
        ∧ ∀ j i, j < 2 * (yleng pars).toNat + 1 → i < 2 * (xleng pars).toNat + 1 →
            (potentialLookupOf projPot pars).get
                (build_Z_lookup (get_unique_atomic_species pars) a.species) j i
              = (projPot a.species (xrOf pars) (yrOf pars)).get j i) := by
  have hs : (get_unique_atomic_species pars).Pairwise (· < ·) := by
    unfold get_unique_atomic_species
    exact unique_sorted _ (List.sorted_insertionSort _ _)
  have hm : ∀ z, z ∈ get_unique_atomic_species pars ↔ ∃ a ∈ pars.atoms, a.species = z := by
    intro z
    unfold get_unique_atomic_species
    rw [mem_unique, (List.perm_insertionSort _ _).mem_iff, List.mem_map]
  have hn : (get_unique_atomic_species pars).Nodup := hs.imp (fun h => Nat.ne_of_lt h)
  refine ⟨hs, hm, ?_⟩
  intro a ha
  obtain ⟨h1, h2⟩ := build_Z_lookup_inverse _ hn a.species ((hm _).2 ⟨a, ha, rfl⟩)
  have hd : (potentialLookupOf projPot pars).dimk = (get_unique_atomic_species pars).length :=
    fetch_potentials_dimk _ _ _ _ _
  refine ⟨h1, h2, hd ▸ h1, ?_⟩
  intro j i hj hi
  unfold potentialLookupOf
  rw [fetch_potentials_get _ _ _ _ _ _ _ _ h1 hj hi, h2]

/-! ## Conservation of the accumulated potential -/

theorem sum_wrapped_target (d0 d1 : ℕ) (h0 : 0 < d0) (h1 : 0 < d1) (A B : ℤ) (v : ℚ) :
    (∑ r in Finset.range d0, ∑ col in Finset.range d1,
        if A % (d0 : ℤ) = (r : ℤ) ∧ B % (d1 : ℤ) = (col : ℤ) then v else 0) = v := by
  have hA0 := Int.emod_nonneg A (by exact_mod_cast h0.ne' : (d0 : ℤ) ≠ 0)
  have hA1 := Int.emod_lt_of_pos A (by exact_mod_cast h0 : (0 : ℤ) < (d0 : ℤ))
  have hB0 := Int.emod_nonneg B (by exact_mod_cast h1.ne' : (d1 : ℤ) ≠ 0)
  have hB1 := Int.emod_lt_of_pos B (by exact_mod_cast h1 : (0 : ℤ) < (d1 : ℤ))
  rw [Finset.sum_eq_single (A % (d0 : ℤ)).toNat]
  · rw [Finset.sum_eq_single (B % (d1 : ℤ)).toNat]
    · rw [if_pos]
      constructor <;> omega
    · intro col _ hne
      rw [if_neg]
      rintro ⟨_, e⟩
      apply hne
      omega
    · intro h
      exfalso
      apply h
      rw [Finset.mem_range]
      omega
  · intro r _ hne
    apply Finset.sum_eq_zero
    intro col _
    rw [if_neg]
    rintro ⟨e, _⟩
    apply hne
    omega
  · intro h
    exfalso
    apply h
    rw [Finset.mem_range]
    omega

theorem sum_atomContribution (c : WorkerCapture) (h0 : 0 < c.pars.imageSize0)
    (h1 : 0 < c.pars.imageSize1) (a : ℕ) :
    (∑ r in Finset.range c.pars.imageSize0, ∑ col in Finset.range c.pars.imageSize1,
        atomContribution c a r col) = kernelSum c a := by
  unfold atomContribution kernelSum
  have e : ∀ r ∈ Finset.range c.pars.imageSize0,
      (∑ col in Finset.range c.pars.imageSize1,
        ∑ ii in Finset.range c.xvec.length, ∑ jj in Finset.range c.yvec.length,
          if (c.yvec.getD jj 0 + cround (c.y.getD a 0 / c.pars.pixelSize0))
                % (c.pars.imageSize0 : ℤ) = (r : ℤ)
              ∧ (c.xvec.getD ii 0 + cround (c.x.getD a 0 / c.pars.pixelSize1))
                % (c.pars.imageSize1 : ℤ) = (col : ℤ)
          then c.potentialLookup.get (c.Z_lookup (c.ID.getD a 0)) jj ii else 0)
      = ∑ ii in Finset.range c.xvec.length, ∑ jj in Finset.range c.yvec.length,
          ∑ col in Finset.range c.pars.imageSize1,
            if (c.yvec.getD jj 0 + cround (c.y.getD a 0 / c.pars.pixelSize0))
                  % (c.pars.imageSize0 : ℤ) = (r : ℤ)
                ∧ (c.xvec.getD ii 0 + cround (c.x.getD a 0 / c.pars.pixelSize1))
                  % (c.pars.imageSize1 : ℤ) = (col : ℤ)
            then c.potentialLookup.get (c.Z_lookup (c.ID.getD a 0)) jj ii else 0 := by
    intro r _
    rw [Finset.sum_comm]
    apply Finset.sum_congr rfl
    intro ii _
    rw [Finset.sum_comm]
  rw [Finset.sum_congr rfl e, Finset.sum_comm]
  apply Finset.sum_congr rfl
  intro ii _
  rw [Finset.sum_comm]
  apply Finset.sum_congr rfl
  intro jj _
  exact sum_wrapped_target _ _ h0 h1 _ _ _

/-- Claim C28: without thermal displacement and occupancy rejection, for
positive image extents of any size, the sum of all pixels of the slice `s`
written by a single-slice unit of work is the sum, over the atoms of the
slice, of the sum of the kernel entries of the atom's species; the wrapped
targets of a kernel larger than the image fall onto the same pixels and still
add up.  The total is the same for every order in which the atoms of the
slice are listed. -/
theorem accumulation_conserves_total (c : WorkerCapture) (rs : RandomSource)
    (pot : Array3D ℚ) (s : ℕ)
    (hT : c.pars.includeThermalEffects = false) (hO : c.pars.includeOccupancy = false)
    (h0 : 0 < c.pars.imageSize0) (h1 : 0 < c.pars.imageSize1) :
    (∑ r in Finset.range c.pars.imageSize0, ∑ col in Finset.range c.pars.imageSize1,
        (workUnit c rs pot (s, s + 1)).get s r col)
      = ∑ a in (Finset.range c.x.length).filter (fun a => c.zPlane.getD a 0 = (s : ℤ)),
          kernelSum c a
    ∧ ∀ l : List ℕ,
        l.Perm ((List.range c.x.length).filter (fun a => c.zPlane.getD a 0 = (s : ℤ))) →
        (∑ r in Finset.range c.pars.imageSize0, ∑ col in Finset.range c.pars.imageSize1,
            (workUnit c rs pot (s, s + 1)).get s r col)
          = (l.map (kernelSum c)).sum := by
  have main : (∑ r in Finset.range c.pars.imageSize0, ∑ col in Finset.range c.pars.imageSize1,
        (workUnit c rs pot (s, s + 1)).get s r col)
      = ∑ a in (Finset.range c.x.length).filter (fun a => c.zPlane.getD a 0 = (s : ℤ)),
          kernelSum c a := by
    simp only [workUnit_single_get c rs pot hT hO h0 h1]
    have e : ∀ r ∈ Finset.range c.pars.imageSize0,
        (∑ col in Finset.range c.pars.imageSize1,
          ∑ a in (Finset.range c.x.length).filter (fun a => c.zPlane.getD a 0 = (s : ℤ)),
            atomContribution c a r col)
        = ∑ a in (Finset.range c.x.length).filter (fun a => c.zPlane.getD a 0 = (s : ℤ)),
            ∑ col in Finset.range c.pars.imageSize1, atomContribution c a r col :=
      fun r _ => Finset.sum_comm
    rw [Finset.sum_congr rfl e, Finset.sum_comm]
    apply Finset.sum_congr rfl
    intro a _
    exact sum_atomContribution c h0 h1 a
  refine ⟨main, ?_⟩
  intro l hl
  rw [main, (hl.map (kernelSum c)).sum_eq]
  have hnd : ((List.range c.x.length).filter
      (fun a => decide (c.zPlane.getD a 0 = (s : ℤ)))).Nodup :=
    (List.nodup_range _).filter _
  have e : (List.range c.x.length).toFinset = Finset.range c.x.length := by
    ext x
    simp
  rw [← List.sum_toFinset _ hnd, List.toFinset_filter, e]
  apply Finset.sum_congr _ (fun _ _ => rfl)
  ext x
  simp

theorem accumulation_conserves_total_witness :
    exCapture.pars.includeThermalEffects = false ∧ exCapture.pars.includeOccupancy = false
    ∧ 0 < exCapture.pars.imageSize0 ∧ 0 < exCapture.pars.imageSize1
    ∧ (∑ r in Finset.range exCapture.pars.imageSize0,
        ∑ col in Finset.range exCapture.pars.imageSize1,
          (workUnit exCapture exRandom (zeros_ND3 2 4 4) (0, 0 + 1)).get 0 r col)
      = ∑ a in (Finset.range exCapture.x.length).filter
            (fun a => exCapture.zPlane.getD a 0 = ((0 : ℕ) : ℤ)),
          kernelSum exCapture a :=
  ⟨rfl, rfl, by decide, by decide,
    (accumulation_conserves_total exCapture exRandom (zeros_ND3 2 4 4) 0 rfl rfl (by decide)
      (by decide)).1⟩

/-! ## The crop and the beams -/

theorem foldl_assign_get {α : Type} (v : ℕ → ℕ → α) (l : List (ℕ × ℕ)) (init : Array2D α)
    (y x : ℕ) :
    (l.foldl (fun A p => A.set p.1 p.2 (v p.1 p.2)) init).get y x
      = if (y, x) ∈ l then v y x else init.get y x := by
  induction l generalizing init with
  | nil => simp
  | cons a l ih =>
    rw [List.foldl_cons, ih]
    by_cases h : (y, x) ∈ l
    · rw [if_pos h, if_pos (List.mem_cons_of_mem _ h)]
    · rw [if_neg h, get_set]
      by_cases e : y = a.1 ∧ x = a.2
      · obtain ⟨e1, e2⟩ := e
        subst e1 e2
        simp
      · have : ¬ (y, x) ∈ a :: l := by
          rw [List.mem_cons]
          rintro (h' | h')
          · apply e
            rw [← h']
            exact ⟨rfl, rfl⟩
          · exact h h'
        rw [if_neg e, if_neg this]

theorem foldl_triple_third (f g h : ℕ → ℕ → ℚ) (l : List (ℕ × ℕ))
    (st : Array2D ℚ × Array2D ℚ × Array2D ℚ) :
    (l.foldl (fun (st : Array2D ℚ × Array2D ℚ × Array2D ℚ) p =>
        (st.1.set p.1 p.2 (f p.1 p.2), st.2.1.set p.1 p.2 (g p.1 p.2),
          st.2.2.set p.1 p.2 (h p.1 p.2))) st).2.2
      = l.foldl (fun A p => A.set p.1 p.2 (h p.1 p.2)) st.2.2 := by
  induction l generalizing st with
  | nil => rfl
  | cons a l ih => rw [List.foldl_cons, List.foldl_cons, ih]

theorem beamsOutput_get (imageSize0 imageSize1 : ℕ) (pixelSize0 pixelSize1 : ℚ)
    (qxa qya beams : Array2D ℚ) (qxInd qyInd : List ℕ) (y x : ℕ) :
    (downsampleFourierComponents imageSize0 imageSize1 pixelSize0 pixelSize1 qxa qya beams
        qxInd qyInd).beamsOutput.get y x
      = if y < qyInd.length ∧ x < qxInd.length then
          beams.get (qyInd.getD y 0) (qxInd.getD x 0)
        else 0 := by
  unfold downsampleFourierComponents
  simp only []
  rw [rasterLoop_eq_foldl]
  rw [foldl_triple_third (fun y x => qxa.get (qyInd.getD y 0) (qxInd.getD x 0))
    (fun y x => qya.get (qyInd.getD y 0) (qxInd.getD x 0))
    (fun y x => beams.get (qyInd.getD y 0) (qxInd.getD x 0))]
  rw [foldl_assign_get (fun y x => beams.get (qyInd.getD y 0) (qxInd.getD x 0))]
  simp only [mem_rasterList]
  rfl

theorem downsample_band (n : ℕ) (h : 4 ∣ n) :
    (∀ r, inBand n r ↔ ∃ y, y < n / 2 ∧ (downsampleIndex n).getD y 0 = r)
    ∧ (∀ y y', y < n / 2 → y' < n / 2 →
        (downsampleIndex n).getD y 0 = (downsampleIndex n).getD y' 0 → y = y')
    ∧ (∀ y, y < n / 2 → (downsampleIndex n).getD y 0 < n) := by
  obtain ⟨q, rfl⟩ := h
  have hg := (downsampleIndex_spec (4 * q)).2
  have e4 : 4 * q / 4 = q := by omega
  have e2 : 4 * q / 2 = 2 * q := by omega
  refine ⟨?_, ?_, ?_⟩
  · intro r
    unfold inBand
    rw [e4, e2]
    constructor
    · rintro (hr | ⟨hr1, hr2⟩)
      · refine ⟨r, by omega, ?_⟩
        rw [hg, e4, if_pos (by omega)]
      · refine ⟨r - 2 * q, by omega, ?_⟩
        rw [hg, e4, if_neg (by omega), if_pos (by omega)]
        omega
    · rintro ⟨y, hy, e⟩
      rw [hg, e4] at e
      split_ifs at e <;> omega
  · intro y y' hy hy' e
    rw [hg, hg, e4] at e
    rw [e2] at hy hy'
    split_ifs at e <;> omega
  · intro y hy
    rw [hg, e4]
    rw [e2] at hy
    split_ifs <;> omega

theorem setupBeams_selected {K : Type} (u : Utility) (pars : SMatrixParameters)
    (c : Coordinates K) :
    (setupBeams u pars c).numberBeams
        = ((rasterList c.qMask.dimj c.qMask.dimi).filter
            (fun p => decide ((setupBeams u pars c).mask.get p.1 p.2 = 1))).length
    ∧ (∀ (k : ℕ) (hk : k < ((rasterList c.qMask.dimj c.qMask.dimi).filter
          (fun p => decide ((setupBeams u pars c).mask.get p.1 p.2 = 1))).length),
        (setupBeams u pars c).beams.get
            (((rasterList c.qMask.dimj c.qMask.dimi).filter
              (fun p => decide ((setupBeams u pars c).mask.get p.1 p.2 = 1)))[k]).1
            (((rasterList c.qMask.dimj c.qMask.dimi).filter
              (fun p => decide ((setupBeams u pars c).mask.get p.1 p.2 = 1)))[k]).2
          = ((k + 1 : ℕ) : ℚ))
    ∧ (∀ y x, (y, x) ∉ (rasterList c.qMask.dimj c.qMask.dimi).filter
          (fun p => decide ((setupBeams u pars c).mask.get p.1 p.2 = 1)) →
        (setupBeams u pars c).beams.get y x = 0)
    ∧ (∀ y x, (y, x) ∈ (rasterList c.qMask.dimj c.qMask.dimi).filter
          (fun p => decide ((setupBeams u pars c).mask.get p.1 p.2 = 1)) →
        c.qMask.get y x = 1) := by
  obtain ⟨_, s2, s3⟩ := numberTheBeams_spec (setupBeams u pars c).mask c.qMask
    c.imageSize0 c.imageSize1
  refine ⟨?_, s2, s3, ?_⟩
  · rw [setupBeams_numberBeams]
    exact (selected_length c.qMask (setupBeams u pars c).mask
      (fun p => beamTest pars c.q2 c.qMask
        (u.meshgrid (u.makeFourierCoords c.imageSize0 (1 / (c.imageSize0 : ℚ)))
          (u.makeFourierCoords c.imageSize1 (1 / (c.imageSize1 : ℚ)))) p.1 p.2)
      (fun y x => setupBeams_mask_get u pars c y x)).symm
  · intro y x hm
    rw [List.mem_filter, decide_eq_true_iff, setupBeams_mask_get] at hm
    obtain ⟨_, hm⟩ := hm
    split_ifs at hm with hc
    exact ((beamTest_iff _ _ _ _ _ _).1 hc.2).2.1

/-- Claim C27: for image extents that are multiples of `4`, a pixel of the
image has `qMask = 1` exactly when it is the pixel `(qyInd[y], qxInd[x])` of a
crop position `(y, x)`, and distinct crop positions address distinct pixels;
so `beamsOutput` of `downsampleFourierComponents` holds every beam number
`1 .. numberBeams` at exactly one position and every one of its elements is
`0` or one of these numbers. -/
theorem crop_keeps_every_beam {K : Type} [Field K] (cexp : K → K) (I pi : K) (u : Utility)
    (pars : SMatrixParameters) (h0 : 4 ∣ pars.pot.dimj) (h1 : 4 ∣ pars.pot.dimi) :
    let c := setupCoordinates cexp I pi u pars
    let b := setupBeams u pars c
    let q := setupSMatrixCoordinates c.imageSize0 c.imageSize1
    let d := downsampleFourierComponents c.imageSize0 c.imageSize1 pars.pixelSize0
      pars.pixelSize1 c.qxa c.qya b.beams q.1 q.2
    (q.2.length = c.imageSize0 / 2 ∧ q.1.length = c.imageSize1 / 2)
    ∧ (∀ r col, c.qMask.get r col = 1
        ↔ ∃ y x, y < q.2.length ∧ x < q.1.length ∧ q.2.getD y 0 = r ∧ q.1.getD x 0 = col)
    ∧ (∀ y y' x x', y < q.2.length → y' < q.2.length → x < q.1.length → x' < q.1.length →
        q.2.getD y 0 = q.2.getD y' 0 → q.1.getD x 0 = q.1.getD x' 0 → y = y' ∧ x = x')
    ∧ (∀ k : ℕ, 1 ≤ k → k ≤ b.numberBeams →
        ∃ y x, y < q.2.length ∧ x < q.1.length ∧ d.beamsOutput.get y x = (k : ℚ)
          ∧ ∀ y' x', y' < q.2.length → x' < q.1.length →
              d.beamsOutput.get y' x' = (k : ℚ) → y' = y ∧ x' = x)
    ∧ (∀ y x, d.beamsOutput.get y x = 0
        ∨ ∃ k : ℕ, 1 ≤ k ∧ k ≤ b.numberBeams ∧ d.beamsOutput.get y x = (k : ℚ)) := by
  intro c b q d
  obtain ⟨B0, J0, _⟩ := downsample_band pars.pot.dimj h0
  obtain ⟨B1, J1, _⟩ := downsample_band pars.pot.dimi h1
  have hl0 : q.2.length = pars.pot.dimj / 2 := (downsampleIndex_spec _).1
  have hl1 : q.1.length = pars.pot.dimi / 2 := (downsampleIndex_spec _).1
  have hmask : ∀ r col, c.qMask.get r col = 1 ↔ inBand pars.pot.dimj r ∧ inBand pars.pot.dimi col := by
    intro r col
    have e : c.qMask.get r col
        = if inBand pars.pot.dimj r ∧ inBand pars.pot.dimi col then 1 else 0 :=
      buildMask_get _ _ r col
    rw [e]
    split_ifs with hc
    · exact ⟨fun _ => hc, fun _ => rfl⟩
    · exact ⟨fun h => absurd h (by decide), fun h => absurd h hc⟩
  have hcrop : ∀ r col, c.qMask.get r col = 1
      ↔ ∃ y x, y < q.2.length ∧ x < q.1.length ∧ q.2.getD y 0 = r ∧ q.1.getD x 0 = col := by
    intro r col
    rw [hmask, B0 r, B1 col, hl0, hl1]
    constructor
    · rintro ⟨⟨y, hy, ey⟩, ⟨x, hx, ex⟩⟩
      exact ⟨y, x, hy, hx, ey, ex⟩
    · rintro ⟨y, x, hy, hx, ey, ex⟩
      exact ⟨⟨y, hy, ey⟩, ⟨x, hx, ex⟩⟩
  have hinj : ∀ y y' x x', y < q.2.length → y' < q.2.length → x < q.1.length →
      x' < q.1.length → q.2.getD y 0 = q.2.getD y' 0 → q.1.getD x 0 = q.1.getD x' 0 →
      y = y' ∧ x = x' := by
    intro y y' x x' hy hy' hx hx' ey ex
    rw [hl0] at hy hy'
    rw [hl1] at hx hx'
    exact ⟨J0 y y' hy hy' ey, J1 x x' hx hx' ex⟩
  obtain ⟨n1', n2, n3, n4⟩ := setupBeams_selected u pars c
  have n1 : b.numberBeams = ((rasterList c.qMask.dimj c.qMask.dimi).filter
      (fun p => decide (b.mask.get p.1 p.2 = 1))).length := n1'
  have hout : ∀ y x, d.beamsOutput.get y x
      = if y < q.2.length ∧ x < q.1.length then b.beams.get (q.2.getD y 0) (q.1.getD x 0)
        else 0 := fun y x => beamsOutput_get _ _ _ _ _ _ _ _ _ y x
  refine ⟨⟨hl0, hl1⟩, hcrop, hinj, ?_, ?_⟩
  · intro k hk1 hk2
    have hk : k - 1 < ((rasterList c.qMask.dimj c.qMask.dimi).filter
        (fun p => decide (b.mask.get p.1 p.2 = 1))).length := by
      rw [← n1]
      omega
    have hv : b.beams.get
        (((rasterList c.qMask.dimj c.qMask.dimi).filter
          (fun p => decide (b.mask.get p.1 p.2 = 1)))[k - 1]).1
        (((rasterList c.qMask.dimj c.qMask.dimi).filter
          (fun p => decide (b.mask.get p.1 p.2 = 1)))[k - 1]).2
        = ((k - 1 + 1 : ℕ) : ℚ) := n2 (k - 1) hk
    have hcast : ((k - 1 + 1 : ℕ) : ℚ) = (k : ℚ) := by
      congr 1
      omega
    rw [hcast] at hv
    obtain ⟨y, x, hy, hx, ey, ex⟩ := (hcrop _ _).1 (n4 _ _ (List.getElem_mem hk))
    refine ⟨y, x, hy, hx, ?_, ?_⟩
    · rw [hout, if_pos ⟨hy, hx⟩, ey, ex]
      exact hv
    · intro y' x' hy' hx' hv'
      rw [hout, if_pos ⟨hy', hx'⟩] at hv'
      have hmem : (q.2.getD y' 0, q.1.getD x' 0)
          ∈ (rasterList c.qMask.dimj c.qMask.dimi).filter
            (fun p => decide (b.mask.get p.1 p.2 = 1)) := by
        by_contra hne
        rw [n3 _ _ hne] at hv'
        have : (k : ℚ) = 0 := hv'.symm
        have : k = 0 := by exact_mod_cast this
        omega
      obtain ⟨j, hj, ej⟩ := List.getElem_of_mem hmem
      have hvj := n2 j hj
      rw [ej] at hvj
      have e1 : ((j + 1 : ℕ) : ℚ) = (k : ℚ) := by rw [← hvj]; exact hv'
      have e2 : j + 1 = k := by exact_mod_cast e1
      have e3 : j = k - 1 := by omega
      subst e3
      have e4 := congrArg Prod.fst ej
      have e5 := congrArg Prod.snd ej
      exact hinj y' y x' x hy' hy hx' hx
        (show q.2.getD y' 0 = q.2.getD y 0 from e4.symm.trans ey.symm)
        (show q.1.getD x' 0 = q.1.getD x 0 from e5.symm.trans ex.symm)
  · intro y x
    rw [hout]
    split_ifs with hc
    · by_cases hmem : (q.2.getD y 0, q.1.getD x 0)
          ∈ (rasterList c.qMask.dimj c.qMask.dimi).filter
            (fun p => decide (b.mask.get p.1 p.2 = 1))
      · obtain ⟨j, hj, ej⟩ := List.getElem_of_mem hmem
        have hvj := n2 j hj
        rw [ej] at hvj
        right
        refine ⟨j + 1, by omega, ?_, hvj⟩
        rw [n1]
        omega
      · left
        exact n3 _ _ hmem
    · left
      rfl

theorem crop_keeps_every_beam_witness :
    4 ∣ exSMatrix.pot.dimj ∧ 4 ∣ exSMatrix.pot.dimi
    ∧ ((setupSMatrixCoordinates exCoordinates.imageSize0 exCoordinates.imageSize1).2.length
          = exCoordinates.imageSize0 / 2
        ∧ (setupSMatrixCoordinates exCoordinates.imageSize0 exCoordinates.imageSize1).1.length
          = exCoordinates.imageSize1 / 2)
    ∧ (∀ r col, exCoordinates.qMask.get r col = 1
        ↔ ∃ y x,
            y < (setupSMatrixCoordinates exCoordinates.imageSize0
                  exCoordinates.imageSize1).2.length
            ∧ x < (setupSMatrixCoordinates exCoordinates.imageSize0
                  exCoordinates.imageSize1).1.length
            ∧ (setupSMatrixCoordinates exCoordinates.imageSize0
                  exCoordinates.imageSize1).2.getD y 0 = r
            ∧ (setupSMatrixCoordinates exCoordinates.imageSize0
                  exCoordinates.imageSize1).1.getD x 0 = col) :=
  ⟨by decide, by decide,
    (crop_keeps_every_beam (fun z => z) (1 : ℚ) 3 exUtility exSMatrix (by decide)
      (by decide)).1,
    (crop_keeps_every_beam (fun z => z) (1 : ℚ) 3 exUtility exSMatrix (by decide)
      (by decide)).2.1⟩

/-! ## Determinism of the slices -/

theorem atomStep_congr_rs (c : WorkerCapture) (rs rs' : RandomSource) (s : ℕ)
    (hO : c.pars.includeOccupancy = false)
    (h : ∀ n, rs.randn (c.pars.randomSeed + s * c.numPlanes) n
      = rs'.randn (c.pars.randomSeed + s * c.numPlanes) n)
    (st : SliceState) (a : ℕ) :
    atomStep c rs s st a = atomStep c rs' s st a := by
  simp only [atomStep, atomPixel, hO, h, Bool.false_and, Bool.false_eq_true, if_false]

theorem accumulateSlice_congr_rs (c : WorkerCapture) (rs rs' : RandomSource) (s : ℕ)
    (hO : c.pars.includeOccupancy = false)
    (h : ∀ n, rs.randn (c.pars.randomSeed + s * c.numPlanes) n
      = rs'.randn (c.pars.randomSeed + s * c.numPlanes) n)
    (P : Array2D ℚ) :
    accumulateSlice c rs s P = accumulateSlice c rs' s P := by
  unfold accumulateSlice atomLoop
  have e : atomStep c rs s = atomStep c rs' s := by
    funext st a
    exact atomStep_congr_rs c rs rs' s hO h st a
  rw [e]

theorem sliceLoop_congr_rs (c : WorkerCapture) (rs rs' : RandomSource)
    (hO : c.pars.includeOccupancy = false) (n : ℕ) :
    ∀ (cur : ℕ) (P : Array2D ℚ) (pot : Array3D ℚ),
      (∀ s, cur ≤ s → s < cur + n → ∀ m, rs.randn (c.pars.randomSeed + s * c.numPlanes) m
        = rs'.randn (c.pars.randomSeed + s * c.numPlanes) m) →
      sliceLoop c rs n cur P pot = sliceLoop c rs' n cur P pot := by
  induction n with
  | zero => intro cur P pot _; rfl
  | succ n ih =>
    intro cur P pot h
    unfold sliceLoop
    simp only []
    rw [accumulateSlice_congr_rs c rs rs' cur hO (h cur le_rfl (by omega))]
    exact ih _ _ _ (fun s h1 h2 => h s (by omega) (by omega))

/-- The array `pars.pot` after a unit of work: inside the range of the unit
slice `k` is the buffer after the passes for the slices from the start of the
range up to `k`, and every other slice is as before. -/
theorem sliceLoop_data (c : WorkerCapture) (rs : RandomSource) (n : ℕ) :
    ∀ (cur : ℕ) (P : Array2D ℚ) (pot : Array3D ℚ),
      sliceLoop c rs n cur P pot
        = { dimk := pot.dimk, dimj := pot.dimj, dimi := pot.dimi,
            data := fun k j i =>
              if cur ≤ k ∧ k < cur + n then
                ((List.range' cur (k + 1 - cur)).foldl
                  (fun B s => accumulateSlice c rs s B) P).data j i
              else pot.data k j i } := by
  induction n with
  | zero =>
    intro cur P pot
    have : ∀ k, ¬ (cur ≤ k ∧ k < cur + 0) := fun k => by omega
    simp only [sliceLoop, this, if_false]
  | succ n ih =>
    intro cur P pot
    unfold sliceLoop
    simp only []
    rw [ih]
    show Array3D.mk _ _ _ _ = Array3D.mk _ _ _ _
    congr 1
    funext k j i
    by_cases h1 : cur + 1 ≤ k ∧ k < cur + 1 + n
    · have h2 : cur ≤ k ∧ k < cur + (n + 1) := by omega
      have e : k + 1 - cur = (k + 1 - (cur + 1)) + 1 := by omega
      rw [if_pos h1, if_pos h2, e, List.range'_succ, List.foldl_cons]
    · rw [if_neg h1]
      by_cases h3 : k = cur
      · subst h3
        have h2 : k ≤ k ∧ k < k + (n + 1) := by omega
        have e : k + 1 - k = 1 := by omega
        rw [if_pos h2, e]
        simp [Array3D.copySlice]
      · have h2 : ¬ (cur ≤ k ∧ k < cur + (n + 1)) := by omega
        rw [if_neg h2]
        simp [Array3D.copySlice, h3]

theorem workUnit_data (c : WorkerCapture) (rs : RandomSource) (pot : Array3D ℚ)
    (r : ℕ × ℕ) :
    workUnit c rs pot r
      = { dimk := pot.dimk, dimj := pot.dimj, dimi := pot.dimi,
          data := fun k j i =>
            if r.1 ≤ k ∧ k < r.1 + (r.2 - r.1) then
              ((List.range' r.1 (k + 1 - r.1)).foldl
                (fun B s => accumulateSlice c rs s B)
                (zeros_ND2 c.pars.imageSize0 c.pars.imageSize1)).data j i
            else pot.data k j i } := by
  unfold workUnit
  exact sliceLoop_data c rs _ _ _ _

theorem workUnit_comm (c : WorkerCapture) (rs : RandomSource) (pot : Array3D ℚ)
    (r r' : ℕ × ℕ) (h : r.2 ≤ r'.1 ∨ r'.2 ≤ r.1) :
    workUnit c rs (workUnit c rs pot r) r' = workUnit c rs (workUnit c rs pot r') r := by
  rw [workUnit_data c rs (workUnit c rs pot r) r', workUnit_data c rs (workUnit c rs pot r') r,
    workUnit_data c rs pot r, workUnit_data c rs pot r']
  show Array3D.mk _ _ _ _ = Array3D.mk _ _ _ _
  congr 1
  funext k j i
  by_cases h1 : r.1 ≤ k ∧ k < r.1 + (r.2 - r.1)
  · have h2 : ¬ (r'.1 ≤ k ∧ k < r'.1 + (r'.2 - r'.1)) := by omega
    simp only [if_pos h1, if_neg h2]
  · by_cases h2 : r'.1 ≤ k ∧ k < r'.1 + (r'.2 - r'.1)
    · simp only [if_neg h1, if_pos h2]
    · simp only [if_neg h1, if_neg h2]

theorem workUnit_congr_on (c : WorkerCapture) (rs rs' : RandomSource)
    (hO : c.pars.includeOccupancy = false) (r : ℕ × ℕ)
    (h : ∀ s, r.1 ≤ s → s < r.2 →
      ∀ m, rs.randn (c.pars.randomSeed + s * c.numPlanes) m
        = rs'.randn (c.pars.randomSeed + s * c.numPlanes) m)
    (pot : Array3D ℚ) :
    workUnit c rs pot r = workUnit c rs' pot r := by
  unfold workUnit
  apply sliceLoop_congr_rs c rs rs' hO
  intro s h1 h2 m
  exact h s h1 (by omega) m

theorem foldl_workUnit_congr_rs (c : WorkerCapture) (rs rs' : RandomSource)
    (hO : c.pars.includeOccupancy = false) (ranges : List (ℕ × ℕ))
    (h : ∀ r ∈ ranges, ∀ s, r.1 ≤ s → s < r.2 →
      ∀ m, rs.randn (c.pars.randomSeed + s * c.numPlanes) m
        = rs'.randn (c.pars.randomSeed + s * c.numPlanes) m)
    (pot : Array3D ℚ) :
    ranges.foldl (workUnit c rs) pot = ranges.foldl (workUnit c rs') pot := by
  induction ranges generalizing pot with
  | nil => rw [List.foldl_nil, List.foldl_nil]
  | cons r l ih =>
    rw [List.foldl_cons, List.foldl_cons,
      workUnit_congr_on c rs rs' hO r (h r (List.mem_cons_self _ _)) pot]
    exact ih (fun r' hr' => h r' (List.mem_cons_of_mem _ hr')) _

theorem foldl_workUnit_perm (c : WorkerCapture) (rs : RandomSource)
    (ranges ranges' : List (ℕ × ℕ)) (hp : ranges.Pairwise (fun r r' => r.2 ≤ r'.1))
    (hperm : ranges'.Perm ranges) (pot : Array3D ℚ) :
    ranges'.foldl (workUnit c rs) pot = ranges.foldl (workUnit c rs) pot := by
  refine (List.Perm.foldl_eq' hperm.symm ?_ pot).symm
  intro x hx y hy z
  by_cases e : x = y
  · rw [e]
  · apply workUnit_comm
    have hsym : ∀ a ∈ ranges, ∀ b ∈ ranges, a ≠ b → (a.2 ≤ b.1 ∨ b.2 ≤ a.1) := by
      intro a ha b hb hab
      have := List.Pairwise.forall_of_forall_of_flip (l := ranges)
        (R := fun a b => a ≠ b → (a.2 ≤ b.1 ∨ b.2 ≤ a.1))
        (fun a _ h => absurd rfl h)
        (hp.imp (fun h _ => Or.inl h))
        (hp.imp (fun h _ => Or.inr h))
      exact this ha hb hab
    exact hsym x hx y hy e

theorem prepare_pars (pars : Parameters) (potentialLookup : Array3D ℚ)
    (unique_species : List ℕ) (xvec yvec : List ℤ) (c : WorkerCapture)
    (hc : prepare pars potentialLookup unique_species xvec yvec = some c) : c.pars = pars := by
  unfold prepare at hc
  simp only [] at hc
  split at hc
  · cases hc
  · split at hc
    · cases hc
    · cases hc
      rfl

theorem foldl_workUnit_slice (c : WorkerCapture) (rs : RandomSource)
    (ranges : List (ℕ × ℕ)) (hp : ranges.Pairwise (fun r r' => r.2 ≤ r'.1))
    (s : ℕ) (hs : (s, s + 1) ∈ ranges) (pot : Array3D ℚ) (r col : ℕ) :
    (ranges.foldl (workUnit c rs) pot).get s r col
      = (accumulateSlice c rs s (zeros_ND2 c.pars.imageSize0 c.pars.imageSize1)).get r col := by
  obtain ⟨p, q, hpq⟩ := List.append_of_mem hs
  have hperm : ((p ++ q) ++ [(s, s + 1)]).Perm ranges := by
    rw [hpq]
    exact (List.perm_append_singleton _ _).trans List.perm_middle.symm
  rw [← foldl_workUnit_perm c rs ranges _ hp hperm pot, List.foldl_append, List.foldl_cons,
    List.foldl_nil, workUnit_data]
  have h1 : s ≤ s ∧ s < s + (s + 1 - s) := by omega
  have e : s + 1 - s = 1 := by omega
  simp only [Array3D.get]
  rw [if_pos h1, e]
  rfl

/-- Claim C22: with occupancy disabled (and in particular with thermal effects
enabled) the potential volume is the same for two runs on the same inputs
whose generators give the same normal draws for the seeds
`randomSeed + s * numPlanes` of the slices, whatever the order in which the
ranges of the dispatcher are processed by the workers; and a slice `s` that is
handed out as the range `[s, s + 1)` is the buffer that one pass for the
slice `s` accumulates from zero, with the generator seeded
`randomSeed + s * numPlanes` and drawn in atom order, whatever the other
ranges are. -/
theorem potential_volume_deterministic (pars : Parameters) (rs rs' : RandomSource)
    (potentialLookup : Array3D ℚ) (unique_species : List ℕ) (xvec yvec : List ℤ)
    (numPlanes : ℕ) (ranges ranges' : List (ℕ × ℕ))
    (hO : pars.includeOccupancy = false)
    (hn : Option.map (fun c => c.numPlanes)
      (prepare pars potentialLookup unique_species xvec yvec) = some numPlanes)
    (hr : handsOutPartition ranges numPlanes) (hperm : ranges'.Perm ranges)
    (hseed : ∀ s, s < numPlanes → ∀ m, rs.randn (pars.randomSeed + s * numPlanes) m
      = rs'.randn (pars.randomSeed + s * numPlanes) m) :
    generateProjectedPotentials pars rs potentialLookup unique_species xvec yvec ranges
        = generateProjectedPotentials pars rs' potentialLookup unique_species xvec yvec ranges'
    ∧ ∃ c pot, prepare pars potentialLookup unique_species xvec yvec = some c
        ∧ generateProjectedPotentials pars rs potentialLookup unique_species xvec yvec ranges
            = some (numPlanes, pot)
        ∧ ∀ s r col, (s, s + 1) ∈ ranges →
            pot.get s r col
              = (accumulateSlice c rs s (zeros_ND2 pars.imageSize0 pars.imageSize1)).get r col := by
  cases hc : prepare pars potentialLookup unique_species xvec yvec with
  | none =>
    rw [hc] at hn
    cases hn
  | some c =>
    rw [hc] at hn
    have hnp : c.numPlanes = numPlanes := by
      simpa using hn
    have hpars : c.pars = pars := prepare_pars _ _ _ _ _ c hc
    have hseed' : ∀ r ∈ ranges', ∀ s, r.1 ≤ s → s < r.2 →
        ∀ m, rs.randn (c.pars.randomSeed + s * c.numPlanes) m
          = rs'.randn (c.pars.randomSeed + s * c.numPlanes) m := by
      intro r hr' s h1 h2 m
      rw [hpars, hnp]
      exact hseed s ((hr.2.2 s).2 ⟨r, hperm.subset hr', h1, h2⟩) m
    have hO' : c.pars.includeOccupancy = false := by rw [hpars]; exact hO
    have g1 : generateProjectedPotentials pars rs potentialLookup unique_species xvec yvec
        ranges = some (numPlanes,
          ranges.foldl (workUnit c rs) (zeros_ND3 c.numPlanes pars.imageSize0 pars.imageSize1)) := by
      unfold generateProjectedPotentials
      rw [hc]
      simp only [hnp]
    have g2 : generateProjectedPotentials pars rs' potentialLookup unique_species xvec yvec
        ranges' = some (numPlanes,
          ranges'.foldl (workUnit c rs') (zeros_ND3 c.numPlanes pars.imageSize0 pars.imageSize1)) := by
      unfold generateProjectedPotentials
      rw [hc]
      simp only [hnp]
    refine ⟨?_, c, _, rfl, g1, ?_⟩
    · rw [g1, g2, ← foldl_workUnit_congr_rs c rs rs' hO' ranges' hseed',
        foldl_workUnit_perm c rs ranges ranges' hr.2.1 hperm]
    · intro s r col hs
      rw [foldl_workUnit_slice c rs ranges hr.2.1 s hs, hpars]

theorem potential_volume_deterministic_witness :
    exThermal.includeThermalEffects = true ∧ exThermal.includeOccupancy = false
    ∧ handsOutPartition [((0 : ℕ), (1 : ℕ)), (1, 2)] 2
    ∧ exRandomOne.randn 11 0 ≠ exRandomOther.randn 11 0
    ∧ generateProjectedPotentials exThermal exRandomOne exLookup [1, 6] [0] [0]
          [(0, 1), (1, 2)]
        = generateProjectedPotentials exThermal exRandomOther exLookup [1, 6] [0] [0]
          [(1, 2), (0, 1)] :=
  ⟨rfl, rfl, exRanges_partition, by decide!,
    (potential_volume_deterministic exThermal exRandomOne exRandomOther exLookup [1, 6] [0] [0]
      2 [(0, 1), (1, 2)] [(1, 2), (0, 1)] rfl (by decide!) exRanges_partition
      (List.Perm.swap _ _ _)
      (fun s hs m => by
        have h : s = 0 ∨ s = 1 := by omega
        rcases h with h | h <;> subst h <;> rfl)).1⟩

end Prismatic
